import Mathlib

/-!
Verification of the CodeIQ2 repository analysis core.

This file gives a shallow embedding, in Lean 4, of the parts of the
repository that the specification's testable properties talk about:

* `src/core/ir.py`                    — the `CodeComponent` record and its
                                        `to_dict` / `from_dict` serialization;
* `src/core/doc_dependency_parser.py` — `apply_doc_dependency_rules`;
* `src/backend/core/repository_parser.py` — pass 3 (class → method linkage);
* `src/backend/languages/python/extractor.py` — `get_docstring`,
                                        `extract_components`, `extract_globals`;
* `src/core/topo.py`                  — `detect_cycles` (Tarjan),
                                        `resolve_cycles`, `topological_sort`
                                        (Kahn) and `dependency_first_dfs`.

Python strings are modelled as Lean `String`, but all string operations
(`split`, `join`, `startswith`, `endswith`, slicing, comparison) are defined
here directly on the underlying character lists so that they are executable
by kernel reduction and match Python's code-point semantics.

Python `dict`s are modelled as association lists in insertion order and
Python `set`s as duplicate-free lists in iteration order; a set's `add` is
append-if-absent.  All quantified theorems about `dict`-of-`set` inputs carry
`Nodup` hypotheses exactly where Python's `dict`/`set` types guarantee them.
-/

namespace CodeIQ

/-! ## Python string primitives -/

/-- Python `s.split(".")` on the character list: splitting on `'.'`,
keeping empty pieces, `[] ↦ [[]]` (Python `"".split(".") == [""]`). -/
def splitDotChars : List Char → List Char → List (List Char)
  | [], acc => [acc.reverse]
  | c :: rest, acc =>
    if c = '.' then acc.reverse :: splitDotChars rest []
    else splitDotChars rest (c :: acc)

/-- Python `s.split(".")`. -/
def pySplitDot (s : String) : List String :=
  (splitDotChars s.data []).map String.mk

/-- Python `".".join(l)`. -/
def pyJoinDot : List String → String
  | [] => ""
  | [x] => x
  | x :: rest => x ++ "." ++ pyJoinDot rest

/-- Python `s.startswith(pre)`. -/
def pyStartsWith (s pre : String) : Bool :=
  pre.data.isPrefixOf s.data

/-- Python `s.endswith(suf)`. -/
def pyEndsWith (s suf : String) : Bool :=
  suf.data.isSuffixOf s.data

/-- Python `len(s)` (number of code points). -/
def pyLen (s : String) : Nat := s.data.length

/-- Python `s[:n]`. -/
def pyTake (s : String) (n : Nat) : String := ⟨s.data.take n⟩

/-- Python `s[a:-b]` (for `a, b ≥ 0`; empty when the range is empty,
like Python slicing). -/
def pySliceTrim (s : String) (a b : Nat) : String :=
  ⟨(s.data.drop a).take (pyLen s - a - b)⟩

/-- Python `s.strip()` (whitespace trimming; `Char.isWhitespace` is the
space/tab/newline/carriage-return predicate, a faithful model for the
ASCII whitespace appearing in docstrings). -/
def pyStrip (s : String) : String :=
  ⟨((s.data.dropWhile Char.isWhitespace).reverse.dropWhile Char.isWhitespace).reverse⟩

/-- Python string `<=`: lexicographic comparison by code points,
via the lexicographic linear order on `List Char`. -/
def strLe (a b : String) : Prop := a.data ≤ b.data

instance : DecidableRel strLe := fun a b =>
  inferInstanceAs (Decidable (a.data ≤ b.data))

/-- Python `sorted(l)` for a list of strings. -/
def pySorted (l : List String) : List String := l.insertionSort strLe

/-! ## Association lists (Python `dict` in insertion order) -/

/-- Lookup in an association list (first match, like a Python `dict`
whose keys are unique). -/
def alookup {α : Type} : List (String × α) → String → Option α
  | [], _ => none
  | (k', v) :: rest, k => if k' = k then some v else alookup rest k

/-- Python `d[k] = v`: overwrite in place if the key is present
(Python dicts keep the original position), else append. -/
def aset {α : Type} (t : List (String × α)) (k : String) (v : α) : List (String × α) :=
  if (alookup t k).isSome then
    t.map (fun p => if p.1 = k then (k, v) else p)
  else t ++ [(k, v)]

/-- Python `set.add`: append if absent (sets never hold duplicates). -/
def addDep (l : List String) (d : String) : List String :=
  if d ∈ l then l else l ++ [d]

/-! ## `src/core/ir.py` — the `CodeComponent` IR entity -/

/-- `CodeComponent` from `src/core/ir.py`.  `depends_on` is a Python `set`,
modelled as a list read up to membership. -/
structure CodeComponent where
  id : String
  language : String
  type : String
  file_path : String
  module_path : String
  depends_on : List String
  source_code : Option String
  start_line : Nat
  end_line : Nat
  has_docstring : Bool
  docstring : String
deriving Repr, DecidableEq

/-- The dictionary produced by `CodeComponent.to_dict` (the record always
carries exactly these keys, so it is modelled as a structure). -/
structure ComponentRecord where
  id : String
  language : String
  type : String
  file_path : String
  module_path : String
  depends_on : List String
  source_code : Option String
  start_line : Nat
  end_line : Nat
  has_docstring : Bool
  docstring : String
deriving Repr, DecidableEq

/-- `CodeComponent.to_dict` (`src/core/ir.py` lines 54-73).  `depends_on`
is serialized as a list; `source_code` longer than 500 characters is
truncated with an ellipsis (Python's `s and len(s) > 500` is falsy for
`None` and for the empty string, both handled by the `Option`/length test). -/
def CodeComponent.to_dict (c : CodeComponent) : ComponentRecord :=
  { id := c.id
    language := c.language
    type := c.type
    file_path := c.file_path
    module_path := c.module_path
    depends_on := c.depends_on
    start_line := c.start_line
    end_line := c.end_line
    has_docstring := c.has_docstring
    docstring := c.docstring
    source_code :=
      match c.source_code with
      | some s => if pyLen s > 500 then some (pyTake s 500 ++ "...") else some s
      | none => none }

/-- `CodeComponent.from_dict` (`src/core/ir.py` lines 75-99).  All
`data.get(...)` defaults are irrelevant here because `to_dict` always emits
every key; `set(data.get('depends_on', []))` is the list read as a set. -/
def CodeComponent.from_dict (d : ComponentRecord) : CodeComponent :=
  { id := d.id
    language := d.language
    type := d.type
    file_path := d.file_path
    module_path := d.module_path
    depends_on := d.depends_on
    source_code := d.source_code
    start_line := d.start_line
    end_line := d.end_line
    has_docstring := d.has_docstring
    docstring := d.docstring }

/-! ## `src/core/doc_dependency_parser.py` — dependency abstraction

`apply_doc_dependency_rules` runs four in-place passes over the component
table.  Every pass reads, of components other than the one being rewritten,
only their `type` and their presence in the table — data no pass modifies —
and passes 1 and 2 touch disjoint sets of components (classes vs.
methods/functions).  The in-place loops are therefore equivalent to one
`map` over the table in which each component is rewritten against the
*original* table as environment, which is how they are modelled here. -/

/-- The component table (`Dict[str, CodeComponent]` in insertion order). -/
abbrev Table := List (String × CodeComponent)

/-- `components.get(i).type` for an id `i` (`None`-propagating). -/
def compType (t : Table) (i : String) : Option String :=
  (alookup t i).map (·.type)

/-- `".".join(dep.split(".")[:-1])` — the owner prefix of a dotted id. -/
def pyOwner (dep : String) : String :=
  pyJoinDot (pySplitDot dep).dropLast

/-- `len(dep.split("."))`. -/
def partsLen (dep : String) : Nat := (pySplitDot dep).length

/-- One dependency of a `class` component under pass 1
(`doc_dependency_parser.py` lines 19-53): skip self, keep own methods,
keep global variables, collapse another class's method to that class,
keep everything else. -/
def pass1Step (t : Table) (cid : String) (acc : List String) (dep : String) :
    List String :=
  if dep = cid then acc
  else if pyStartsWith dep (cid ++ ".") then addDep acc dep
  else if compType t dep = some "global_variable" then addDep acc dep
  else if 2 ≤ partsLen dep ∧ compType t (pyOwner dep) = some "class" then
    addDep acc (pyOwner dep)
  else addDep acc dep

/-- Pass 1 rebuilt dependency set of a class component. -/
def pass1Deps (t : Table) (c : CodeComponent) : List String :=
  c.depends_on.foldl (pass1Step t c.id) []

/-- `self_class` of a method/function component
(`doc_dependency_parser.py` lines 65-69). -/
def selfClassOf (c : CodeComponent) : Option String :=
  if c.type = "method" then
    if 2 ≤ partsLen c.id then some (pyOwner c.id) else none
  else none

/-- The keep/collapse logic shared by all pass-2 dependencies that survive
the self-class and private-helper drops (lines 82-103). -/
def pass2Keep (t : Table) (acc : List String) (dep : String) : List String :=
  if compType t dep = some "global_variable" then addDep acc dep
  else if compType t dep = some "class" then addDep acc dep
  else if 2 ≤ partsLen dep ∧ compType t (pyOwner dep) = some "class" then
    addDep acc (pyOwner dep)
  else addDep acc dep

/-- One dependency of a `method`/`function` component under pass 2
(lines 73-103). -/
def pass2Step (t : Table) (selfC : Option String) (acc : List String)
    (dep : String) : List String :=
  match selfC with
  | some s =>
    if dep = s then acc
    else if pyStartsWith dep (s ++ "._") then acc
    else pass2Keep t acc dep
  | none => pass2Keep t acc dep

/-- Pass 2 rebuilt dependency set of a method/function component. -/
def pass2Deps (t : Table) (c : CodeComponent) : List String :=
  c.depends_on.foldl (pass2Step t (selfClassOf c)) []

/-- The full per-component rewrite of `apply_doc_dependency_rules`:
pass 1 for classes, pass 2 for methods and functions; pass 3
("orchestrator collapse", lines 115-144) computes subset tests but ends in
`pass` — its mutation is commented out in the source — so it is the
identity; pass 4 (lines 150-151) discards the component's own id. -/
def applyDocRulesComp (t : Table) (c : CodeComponent) : CodeComponent :=
  let c1 :=
    if c.type = "class" then { c with depends_on := pass1Deps t c }
    else if c.type = "method" ∨ c.type = "function" then
      { c with depends_on := pass2Deps t c }
    else c
  { c1 with depends_on := c1.depends_on.filter (· ≠ c1.id) }

/-- `apply_doc_dependency_rules` (`src/core/doc_dependency_parser.py`). -/
def apply_doc_dependency_rules (t : Table) : Table :=
  t.map (fun p => (p.1, applyDocRulesComp t p.2))

/-! ## `src/backend/core/repository_parser.py` — pass 3 (containment) -/

/-- One step of the inner scan of pipeline pass 3 (lines 57-62): add
`other_id` to the class's dependencies when it is a method of this class
and not the initializer. -/
def linkStep (cid : String) (acc : List String) (entry : String × CodeComponent) :
    List String :=
  if entry.2.type = "method" ∧ pyStartsWith entry.1 (cid ++ ".") ∧
      ¬ pyEndsWith entry.1 ".__init__" then
    addDep acc entry.1
  else acc

/-- Pipeline pass 3 (`RepositoryParser.parse`, lines 56-62): for every class
component, scan the full table and add every own non-initializer method as a
dependency.  The scan reads only ids and `type` fields, which the loop never
modifies, so the in-place loop is a `map` against the original table. -/
def linkClassMethods (t : Table) : Table :=
  t.map (fun p =>
    if p.2.type = "class" then
      (p.1, { p.2 with depends_on := t.foldl (linkStep p.1) p.2.depends_on })
    else p)

/-- Dependency set of the component stored at id `i` (empty if absent). -/
def depsAt (t : Table) (i : String) : List String :=
  ((alookup t i).map (·.depends_on)).getD []

/-! ## `src/backend/languages/python/extractor.py` — tree-sitter extraction

A tree-sitter syntax node is modelled with its node type, UTF-8 text, the
line/byte spans used by the extractor, its named fields `name`, `body` and
`left` (the only fields the extractor reads, via `child_by_field_name`) and
its child list.  `text.decode()` is the `text` field itself. -/

inductive TSNode where
  | mk (typ : String) (text : String)
       (startRow endRow startByte endByte : Nat)
       (nameF bodyF leftF : Option TSNode)
       (children : List TSNode)

def TSNode.typ : TSNode → String
  | .mk t _ _ _ _ _ _ _ _ _ => t

def TSNode.text : TSNode → String
  | .mk _ s _ _ _ _ _ _ _ _ => s

def TSNode.startRow : TSNode → Nat
  | .mk _ _ r _ _ _ _ _ _ _ => r

def TSNode.endRow : TSNode → Nat
  | .mk _ _ _ r _ _ _ _ _ _ => r

def TSNode.startByte : TSNode → Nat
  | .mk _ _ _ _ b _ _ _ _ _ => b

def TSNode.endByte : TSNode → Nat
  | .mk _ _ _ _ _ b _ _ _ _ => b

def TSNode.nameF : TSNode → Option TSNode
  | .mk _ _ _ _ _ _ n _ _ _ => n

def TSNode.bodyF : TSNode → Option TSNode
  | .mk _ _ _ _ _ _ _ b _ _ => b

def TSNode.leftF : TSNode → Option TSNode
  | .mk _ _ _ _ _ _ _ _ l _ => l

def TSNode.children : TSNode → List TSNode
  | .mk _ _ _ _ _ _ _ _ _ cs => cs

/-- `source[a:b]` — the byte-span slice (bytes modelled as characters). -/
def pySlice (source : String) (a b : Nat) : String :=
  ⟨(source.data.drop a).take (b - a)⟩

/-- `node.child_by_field_name("name").text.decode()`.  The parser guarantees
the field is present wherever the extractor reads it (Python would raise
`AttributeError` otherwise); an absent field yields `""` here. -/
def nameText (n : TSNode) : String :=
  ((n.nameF).map TSNode.text).getD ""

/-- The inner loop of `get_docstring`: the first child of an expression
statement whose type is `"string"`. -/
def stringChild : List TSNode → Option TSNode
  | [] => none
  | c :: rest => if c.typ = "string" then some c else stringChild rest

/-- Quote stripping of `get_docstring` (lines 27-31): triple quotes drop
three characters from each end (Python `[3:-3]`), single quotes one. -/
def stripQuotes (s : String) : String :=
  if pyStartsWith s "\"\"\"" ∨ pyStartsWith s "'''" then pySliceTrim s 3 3
  else if pyStartsWith s "\"" ∨ pyStartsWith s "'" then pySliceTrim s 1 1
  else s

/-- The statement scan of `get_docstring` (lines 20-35): an expression
statement with a string child returns it; an expression statement without
one, or a comment, is skipped; any other statement stops the scan. -/
def scanBody : List TSNode → Bool × String
  | [] => (false, "")
  | c :: rest =>
    if c.typ = "expression_statement" then
      match stringChild c.children with
      | some sn => (true, pyStrip (stripQuotes sn.text))
      | none => scanBody rest
    else if c.typ = "comment" then scanBody rest
    else (false, "")

/-- `get_docstring` (`src/backend/languages/python/extractor.py` lines 4-37). -/
def get_docstring (node : TSNode) : Bool × String :=
  match node.bodyF with
  | none => (false, "")
  | some b => scanBody b.children

/-- A fresh `CodeComponent` as the extractor builds one. -/
def mkExtracted (cid typ fp mp : String) (n : TSNode) (source : String)
    (hasDoc : Bool) (doc : String) : CodeComponent :=
  { id := cid
    language := "python"
    type := typ
    file_path := fp
    module_path := mp
    depends_on := []
    source_code := some (pySlice source n.startByte n.endByte)
    start_line := n.startRow + 1
    end_line := n.endRow + 1
    has_docstring := hasDoc
    docstring := doc }

/-- Decorated-method unwrapping (lines 116-123): the first child of the
decorated definition that is a function definition. -/
def firstFuncChild : List TSNode → Option TSNode
  | [] => none
  | c :: rest =>
    if c.typ = "function_definition" ∨ c.typ = "async_function_definition" then some c
    else firstFuncChild rest

/-- The method loop inside the class branch of `walk` (lines 107-146). -/
def addMethod (classId fp mp source : String) (comps : Table) (stmt : TSNode) :
    Table :=
  let fn? :=
    if stmt.typ = "function_definition" ∨ stmt.typ = "async_function_definition" then
      some stmt
    else if stmt.typ = "decorated_definition" then firstFuncChild stmt.children
    else none
  match fn? with
  | none => comps
  | some fn =>
    let mid := classId ++ "." ++ nameText fn
    let (hd, doc) := get_docstring fn
    aset comps mid (mkExtracted mid "method" fp mp fn source hd doc)

/-- The per-node body of `walk` (lines 62-146), before the child recursion:
top-level (async) functions when the parent is a module, classes together
with their direct methods. -/
def walkHere (fp mp source : String) (n : TSNode) (parentTyp : String)
    (comps : Table) : Table :=
  if (n.typ = "function_definition" ∨ n.typ = "async_function_definition") ∧
      parentTyp = "module" then
    let cid := mp ++ "." ++ nameText n
    let (hd, doc) := get_docstring n
    aset comps cid (mkExtracted cid "function" fp mp n source hd doc)
  else if n.typ = "class_definition" then
    let classId := mp ++ "." ++ nameText n
    let (hd, doc) := get_docstring n
    let comps1 := aset comps classId (mkExtracted classId "class" fp mp n source hd doc)
    match n.bodyF with
    | some body => body.children.foldl (addMethod classId fp mp source) comps1
    | none => comps1
  else comps

/-- `walk` (lines 62-149): handle the node, then recurse into every child
with this node's type as the parent type. -/
def walk (fp mp source : String) (n : TSNode) (parentTyp : String)
    (comps : Table) : Table :=
  match n with
  | .mk t tx r1 r2 b1 b2 nf bf lf cs =>
    let comps1 := walkHere fp mp source (.mk t tx r1 r2 b1 b2 nf bf lf cs) parentTyp comps
    cs.attach.foldl (fun acc c => walk fp mp source c.1 t acc) comps1
termination_by sizeOf n
decreasing_by
  have h1 := List.sizeOf_lt_of_mem c.2
  simp only [TSNode.mk.sizeOf_spec]
  omega

/-- One global candidate (lines 160-180 / 182-202): an assignment whose
left field is an identifier yields a `global_variable` component, unless
the id is already present (first write wins). -/
def addGlobal (fp mp source : String) (comps : Table) (asn : TSNode) : Table :=
  match asn.leftF with
  | some lhs =>
    if lhs.typ = "identifier" then
      let vid := mp ++ "." ++ lhs.text
      if (alookup comps vid).isSome then comps
      else aset comps vid (mkExtracted vid "global_variable" fp mp asn source false "")
    else comps
  | none => comps

/-- `extract_globals` (lines 152-202): module-level assignments, either
wrapped in an expression statement or direct children of the module.
This function is *defined but never invoked* by `extract_components`. -/
def extract_globals (fp mp source : String) (root : TSNode) (comps : Table) :
    Table :=
  root.children.foldl (fun acc child =>
    if child.typ = "expression_statement" then
      child.children.foldl (fun acc2 ec =>
        if ec.typ = "assignment" then addGlobal fp mp source acc2 ec else acc2) acc
    else if child.typ = "assignment" then addGlobal fp mp source acc child
    else acc) comps

/-- `extract_components` (lines 40-209).  The source comments announce
"First extract classes, functions, and methods" and "Then extract global
variables", but the call to `extract_globals` is missing from the function
body (lines 204-209): only `walk(root, "module")` runs before `return`. -/
def extract_components (root : TSNode) (_source fp mp : String) : Table :=
  walk fp mp _source root "module" []

/-! ## `src/core/topo.py` — cycle detection, resolution and orderings

The dependency graph `Dict[str, Set[str]]` is an association list of
adjacency lists, in `dict` insertion / `set` iteration order.  An edge
A → B (`B ∈ graph[A]`) means "A depends on B". -/

/-- The dependency graph. -/
abbrev Graph := List (String × List String)

/-- `graph.get(node, set())`. -/
def getAdj (g : Graph) (n : String) : List String :=
  (alookup g n).getD []

/-- The node ids iterated by `for node in graph`. -/
def keys (g : Graph) : List String := g.map Prod.fst

/-- Every id that can ever be visited: the keys plus all successors. -/
def allNodes (g : Graph) : List String :=
  keys g ++ (g.map Prod.snd).flatten

/-- The mutable state of `detect_cycles`.  `stack`'s head is its top
(Python appends and pops at the end of the list).  `sccs` records *every*
popped strongly-connected component in pop order — including singletons,
which Python discards before they reach `cycles` — purely so that proofs
can speak about the pop order; it influences nothing else. -/
structure TarjanSt where
  counter : Nat
  stack : List String
  indices : List (String × Nat)
  lowlinks : List (String × Nat)
  onStack : List String
  sccs : List (List String)
  cycles : List (List String)
deriving Repr

/-- Map update, modelled as a prepend: `alookup` finds the newest binding,
so prepending is exactly `indices[node] = v`. -/
def nset (m : List (String × Nat)) (k : String) (v : Nat) : List (String × Nat) :=
  (k, v) :: m

/-- `indices[n]` (always present where Python reads it; the `0` default is
never exercised, which the invariant proofs below establish). -/
def idxOf (st : TarjanSt) (n : String) : Nat :=
  (alookup st.indices n).getD 0

/-- `lowlinks[n]`. -/
def lowOf (st : TarjanSt) (n : String) : Nat :=
  (alookup st.lowlinks n).getD 0

/-- The `while True: w = stack.pop(); scc.append(w); if w == node: break`
loop: the popped component in pop order, and the remaining stack.
The `[]` case is unreachable — `node` is always on the stack here. -/
def popUntil (node : String) : List String → List String × List String
  | [] => ([], [])
  | w :: rest =>
    if w = node then ([w], rest)
    else
      let (scc, rest') := popUntil node rest
      (w :: scc, rest')

/-- The component-emission step at the end of `strongconnect`
(lines 89-98): when `lowlinks[node] == indices[node]`, pop the component;
record it in `cycles` only when it has more than one member. -/
def popSccIf (node : String) (st : TarjanSt) : TarjanSt :=
  if lowOf st node = idxOf st node then
    let (scc, rest) := popUntil node st.stack
    { st with
      stack := rest
      onStack := scc.foldl (fun os w => os.erase w) st.onStack
      sccs := st.sccs ++ [scc]
      cycles := if 1 < scc.length then st.cycles ++ [scc] else st.cycles }
  else st

/-- `strongconnect` (lines 74-98), with a fuel argument bounding the
recursion depth.  Each nested call is on a node not yet in `indices`, so
the depth never exceeds the number of unvisited nodes; the fuel chosen by
`tarjanRun` therefore never runs out (`strongconnect_spec` below includes
this).  The successor loop is in `set` iteration order, i.e. the adjacency
list's order. -/
def strongconnect (g : Graph) : Nat → String → TarjanSt → TarjanSt
  | 0, _, st => st
  | fuel+1, node, st =>
    let st1 : TarjanSt :=
      { st with
        indices := nset st.indices node st.counter
        lowlinks := nset st.lowlinks node st.counter
        counter := st.counter + 1
        stack := node :: st.stack
        onStack := addDep st.onStack node }
    let st2 := (getAdj g node).foldl (fun acc s =>
      if (alookup acc.indices s).isNone then
        let acc2 := strongconnect g fuel s acc
        { acc2 with
          lowlinks := nset acc2.lowlinks node (min (lowOf acc2 node) (lowOf acc2 s)) }
      else if s ∈ acc.onStack then
        { acc with
          lowlinks := nset acc.lowlinks node (min (lowOf acc node) (idxOf acc s)) }
      else acc) st1
    popSccIf node st2

/-- The initial Tarjan state. -/
def initSt : TarjanSt := ⟨0, [], [], [], [], [], []⟩

/-- Fuel that always suffices: one more than the number of node
occurrences. -/
def tarjanFuel (g : Graph) : Nat := (allNodes g).length + 1

/-- The driver loop of `detect_cycles` (lines 100-102). -/
def tarjanRun (g : Graph) : TarjanSt :=
  (keys g).foldl
    (fun st n =>
      if (alookup st.indices n).isNone then strongconnect g (tarjanFuel g) n st
      else st)
    initSt

/-- `detect_cycles` (`src/core/topo.py` lines 57-104). -/
def detect_cycles (g : Graph) : List (List String) :=
  (tarjanRun g).cycles

/-- The inner removal loop of `resolve_cycles` for one detected component
(lines 130-137): every edge whose two endpoints lie in the component is
removed.  Every reported component consists of graph keys (a non-key has no
successors and is popped alone), so Python's `new_graph[node]` never fails;
entries whose key is outside the component are untouched. -/
def removeCycleEdges (cyc : List String) (g : Graph) : Graph :=
  g.map (fun p => if p.1 ∈ cyc then (p.1, p.2.filter (· ∉ cyc)) else p)

/-- `resolve_cycles` (lines 109-139).  With no cycles the *input* graph is
returned unchanged; otherwise the removal runs on a copy
(`{n: deps.copy()}` keeps every key — keys of a Python dict are unique). -/
def resolve_cycles (g : Graph) : Graph :=
  let cycles := detect_cycles g
  if cycles = [] then g
  else cycles.foldl (fun ng cyc => removeCycleEdges cyc ng) g

/-- Add a dependent into `dependents[k]` (a `set.add`). -/
def adjAdd (m : List (String × List String)) (k v : String) :
    List (String × List String) :=
  m.map (fun p => if p.1 = k then (p.1, addDep p.2 v) else p)

/-- `in_degree[k] += δ` (degrees are Python ints). -/
def degAdd (m : List (String × Int)) (k : String) (δ : Int) :
    List (String × Int) :=
  m.map (fun p => if p.1 = k then (p.1, p.2 + δ) else p)

/-- The reverse-adjacency construction of `topological_sort`
(lines 153-161): `dependents` and `in_degree` over the graph's keys, filled
from every edge whose target is a key. -/
def buildRev (g : Graph) : List (String × List String) × List (String × Int) :=
  g.foldl
    (fun acc p =>
      p.2.foldl
        (fun acc2 dep =>
          if (alookup g dep).isSome then
            (adjAdd acc2.1 dep p.1, degAdd acc2.2 p.1 1)
          else acc2)
        acc)
    (g.map (fun p => (p.1, ([] : List String))), g.map (fun p => (p.1, (0 : Int))))

/-- `deque([n for n, d in in_degree.items() if d == 0])`. -/
def initQueue (ind : List (String × Int)) : List String :=
  (ind.filter (fun p => p.2 = 0)).map Prod.fst

/-- The Kahn work loop (lines 166-173), with fuel.  Each iteration pops the
queue's front, emits it, decrements every dependent's in-degree and enqueues
those that reach zero.  A node is enqueued at most once, so the fuel chosen
by `kahnCore` never runs out (proved below). -/
def kahnLoop (dep : List (String × List String)) :
    Nat → List String → List (String × Int) → List String → List String
  | 0, _, _, result => result
  | _+1, [], _, result => result
  | fuel+1, node :: q, ind, result =>
    let children := (alookup dep node).getD []
    let qi := children.foldl
      (fun (acc : List String × List (String × Int)) child =>
        let ind' := degAdd acc.2 child (-1)
        if (alookup ind' child).getD 0 = 0 then (acc.1 ++ [child], ind')
        else (acc.1, ind'))
      (q, ind)
    kahnLoop dep fuel qi.1 qi.2 (result ++ [node])

/-- The body of `topological_sort` after its `resolve_cycles` call
(lines 153-179), on the already-resolved graph. -/
def kahnCore (g : Graph) : List String :=
  let di := buildRev g
  let fuel := g.length + ((g.map (fun p => p.2.length)).sum) + 1
  let result := kahnLoop di.1 fuel (initQueue di.2) di.2 []
  if result.length ≠ g.length then keys g else result

/-- `topological_sort` (lines 145-179). -/
def topological_sort (g : Graph) : List String :=
  kahnCore (resolve_cycles g)

/-- The recursive `dfs` of `dependency_first_dfs` (lines 205-211), with a
depth-bounding fuel: state is `(visited, result)`; an already-visited node
returns immediately, otherwise its dependencies are visited in sorted order
and the node is emitted post-order. -/
def dfsVisit (g : Graph) : Nat → String → List String × List String →
    List String × List String
  | 0, _, vr => vr
  | fuel+1, node, vr =>
    if node ∈ vr.1 then vr
    else
      let vr2 := (pySorted (getAdj g node)).foldl
        (fun a d => dfsVisit g fuel d a) (node :: vr.1, vr.2)
      (vr2.1, vr2.2 ++ [node])

/-- The body of `dependency_first_dfs` after its `resolve_cycles` call
(lines 202-216): the top-level loop over sorted keys. -/
def dfsCore (g : Graph) : List String :=
  ((pySorted (keys g)).foldl
    (fun a n => dfsVisit g ((allNodes g).length + 1) n a) ([], [])).2

/-- `dependency_first_dfs` (lines 185-216). -/
def dependency_first_dfs (g : Graph) : List String :=
  dfsCore (resolve_cycles g)

/-! ## Specification layer for the Tarjan run

The correctness argument for `detect_cycles` is purely operational: it
tracks the pop order of the recorded components (`sccs`) and shows that
every edge points into a component popped no later than its source's.
No graph-theoretic notion of strong connectivity is needed. -/

/-- `x` has been assigned an index. -/
def indexed (st : TarjanSt) (x : String) : Prop :=
  (alookup st.indices x).isSome = true

instance (st : TarjanSt) (x : String) : Decidable (indexed st x) := by
  unfold indexed
  infer_instance

/-- `x` has been popped into some recorded component. -/
def popped (st : TarjanSt) (x : String) : Prop :=
  ∃ S ∈ st.sccs, x ∈ S

/-- The position of the first component containing `x` in the pop
sequence (`length` when none does). -/
def rankIn : List (List String) → String → Nat
  | [], _ => 0
  | S :: rest, x => if x ∈ S then 0 else rankIn rest x + 1

/-- What is known about the successors of a node whose `strongconnect`
call has completed: each successor is indexed, and is either already
popped or bounds the node's lowlink from above by its index. -/
def succFact (g : Graph) (st : TarjanSt) (x : String) : Prop :=
  ∀ y ∈ getAdj g x, indexed st y ∧ (popped st y ∨ lowOf st x ≤ idxOf st y)

/-- How many potential nodes are still unindexed (the recursion-depth
measure that the fuel dominates). -/
def unvisited (g : Graph) (st : TarjanSt) : Nat :=
  ((allNodes g).dedup.filter (fun x => !(alookup st.indices x).isSome)).length

/-- The state invariant of the Tarjan run. -/
structure TarjanWF (g : Graph) (st : TarjanSt) : Prop where
  stack_nodup : st.stack.Nodup
  onstack_nodup : st.onStack.Nodup
  onstack_iff : ∀ x, x ∈ st.onStack ↔ x ∈ st.stack
  stack_indexed : ∀ x ∈ st.stack, indexed st x
  idx_lt_counter : ∀ x n, alookup st.indices x = some n → n < st.counter
  low_dom : ∀ x, (alookup st.lowlinks x).isSome = (alookup st.indices x).isSome
  low_le_idx : ∀ x, indexed st x → lowOf st x ≤ idxOf st x
  scc_indexed : ∀ S ∈ st.sccs, ∀ x ∈ S, indexed st x
  scc_nodup : ∀ S ∈ st.sccs, S.Nodup
  sccs_disjoint : st.sccs.Pairwise (fun S T => ∀ x, x ∈ S → x ∉ T)
  partition : ∀ x, indexed st x ↔ (x ∈ st.stack ∨ popped st x)
  not_both : ∀ x, x ∈ st.stack → ¬ popped st x
  popped_succ : ∀ x, popped st x → ∀ y ∈ getAdj g x,
      popped st y ∧ rankIn st.sccs y ≤ rankIn st.sccs x
  cycles_eq : st.cycles = st.sccs.filter (fun S => decide (1 < S.length))

/-- The contract of one completed `strongconnect g fuel v st0` call. -/
structure SCPost (g : Graph) (v : String) (st0 st1 : TarjanSt) : Prop where
  wf : TarjanWF g st1
  stack_eq : ∃ NEW, st1.stack = NEW ++ st0.stack ∧
    (∀ x ∈ NEW, ¬ indexed st0 x) ∧
    (∀ x ∈ NEW, succFact g st1 x) ∧
    (∀ x ∈ NEW, lowOf st1 v ≤ lowOf st1 x)
  v_fate : v ∈ st1.stack ∨ popped st1 v
  idx_pres : ∀ x n, alookup st0.indices x = some n → alookup st1.indices x = some n
  low_pres : ∀ x, indexed st0 x → alookup st1.lowlinks x = alookup st0.lowlinks x
  sccs_pres : ∃ NS, st1.sccs = st0.sccs ++ NS
  counter_mono : st0.counter ≤ st1.counter
  v_indexed : alookup st1.indices v = some st0.counter
  new_idx_ge : ∀ x, ¬ indexed st0 x → indexed st1 x → st0.counter ≤ idxOf st1 x
  low_v_bound : st0.counter ≤ lowOf st1 v ∨
    ∃ z ∈ st0.stack, lowOf st1 v = idxOf st1 z
  empty_restores : st0.stack = [] → st1.stack = []
  unvis_lt : unvisited g st1 < unvisited g st0

/-- The invariant carried across the successor fold inside
`strongconnect g (fuel+1) v st0`, after `v` has been pushed; `processed`
are the successors already folded. -/
structure FoldInv (g : Graph) (v : String) (st0 : TarjanSt)
    (processed : List String) (acc : TarjanSt) : Prop where
  wf : TarjanWF g acc
  v_new : ¬ indexed st0 v
  stack_eq : ∃ RES, acc.stack = RES ++ v :: st0.stack ∧
    (∀ x ∈ RES, ¬ indexed st0 x ∧ x ≠ v) ∧
    (∀ x ∈ RES, succFact g acc x) ∧
    (∀ x ∈ RES, lowOf acc v ≤ lowOf acc x)
  idx_pres : ∀ x n, alookup st0.indices x = some n → alookup acc.indices x = some n
  low_pres : ∀ x, indexed st0 x → alookup acc.lowlinks x = alookup st0.lowlinks x
  sccs_pres : ∃ NS, acc.sccs = st0.sccs ++ NS
  counter_mono : st0.counter < acc.counter
  v_idx : alookup acc.indices v = some st0.counter
  new_idx_ge : ∀ x, ¬ indexed st0 x → indexed acc x → st0.counter ≤ idxOf acc x
  low_v_bound : st0.counter ≤ lowOf acc v ∨
    ∃ z ∈ st0.stack, lowOf acc v = idxOf acc z
  unvis_lt : unvisited g acc < unvisited g st0
  processed_fact : ∀ y ∈ processed,
    indexed acc y ∧ (popped acc y ∨ lowOf acc v ≤ idxOf acc y)

/-- A graph is *ranked* by `r` when every edge strictly decreases `r`
except for self-loops.  On such graphs Tarjan pops only singletons. -/
def Ranked (h : Graph) (r : String → Nat) : Prop :=
  ∀ x y, y ∈ getAdj h x → r y < r x ∨ x = y

/-- The light state invariant used for the run on a ranked graph. -/
structure RankedWF (st : TarjanSt) : Prop where
  onstack_nodup : st.onStack.Nodup
  onstack_iff : ∀ x, x ∈ st.onStack ↔ x ∈ st.stack

/-- The contract of a `strongconnect` call on a ranked graph: the stack is
restored, no cycle is recorded, and the node keeps `lowlink = index`. -/
structure RankedPost (h : Graph) (v : String) (st0 st1 : TarjanSt) : Prop where
  rwf : RankedWF st1
  stack_eq : st1.stack = st0.stack
  cyc_eq : st1.cycles = st0.cycles
  v_idx : alookup st1.indices v = some st0.counter
  v_low : lowOf st1 v = st0.counter
  idx_pres : ∀ x n, alookup st0.indices x = some n → alookup st1.indices x = some n
  low_pres : ∀ x, indexed st0 x → alookup st1.lowlinks x = alookup st0.lowlinks x
  counter_mono : st0.counter < st1.counter
  unvis_lt : unvisited h st1 < unvisited h st0

/-- The fold invariant for the ranked run. -/
structure RankedFold (h : Graph) (v : String) (st0 acc : TarjanSt) : Prop where
  rwf : RankedWF acc
  stack_eq : acc.stack = v :: st0.stack
  cyc_eq : acc.cycles = st0.cycles
  v_idx : alookup acc.indices v = some st0.counter
  v_low : lowOf acc v = st0.counter
  idx_pres : ∀ x n, alookup st0.indices x = some n → alookup acc.indices x = some n
  low_pres : ∀ x, indexed st0 x → alookup acc.lowlinks x = alookup st0.lowlinks x
  counter_mono : st0.counter < acc.counter
  unvis_lt : unvisited h acc < unvisited h st0

/-! ## The set-store model of `topo.py` for the frame property

Python adjacency sets are mutable objects; to state that the functions
never mutate the caller's sets, the graph is split into a `dict` mapping
each node to a *reference* and a store mapping references to set contents.
`resolve_cycles` allocates fresh references for its `deps.copy()` calls and
removes edges only through those; with no cycles it returns the input
references and the untouched store (`return graph`). -/

/-- The store of set objects; a reference is an index. -/
abbrev SetStore := List (List String)

/-- A graph whose adjacency sets live in a store. -/
abbrev HGraph := List (String × Nat)

/-- Dereference one set. -/
def storeGet (st : SetStore) (r : Nat) : List String := st.getD r []

/-- The value graph a heap graph denotes. -/
def derefGraph (hg : HGraph) (st : SetStore) : Graph :=
  hg.map (fun p => (p.1, storeGet st p.2))

/-- `resolve_cycles` on the store model (lines 109-139): `detect_cycles`
only reads; with cycles present, `new_graph = {n: deps.copy() ...}`
allocates one fresh reference per node and the removal loop writes only
through the fresh references. -/
def resolve_cycles_h (hg : HGraph) (st : SetStore) : HGraph × SetStore :=
  let cycles := detect_cycles (derefGraph hg st)
  if cycles = [] then (hg, st)
  else
    let base := st.length
    let hg2 := hg.enum.map (fun p => (p.2.1, base + p.1))
    let st2 := st ++ hg.map (fun p => storeGet st p.2)
    let st3 := cycles.foldl
      (fun s cyc =>
        cyc.foldl
          (fun s2 node =>
            match alookup hg2 node with
            | some r => s2.set r ((storeGet s2 r).filter (· ∉ cyc))
            | none => s2)
          s)
      st2
    (hg2, st3)

/-- `topological_sort` on the store model: resolve, then the pure Kahn body
reads the resolved graph. -/
def topological_sort_h (hg : HGraph) (st : SetStore) : List String × SetStore :=
  let rs := resolve_cycles_h hg st
  (kahnCore (derefGraph rs.1 rs.2), rs.2)

/-- `dependency_first_dfs` on the store model. -/
def dependency_first_dfs_h (hg : HGraph) (st : SetStore) : List String × SetStore :=
  let rs := resolve_cycles_h hg st
  (dfsCore (derefGraph rs.1 rs.2), rs.2)

/-- The docstring-detection rule as the *specification* states it
(spec §4.1: "the first statement in a definition's body if it is a bare
string literal; … A leading comment does not block docstring detection;
any other leading statement does"): skip leading comments only, then
require the next statement to be an expression statement carrying a string
literal.  This definition follows the spec's words, to be compared with
`get_docstring`, which is translated from the code. -/
def specClaimedDocstring (node : TSNode) : Bool :=
  match node.bodyF with
  | none => false
  | some b =>
    match b.children.dropWhile (fun c => decide (c.typ = "comment")) with
    | [] => false
    | first :: _ =>
      decide (first.typ = "expression_statement") && (stringChild first.children).isSome

/-! ## Predicates used to state the abstraction-idempotence results -/

/-- The dependencies that pass 2 drops for a given `self_class`:
the enclosing class itself and its private helpers. -/
def pass2Drops (selfC : Option String) (x : String) : Prop :=
  match selfC with
  | some s => x = s ∨ pyStartsWith x (s ++ "._") = true
  | none => False

instance (selfC : Option String) (x : String) : Decidable (pass2Drops selfC x) := by
  unfold pass2Drops
  cases selfC <;> infer_instance

/-- The dependencies of component `c` that survive one application of the
abstraction rules when no method-to-owner collapse fires. -/
def docKeep (c : CodeComponent) (x : String) : Prop :=
  x ≠ c.id ∧ ((c.type = "method" ∨ c.type = "function") →
    ¬ pass2Drops (selfClassOf c) x)

/-- No dependency in the table names a dotted id whose owner prefix is a
class of the table — i.e. no method-to-owner collapse can fire. -/
def noMethodCollapse (t : Table) : Prop :=
  ∀ p ∈ t, ∀ d ∈ p.2.depends_on,
    ¬(2 ≤ partsLen d ∧ compType t (pyOwner d) = some "class")

instance (t : Table) : Decidable (noMethodCollapse t) := by
  unfold noMethodCollapse
  infer_instance

/-! ## Concrete instances used by witnesses and counterexamples -/

/-- A bare component with a given id, type and dependency list. -/
def mkComp (i ty : String) (deps : List String) : CodeComponent :=
  { id := i, language := "python", type := ty, file_path := "",
    module_path := "", depends_on := deps, source_code := none,
    start_line := 0, end_line := 0, has_docstring := false, docstring := "" }

/-- A table with one class that depends on itself and on an unknown id. -/
def tSelfLoop : Table := [("A", mkComp "A" "class" ["A", "B"])]

/-- A class with one method, for the containment claim. -/
def tClassMethod : Table :=
  [("C", mkComp "C" "class" []), ("C.m", mkComp "C.m" "method" [])]

/-- A class with two methods, one depending on its sibling: the input on
which the abstraction pass is not idempotent. -/
def tSibling : Table :=
  [("C", mkComp "C" "class" []),
   ("C.f", mkComp "C.f" "method" ["C.g"]),
   ("C.g", mkComp "C.g" "method" [])]

/-- Two classes with one cross-class dependency: abstraction leaves this
table unchanged after the first run. -/
def tStable : Table :=
  [("A", mkComp "A" "class" ["B"]), ("B", mkComp "B" "class" [])]

/-- A tree-sitter node with only type, text and children. -/
def tn (typ text : String) (cs : List TSNode) : TSNode :=
  .mk typ text 0 0 0 0 none none none cs

/-- A function definition whose body starts with an assignment statement
followed by a docstring-shaped string statement. -/
def fnAssignThenString : TSNode :=
  .mk "function_definition" "" 0 0 0 0 none
    (some (tn "block" ""
      [tn "expression_statement" "" [tn "assignment" "x = 1" []],
       tn "expression_statement" "" [tn "string" "\"doc\"" []]]))
    none []

/-- A module whose only statement is the assignment `x = 1`: the input on
which `extract_components` drops the documented global extraction. -/
def moduleWithGlobal : TSNode :=
  tn "module" ""
    [tn "expression_statement" ""
      [TSNode.mk "assignment" "x = 1" 0 0 0 5 none none
        (some (tn "identifier" "x" [])) []]]

/-- A leading statement of `scanBody` that is skipped without ending the
scan: a comment, or an expression statement with no string child. -/
def scanSkips (c : TSNode) : Prop :=
  c.typ = "comment" ∨
    (c.typ = "expression_statement" ∧ stringChild c.children = none)

/-! ## The emit-order predicate and the invariants of the two orderings -/

/-- `y` is emitted strictly before an occurrence of `x` in `l`. -/
def before (l : List String) (y x : String) : Prop :=
  ∃ l1 l2, l = l1 ++ x :: l2 ∧ y ∈ l1

/-- The recursion-depth measure of the DFS: how many potential nodes are
still unvisited. -/
def dfsU (g : Graph) (v : List String) : Nat :=
  ((allNodes g).dedup.filter (fun x => decide (x ∉ v))).length

/-- The state invariant of the DFS: `vr.1` is the visited set, `vr.2` the
emitted sequence. -/
structure DfsInv (g : Graph) (vr : List String × List String) : Prop where
  sub : ∀ x ∈ vr.2, x ∈ vr.1
  nodup : vr.2.Nodup
  ord : ∀ x ∈ vr.2, ∀ y ∈ getAdj g x, before vr.2 y x

/-- The contract of one `dfsVisit` call (and of a block of such calls):
the invariant holds afterwards, the visited set grows, the emitted
sequence is extended, and exactly the newly visited nodes are newly
emitted. -/
structure DfsPost (g : Graph) (vr vr' : List String × List String) : Prop where
  inv : DfsInv g vr'
  vis_mono : ∀ v, v ∈ vr.1 → v ∈ vr'.1
  res_ext : ∃ l, vr'.2 = vr.2 ++ l
  new_emitted : ∀ v ∈ vr'.1, v ∉ vr.1 → v ∈ vr'.2
  emitted_new : ∀ v ∈ vr'.2, v ∉ vr.2 → v ∉ vr.1

/-- The loop invariant of the Kahn work loop: `result` is what has been
emitted, `q` the queue, `ind` the current in-degree map. -/
structure KahnInv (g : Graph) (q : List String) (ind : List (String × Int))
    (result : List String) : Prop where
  nodup : (result ++ q).Nodup
  mem_keys : ∀ x ∈ result ++ q, x ∈ keys g
  counts : ∀ x ∈ keys g, alookup ind x =
    some (((getAdj g x).filter (fun y => decide (y ∉ result))).length : Int)
  ready : ∀ x ∈ q, ∀ y ∈ getAdj g x, y ∈ result
  ord : ∀ x ∈ result, ∀ y ∈ getAdj g x, before result y x
  blocked : ∀ x ∈ keys g, x ∉ result → x ∉ q → ∃ y ∈ getAdj g x, y ∉ result

/-- The invariant of the outer fold of `buildRev`: `done` is the prefix of
the graph already processed. -/
structure BRInv (g done : Graph)
    (acc : List (String × List String) × List (String × Int)) : Prop where
  dep_char : ∀ n ∈ keys g, ∃ l, alookup acc.1 n = some l ∧ l.Nodup ∧
    ∀ e, e ∈ l ↔ ∃ p ∈ done, p.1 = e ∧ n ∈ p.2
  deg_char : ∀ z ∈ keys g, alookup acc.2 z =
    some (if z ∈ keys done then ((getAdj g z).length : Int) else 0)

/-- The invariant of the inner fold of `buildRev` while the entry
`(x, deps)` is being processed; `dP` is the prefix of `deps` already
folded. -/
structure BRInner (g done : Graph) (x : String) (dP : List String)
    (acc : List (String × List String) × List (String × Int)) : Prop where
  dep_char : ∀ n ∈ keys g, ∃ l, alookup acc.1 n = some l ∧ l.Nodup ∧
    ∀ e, e ∈ l ↔ (∃ p ∈ done, p.1 = e ∧ n ∈ p.2) ∨ (e = x ∧ n ∈ dP)
  deg_char : ∀ z ∈ keys g, alookup acc.2 z =
    some (if z = x then (dP.length : Int)
      else if z ∈ keys done then ((getAdj g z).length : Int) else 0)

/-! ## Helper lemmas -/

theorem alookup_map_pair {α β : Type} (g : String → α → β)
    (t : List (String × α)) (k : String) :
    alookup (t.map (fun p => (p.1, g p.1 p.2))) k = (alookup t k).map (g k) := by
  induction t with
  | nil => rfl
  | cons p rest ih =>
    simp only [List.map_cons, alookup]
    by_cases h : p.1 = k
    · subst h; simp
    · simp [h, ih]

theorem alookup_mem {α : Type} {t : List (String × α)} {k : String} {v : α}
    (h : alookup t k = some v) : (k, v) ∈ t := by
  induction t with
  | nil => simp [alookup] at h
  | cons p rest ih =>
    simp only [alookup] at h
    by_cases hk : p.1 = k
    · simp [hk] at h
      have : (k, v) = p := by
        cases p
        simp_all
      rw [this]
      exact List.mem_cons_self _ _
    · simp [hk] at h
      exact List.mem_cons_of_mem _ (ih h)

theorem mem_addDep {l : List String} {d x : String} :
    x ∈ addDep l d ↔ x ∈ l ∨ x = d := by
  unfold addDep
  by_cases h : d ∈ l
  · simp only [if_pos h]
    constructor
    · exact Or.inl
    · rintro (hx | rfl)
      · exact hx
      · exact h
  · simp [if_neg h]

theorem addDep_self_mem (l : List String) (d : String) : d ∈ addDep l d :=
  mem_addDep.mpr (Or.inr rfl)

theorem addDep_subset (l : List String) (d : String) : l ⊆ addDep l d :=
  fun _ hx => mem_addDep.mpr (Or.inl hx)

/-- Membership in a fold is preserved when every step only grows the
accumulator. -/
theorem foldl_subset {β : Type} (step : List String → β → List String)
    (hmono : ∀ acc d, acc ⊆ step acc d) :
    ∀ (l : List β) (acc : List String), acc ⊆ l.foldl step acc := by
  intro l
  induction l with
  | nil => intro acc; exact fun _ h => h
  | cons d rest ih =>
    intro acc x hx
    exact ih (step acc d) (hmono acc d hx)

/-- If some list element forces `x` into the accumulator and every step is
monotone, `x` is in the fold. -/
theorem foldl_mem_of_mem {β : Type} (step : List String → β → List String)
    (x : String) (e : β) (hstep : ∀ acc, x ∈ step acc e)
    (hmono : ∀ acc d, acc ⊆ step acc d) :
    ∀ (l : List β) (acc : List String), e ∈ l → x ∈ l.foldl step acc := by
  intro l
  induction l with
  | nil => intro acc h; cases h
  | cons d rest ih =>
    intro acc he
    rcases List.mem_cons.mp he with rfl | he'
    · exact foldl_subset step hmono rest (step acc e) (hstep acc)
    · exact ih (step acc d) he'

theorem pyStartsWith_ne_self {s pre : String}
    (h : pyStartsWith s (pre ++ ".") = true) : s ≠ pre := by
  intro heq
  subst heq
  unfold pyStartsWith at h
  rw [List.isPrefixOf_iff_prefix] at h
  have hlen := h.length_le
  simp [String.data_append] at hlen

/-! ## Claim theorems: serialization and abstraction invariants -/

/-- C9: serializing a `CodeComponent` with `to_dict` and reconstructing it
with `from_dict` yields a component with the same id, the same type, and
the same dependency set (up to set membership), despite the list
serialization of `depends_on` and the truncation of `source_code`. -/
theorem C9_round_trip (c : CodeComponent) :
    (CodeComponent.from_dict c.to_dict).id = c.id ∧
    (CodeComponent.from_dict c.to_dict).type = c.type ∧
    (∀ x, x ∈ (CodeComponent.from_dict c.to_dict).depends_on ↔ x ∈ c.depends_on) :=
  ⟨rfl, rfl, fun _ => Iff.rfl⟩

/-- C5: after `apply_doc_dependency_rules`, no component's `depends_on`
contains the component's own id: the safety pass (pass 4) runs last and
unconditionally discards it. -/
theorem C5_no_self_loops (t : Table) :
    ∀ p ∈ apply_doc_dependency_rules t, p.2.id ∉ p.2.depends_on := by
  intro p hp
  simp only [apply_doc_dependency_rules, List.mem_map] at hp
  obtain ⟨q, _, rfl⟩ := hp
  simp only [applyDocRulesComp]
  intro hmem
  rcases List.mem_filter.mp hmem with ⟨_, hne⟩
  simp at hne

/-- Witness for C5 on a concrete table with a self-dependency. -/
theorem C5_no_self_loops_witness :
    ("A", applyDocRulesComp tSelfLoop (mkComp "A" "class" ["A", "B"]))
        ∈ apply_doc_dependency_rules tSelfLoop ∧
    (applyDocRulesComp tSelfLoop (mkComp "A" "class" ["A", "B"])).id ∉
      (applyDocRulesComp tSelfLoop (mkComp "A" "class" ["A", "B"])).depends_on :=
  ⟨by decide,
   C5_no_self_loops tSelfLoop
     ("A", applyDocRulesComp tSelfLoop (mkComp "A" "class" ["A", "B"]))
     (by decide)⟩

theorem applyDocRulesComp_class (t : Table) (c : CodeComponent)
    (h : c.type = "class") :
    applyDocRulesComp t c =
      { c with depends_on := (pass1Deps t c).filter (· ≠ c.id) } := by
  unfold applyDocRulesComp
  simp only [h]
  rfl

theorem applyDocRulesComp_mf (t : Table) (c : CodeComponent)
    (hne : c.type ≠ "class") (h : c.type = "method" ∨ c.type = "function") :
    applyDocRulesComp t c =
      { c with depends_on := (pass2Deps t c).filter (· ≠ c.id) } := by
  unfold applyDocRulesComp
  simp only [if_neg hne, if_pos h]

theorem applyDocRulesComp_other (t : Table) (c : CodeComponent)
    (hne : c.type ≠ "class") (h : ¬(c.type = "method" ∨ c.type = "function")) :
    applyDocRulesComp t c =
      { c with depends_on := c.depends_on.filter (· ≠ c.id) } := by
  unfold applyDocRulesComp
  simp only [if_neg hne, if_neg h]

theorem linkStep_mono (cid : String) :
    ∀ acc e, acc ⊆ linkStep cid acc e := by
  intro acc e x hx
  unfold linkStep
  split
  · exact addDep_subset _ _ hx
  · exact hx

theorem pass1Step_mono (t : Table) (cid : String) :
    ∀ acc d, acc ⊆ pass1Step t cid acc d := by
  intro acc d x hx
  unfold pass1Step
  repeat' split
  all_goals first
    | exact hx
    | exact addDep_subset _ _ hx

/-- The linkage map rewritten with an explicit key-value function, for the
lookup lemma. -/
theorem linkClassMethods_eq (t : Table) :
    linkClassMethods t = t.map (fun p =>
      (p.1,
        if p.2.type = "class" then
          { p.2 with depends_on := t.foldl (linkStep p.1) p.2.depends_on }
        else p.2)) := by
  unfold linkClassMethods
  apply List.map_congr_left
  intro p _
  split
  · rfl
  · rfl

/-- C4: after pipeline pass 3, every class holds each of its own
non-initializer methods in `depends_on`, and the "keep own methods" clause
of abstraction pass 1 preserves those dependencies into the final table. -/
theorem C4_containment (t : Table) (cid mid : String) (C M : CodeComponent)
    (hC : alookup t cid = some C) (hCty : C.type = "class") (hCid : C.id = cid)
    (hM : alookup t mid = some M) (hMty : M.type = "method")
    (hpre : pyStartsWith mid (cid ++ ".") = true)
    (hini : pyEndsWith mid ".__init__" = false) :
    (∃ C', alookup (linkClassMethods t) cid = some C' ∧ mid ∈ C'.depends_on) ∧
    (∃ C'', alookup (apply_doc_dependency_rules (linkClassMethods t)) cid = some C''
        ∧ mid ∈ C''.depends_on) := by
  have hmenter : (mid, M) ∈ t := alookup_mem hM
  -- the linked class
  have hlook1 : alookup (linkClassMethods t) cid =
      some { C with depends_on := t.foldl (linkStep cid) C.depends_on } := by
    rw [linkClassMethods_eq,
      alookup_map_pair (fun k v =>
        if v.type = "class" then
          { v with depends_on := t.foldl (linkStep k) v.depends_on }
        else v) t cid,
      hC]
    simp [hCty]
  have hmemlinked : mid ∈ t.foldl (linkStep cid) C.depends_on := by
    apply foldl_mem_of_mem (linkStep cid) mid (mid, M) _ (linkStep_mono cid) t _ hmenter
    intro acc
    unfold linkStep
    rw [if_pos]
    · exact addDep_self_mem _ _
    · refine ⟨hMty, hpre, ?_⟩
      simp [hini]
  refine ⟨⟨_, hlook1, hmemlinked⟩, ?_⟩
  -- the abstracted class
  set lt := linkClassMethods t with hlt
  set C' : CodeComponent := { C with depends_on := t.foldl (linkStep cid) C.depends_on }
    with hC'
  have hlook2 : alookup (apply_doc_dependency_rules lt) cid =
      some (applyDocRulesComp lt C') := by
    unfold apply_doc_dependency_rules
    rw [alookup_map_pair (fun _ v => applyDocRulesComp lt v) lt cid, hlook1]
    rfl
  have hne : mid ≠ cid := pyStartsWith_ne_self hpre
  have hmempass1 : mid ∈ pass1Deps lt C' := by
    unfold pass1Deps
    have hidC' : C'.id = cid := hCid
    rw [hidC']
    apply foldl_mem_of_mem (pass1Step lt cid) mid mid _ (pass1Step_mono lt cid)
      C'.depends_on [] hmemlinked
    intro acc
    unfold pass1Step
    rw [if_neg hne, if_pos hpre]
    exact addDep_self_mem _ _
  refine ⟨applyDocRulesComp lt C', hlook2, ?_⟩
  rw [applyDocRulesComp_class lt C' (show C'.type = "class" from hCty)]
  apply List.mem_filter.mpr
  refine ⟨hmempass1, ?_⟩
  simp only [decide_eq_true_eq]
  show mid ≠ C'.id
  rw [show C'.id = cid from hCid]
  exact hne

/-- Witness for C4 on a one-class, one-method table. -/
theorem C4_containment_witness :
    (alookup tClassMethod "C" = some (mkComp "C" "class" []) ∧
      pyStartsWith "C.m" ("C" ++ ".") = true) ∧
    ((∃ C', alookup (linkClassMethods tClassMethod) "C" = some C' ∧
        "C.m" ∈ C'.depends_on) ∧
     (∃ C'', alookup (apply_doc_dependency_rules (linkClassMethods tClassMethod)) "C"
          = some C'' ∧ "C.m" ∈ C''.depends_on)) :=
  ⟨⟨by decide, by decide⟩,
   C4_containment tClassMethod "C" "C.m" (mkComp "C" "class" [])
     (mkComp "C.m" "method" []) (by decide) (by decide) (by decide) (by decide)
     (by decide) (by decide) (by decide)⟩

/-! ### Idempotence of the abstraction pass (C6) -/

theorem pass1Step_eq_of_no_collapse (t : Table) (cid d : String)
    (hd : ¬(2 ≤ partsLen d ∧ compType t (pyOwner d) = some "class"))
    (acc : List String) :
    pass1Step t cid acc d = if d = cid then acc else addDep acc d := by
  by_cases h1 : d = cid
  · simp [pass1Step, h1]
  · simp only [pass1Step, if_neg h1]
    by_cases h2 : pyStartsWith d (cid ++ ".") = true
    · simp [h2]
    · simp only [h2, Bool.false_eq_true, if_false]
      by_cases h3 : compType t d = some "global_variable"
      · simp [h3]
      · simp only [if_neg h3, if_neg hd, if_neg h1]

theorem mem_foldl_pass1 (t : Table) (cid : String) (l : List String)
    (hnc : ∀ d ∈ l, ¬(2 ≤ partsLen d ∧ compType t (pyOwner d) = some "class")) :
    ∀ (acc : List String) (x : String),
      x ∈ l.foldl (pass1Step t cid) acc ↔ x ∈ acc ∨ (x ∈ l ∧ x ≠ cid) := by
  induction l with
  | nil => intro acc x; simp
  | cons d rest ih =>
    intro acc x
    have hd := hnc d (List.mem_cons_self _ _)
    have hrest : ∀ d' ∈ rest, _ := fun d' h => hnc d' (List.mem_cons_of_mem _ h)
    simp only [List.foldl_cons, pass1Step_eq_of_no_collapse t cid d hd acc]
    rw [ih hrest]
    by_cases h1 : d = cid
    · subst h1
      simp only [if_pos rfl, List.mem_cons]
      constructor
      · rintro (hx | hx)
        · exact Or.inl hx
        · exact Or.inr ⟨Or.inr hx.1, hx.2⟩
      · rintro (hx | ⟨hx1 | hx1, hx2⟩)
        · exact Or.inl hx
        · exact absurd hx1 hx2
        · exact Or.inr ⟨hx1, hx2⟩
    · simp only [if_neg h1, mem_addDep, List.mem_cons]
      constructor
      · rintro ((hx | rfl) | hx)
        · exact Or.inl hx
        · exact Or.inr ⟨Or.inl rfl, h1⟩
        · exact Or.inr ⟨Or.inr hx.1, hx.2⟩
      · rintro (hx | ⟨rfl | hx1, hx2⟩)
        · exact Or.inl (Or.inl hx)
        · exact Or.inl (Or.inr rfl)
        · exact Or.inr ⟨hx1, hx2⟩

theorem pass2Step_eq_of_no_collapse (t : Table) (selfC : Option String)
    (d : String)
    (hd : ¬(2 ≤ partsLen d ∧ compType t (pyOwner d) = some "class"))
    (acc : List String) :
    pass2Step t selfC acc d =
      if pass2Drops selfC d then acc else addDep acc d := by
  have hkeep : pass2Keep t acc d = addDep acc d := by
    unfold pass2Keep
    by_cases h3 : compType t d = some "global_variable"
    · simp [h3]
    · by_cases h4 : compType t d = some "class"
      · simp [h3, h4]
      · simp only [if_neg h3, if_neg h4, if_neg hd]
  cases selfC with
  | none => simp only [pass2Step, hkeep, pass2Drops, if_neg (not_false)]
  | some s =>
    simp only [pass2Step, pass2Drops]
    by_cases h1 : d = s
    · simp [h1]
    · simp only [if_neg h1]
      by_cases h2 : pyStartsWith d (s ++ "._") = true
      · simp [h1, h2]
      · simp only [h2, Bool.false_eq_true, if_false, hkeep]
        rw [if_neg]
        rintro (h | h)
        · exact h1 h
        · exact h.elim

theorem mem_foldl_pass2 (t : Table) (selfC : Option String) (l : List String)
    (hnc : ∀ d ∈ l, ¬(2 ≤ partsLen d ∧ compType t (pyOwner d) = some "class")) :
    ∀ (acc : List String) (x : String),
      x ∈ l.foldl (pass2Step t selfC) acc ↔
        x ∈ acc ∨ (x ∈ l ∧ ¬ pass2Drops selfC x) := by
  induction l with
  | nil => intro acc x; simp
  | cons d rest ih =>
    intro acc x
    have hd := hnc d (List.mem_cons_self _ _)
    have hrest : ∀ d' ∈ rest, _ := fun d' h => hnc d' (List.mem_cons_of_mem _ h)
    simp only [List.foldl_cons, pass2Step_eq_of_no_collapse t selfC d hd acc]
    rw [ih hrest]
    by_cases h1 : pass2Drops selfC d
    · simp only [if_pos h1, List.mem_cons]
      constructor
      · rintro (hx | hx)
        · exact Or.inl hx
        · exact Or.inr ⟨Or.inr hx.1, hx.2⟩
      · rintro (hx | ⟨rfl | hx1, hx2⟩)
        · exact Or.inl hx
        · exact absurd h1 hx2
        · exact Or.inr ⟨hx1, hx2⟩
    · simp only [if_neg h1, mem_addDep, List.mem_cons]
      constructor
      · rintro ((hx | rfl) | hx)
        · exact Or.inl hx
        · exact Or.inr ⟨Or.inl rfl, h1⟩
        · exact Or.inr ⟨Or.inr hx.1, hx.2⟩
      · rintro (hx | ⟨rfl | hx1, hx2⟩)
        · exact Or.inl (Or.inl hx)
        · exact Or.inl (Or.inr rfl)
        · exact Or.inr ⟨hx1, hx2⟩

theorem applyDocRulesComp_id (t : Table) (c : CodeComponent) :
    (applyDocRulesComp t c).id = c.id := by
  by_cases h1 : c.type = "class"
  · rw [applyDocRulesComp_class t c h1]
  · by_cases h2 : c.type = "method" ∨ c.type = "function"
    · rw [applyDocRulesComp_mf t c h1 h2]
    · rw [applyDocRulesComp_other t c h1 h2]

theorem applyDocRulesComp_type (t : Table) (c : CodeComponent) :
    (applyDocRulesComp t c).type = c.type := by
  by_cases h1 : c.type = "class"
  · rw [applyDocRulesComp_class t c h1]
  · by_cases h2 : c.type = "method" ∨ c.type = "function"
    · rw [applyDocRulesComp_mf t c h1 h2]
    · rw [applyDocRulesComp_other t c h1 h2]

theorem alookup_apply_doc (t : Table) (i : String) :
    alookup (apply_doc_dependency_rules t) i =
      (alookup t i).map (applyDocRulesComp t) := by
  unfold apply_doc_dependency_rules
  rw [alookup_map_pair (fun _ v => applyDocRulesComp t v) t i]

theorem compType_apply_doc (t : Table) (i : String) :
    compType (apply_doc_dependency_rules t) i = compType t i := by
  unfold compType
  rw [alookup_apply_doc]
  cases alookup t i with
  | none => rfl
  | some c => simp [applyDocRulesComp_type]

/-- Membership in the rewritten dependency set of one component, when no
method-to-owner collapse can fire among its dependencies. -/
theorem mem_applyDocRules_deps (t : Table) (c : CodeComponent)
    (hnc : ∀ d ∈ c.depends_on,
      ¬(2 ≤ partsLen d ∧ compType t (pyOwner d) = some "class"))
    (x : String) :
    x ∈ (applyDocRulesComp t c).depends_on ↔
      x ∈ c.depends_on ∧ docKeep c x := by
  by_cases h1 : c.type = "class"
  · rw [applyDocRulesComp_class t c h1]
    simp only [List.mem_filter, decide_eq_true_eq]
    unfold pass1Deps
    rw [mem_foldl_pass1 t c.id c.depends_on hnc []]
    unfold docKeep
    have hnm : ¬(c.type = "method" ∨ c.type = "function") := by
      rw [h1]; decide
    constructor
    · rintro ⟨hx | hx, hne⟩
      · cases hx
      · exact ⟨hx.1, hx.2, fun h => absurd h hnm⟩
    · rintro ⟨hmem, hne, _⟩
      exact ⟨Or.inr ⟨hmem, hne⟩, hne⟩
  · by_cases h2 : c.type = "method" ∨ c.type = "function"
    · rw [applyDocRulesComp_mf t c h1 h2]
      simp only [List.mem_filter, decide_eq_true_eq]
      unfold pass2Deps
      rw [mem_foldl_pass2 t (selfClassOf c) c.depends_on hnc []]
      unfold docKeep
      constructor
      · rintro ⟨hx | hx, hne⟩
        · cases hx
        · exact ⟨hx.1, hne, fun _ => hx.2⟩
      · rintro ⟨hmem, hne, hdrop⟩
        exact ⟨Or.inr ⟨hmem, hdrop h2⟩, hne⟩
    · rw [applyDocRulesComp_other t c h1 h2]
      simp only [List.mem_filter, decide_eq_true_eq]
      unfold docKeep
      constructor
      · rintro ⟨hmem, hne⟩
        exact ⟨hmem, hne, fun h => absurd h h2⟩
      · rintro ⟨hmem, hne, _⟩
        exact ⟨hmem, hne⟩

theorem selfClassOf_congr {c c' : CodeComponent} (hty : c'.type = c.type)
    (hid : c'.id = c.id) : selfClassOf c' = selfClassOf c := by
  unfold selfClassOf
  rw [hty, hid]

theorem docKeep_congr {c c' : CodeComponent} (hty : c'.type = c.type)
    (hid : c'.id = c.id) (x : String) : docKeep c' x ↔ docKeep c x := by
  unfold docKeep
  rw [hty, hid, selfClassOf_congr hty hid]

/-- C6 counterexample: on `tSibling` — a class `C` whose method `C.f`
depends on its sibling method `C.g` — the first abstraction run collapses
`C.g` to the owning class `C`, and the second run drops that dependency as
a self-class dependency, so the second run changes `C.f`'s `depends_on`. -/
theorem C6_counterexample :
    "C" ∈ depsAt (apply_doc_dependency_rules tSibling) "C.f" ∧
    "C" ∉ depsAt
      (apply_doc_dependency_rules (apply_doc_dependency_rules tSibling)) "C.f" := by
  decide

/-- C6 amended: the abstraction pass is idempotent on every table in which
no dependency names a dotted id whose owner prefix is a class of the table
(so no method-to-owner collapse fires); in general it is not idempotent —
a collapse's output can itself be dropped by the second run
(`C6_counterexample`). -/
theorem C6_idempotent_no_collapse (t : Table) (h : noMethodCollapse t) :
    ∀ i x,
      x ∈ depsAt (apply_doc_dependency_rules (apply_doc_dependency_rules t)) i ↔
      x ∈ depsAt (apply_doc_dependency_rules t) i := by
  intro i x
  unfold depsAt
  rw [alookup_apply_doc (apply_doc_dependency_rules t) i, alookup_apply_doc t i]
  cases hl : alookup t i with
  | none => exact Iff.rfl
  | some c =>
    show x ∈ (applyDocRulesComp (apply_doc_dependency_rules t)
        (applyDocRulesComp t c)).depends_on ↔
      x ∈ (applyDocRulesComp t c).depends_on
    have hct : (i, c) ∈ t := alookup_mem hl
    have hnc1 : ∀ d ∈ c.depends_on,
        ¬(2 ≤ partsLen d ∧ compType t (pyOwner d) = some "class") :=
      fun d hd => h (i, c) hct d hd
    set c' := applyDocRulesComp t c with hc'
    have hker : ∀ x, x ∈ c'.depends_on ↔ x ∈ c.depends_on ∧ docKeep c x :=
      mem_applyDocRules_deps t c hnc1
    have hnc2 : ∀ d ∈ c'.depends_on,
        ¬(2 ≤ partsLen d ∧
          compType (apply_doc_dependency_rules t) (pyOwner d) = some "class") := by
      intro d hd
      rw [compType_apply_doc]
      exact hnc1 d ((hker d).mp hd).1
    rw [mem_applyDocRules_deps (apply_doc_dependency_rules t) c' hnc2 x, hker x,
      docKeep_congr (applyDocRulesComp_type t c) (applyDocRulesComp_id t c) x]
    constructor
    · rintro ⟨⟨hm, hk⟩, _⟩
      exact ⟨hm, hk⟩
    · rintro ⟨hm, hk⟩
      exact ⟨⟨hm, hk⟩, hk⟩

/-- Witness for the amended C6 on a collapse-free two-class table. -/
theorem C6_idempotent_no_collapse_witness :
    noMethodCollapse tStable ∧
    (∀ i x,
      x ∈ depsAt
        (apply_doc_dependency_rules (apply_doc_dependency_rules tStable)) i ↔
      x ∈ depsAt (apply_doc_dependency_rules tStable) i) :=
  ⟨by decide, C6_idempotent_no_collapse tStable (by decide)⟩

/-! ### Docstring extraction (C8) -/

theorem scanBody_eq_true_iff (l : List TSNode) (s : String) :
    scanBody l = (true, s) ↔
      ∃ pre stmt rest sn,
        l = pre ++ stmt :: rest ∧
        (∀ c ∈ pre, scanSkips c) ∧
        stmt.typ = "expression_statement" ∧
        stringChild stmt.children = some sn ∧
        s = pyStrip (stripQuotes sn.text) := by
  induction l with
  | nil =>
    constructor
    · intro h
      exact absurd (congrArg Prod.fst h) Bool.false_ne_true
    · rintro ⟨pre, stmt, rest, sn, hsplit, -⟩
      exact absurd hsplit.symm (List.append_ne_nil_of_right_ne_nil pre (by simp))
  | cons c rest ih =>
    by_cases h1 : c.typ = "expression_statement"
    · cases hsc : stringChild c.children with
      | some sn0 =>
        have hlhs : scanBody (c :: rest) = (true, pyStrip (stripQuotes sn0.text)) := by
          simp [scanBody, h1, hsc]
        rw [hlhs]
        constructor
        · intro h
          have hs : s = pyStrip (stripQuotes sn0.text) := (Prod.mk.injEq _ _ _ _ ▸ h).2.symm
          exact ⟨[], c, rest, sn0, rfl, by simp, h1, hsc, hs⟩
        · rintro ⟨pre, stmt, rest', sn, hsplit, hpre, hstmt, hstr, hs⟩
          cases pre with
          | nil =>
            simp only [List.nil_append, List.cons.injEq] at hsplit
            obtain ⟨rfl, -⟩ := hsplit
            rw [hsc] at hstr
            obtain rfl : sn0 = sn := by injection hstr
            rw [hs]
          | cons p pre' =>
            rw [List.cons_append] at hsplit
            injection hsplit with hcp hrest
            subst hcp
            rcases hpre c (List.mem_cons_self _ _) with hcom | ⟨-, hnone⟩
            · rw [h1] at hcom
              exact absurd hcom (by decide)
            · rw [hsc] at hnone
              cases hnone
      | none =>
        have hlhs : scanBody (c :: rest) = scanBody rest := by
          simp [scanBody, h1, hsc]
        rw [hlhs, ih]
        constructor
        · rintro ⟨pre, stmt, rest', sn, hsplit, hpre, hstmt, hstr, hs⟩
          exact ⟨c :: pre, stmt, rest', sn, by rw [hsplit]; rfl,
            fun d hd => by
              rcases List.mem_cons.mp hd with rfl | hd'
              · exact Or.inr ⟨h1, hsc⟩
              · exact hpre d hd',
            hstmt, hstr, hs⟩
        · rintro ⟨pre, stmt, rest', sn, hsplit, hpre, hstmt, hstr, hs⟩
          cases pre with
          | nil =>
            simp only [List.nil_append, List.cons.injEq] at hsplit
            obtain ⟨rfl, -⟩ := hsplit
            rw [hsc] at hstr
            cases hstr
          | cons p pre' =>
            rw [List.cons_append] at hsplit
            injection hsplit with hcp hsplit'
            subst hcp
            exact ⟨pre', stmt, rest', sn, hsplit',
              fun d hd => hpre d (List.mem_cons_of_mem _ hd), hstmt, hstr, hs⟩
    · by_cases h2 : c.typ = "comment"
      · have hlhs : scanBody (c :: rest) = scanBody rest := by
          simp [scanBody, h1, h2]
        rw [hlhs, ih]
        constructor
        · rintro ⟨pre, stmt, rest', sn, hsplit, hpre, hstmt, hstr, hs⟩
          exact ⟨c :: pre, stmt, rest', sn, by rw [hsplit]; rfl,
            fun d hd => by
              rcases List.mem_cons.mp hd with rfl | hd'
              · exact Or.inl h2
              · exact hpre d hd',
            hstmt, hstr, hs⟩
        · rintro ⟨pre, stmt, rest', sn, hsplit, hpre, hstmt, hstr, hs⟩
          cases pre with
          | nil =>
            simp only [List.nil_append, List.cons.injEq] at hsplit
            obtain ⟨rfl, -⟩ := hsplit
            exact absurd hstmt h1
          | cons p pre' =>
            rw [List.cons_append] at hsplit
            injection hsplit with hcp hsplit'
            subst hcp
            exact ⟨pre', stmt, rest', sn, hsplit',
              fun d hd => hpre d (List.mem_cons_of_mem _ hd), hstmt, hstr, hs⟩
      · have hlhs : scanBody (c :: rest) = (false, "") := by
          simp [scanBody, h1, h2]
        rw [hlhs]
        constructor
        · intro h
          exact absurd (congrArg Prod.fst h) Bool.false_ne_true
        · rintro ⟨pre, stmt, rest', sn, hsplit, hpre, hstmt, hstr, hs⟩
          cases pre with
          | nil =>
            simp only [List.nil_append, List.cons.injEq] at hsplit
            obtain ⟨rfl, -⟩ := hsplit
            exact absurd hstmt h1
          | cons p pre' =>
            rw [List.cons_append] at hsplit
            injection hsplit with hcp hrest
            subst hcp
            rcases hpre c (List.mem_cons_self _ _) with hcom | ⟨hexp, -⟩
            · exact absurd hcom h2
            · exact absurd hexp h1

/-- C8 counterexample: a body whose first statement is an assignment
(an expression statement without a string child), followed by a string
statement.  The claim predicts no docstring — any leading statement other
than a comment blocks detection — but `get_docstring` skips the assignment
and reports the string. -/
theorem C8_counterexample :
    (get_docstring fnAssignThenString).1 = true ∧
    specClaimedDocstring fnAssignThenString = false := by
  decide

/-- C8 amended: `get_docstring` returns `(True, text)` exactly when the
body's statements, after a leading run consisting of comments *and of
expression statements carrying no string literal*, continue with an
expression statement that carries a string literal; `text` is that
literal's content with quote markers stripped and whitespace trimmed.
A leading statement of any other kind blocks detection.  (The claim as
stated — only comments may precede the docstring — is refuted by
`C8_counterexample`.) -/
theorem C8_docstring_characterization (n : TSNode) (s : String) :
    get_docstring n = (true, s) ↔
      ∃ b pre stmt rest sn,
        n.bodyF = some b ∧
        b.children = pre ++ stmt :: rest ∧
        (∀ c ∈ pre, scanSkips c) ∧
        stmt.typ = "expression_statement" ∧
        stringChild stmt.children = some sn ∧
        s = pyStrip (stripQuotes sn.text) := by
  unfold get_docstring
  cases hb : n.bodyF with
  | none =>
    constructor
    · intro h
      exact absurd (congrArg Prod.fst h) Bool.false_ne_true
    · rintro ⟨b, -, -, -, -, hbb, -⟩
      cases hbb
  | some b =>
    rw [scanBody_eq_true_iff]
    constructor
    · rintro ⟨pre, stmt, rest, sn, hsplit, hpre, hstmt, hstr, hs⟩
      exact ⟨b, pre, stmt, rest, sn, rfl, hsplit, hpre, hstmt, hstr, hs⟩
    · rintro ⟨b', pre, stmt, rest, sn, hbb, hsplit, hpre, hstmt, hstr, hs⟩
      obtain rfl : b = b' := by injection hbb
      exact ⟨pre, stmt, rest, sn, hsplit, hpre, hstmt, hstr, hs⟩

/-! ### Global-variable extraction (C7) -/

/-- C7: on a module whose only statement is the assignment `x = 1`,
`extract_components` produces *no* component at all — in particular no
`global_variable` component — although its own docstring and the
"Then extract global variables" comment (lines 204-208) announce the
globals pass, and the fully implemented `extract_globals`, had it been
called as announced, would have produced exactly the `m.x`
`global_variable` component. -/
theorem C7_extract_globals_dropped :
    extract_components moduleWithGlobal "x = 1" "m.py" "m" = [] ∧
    (extract_globals "m.py" "m" "x = 1" moduleWithGlobal []).map
        (fun p => (p.1, p.2.type)) = [("m.x", "global_variable")] := by
  constructor
  · simp [extract_components, walk, walkHere, moduleWithGlobal, tn,
      List.attach, List.attachWith, List.pmap, TSNode.typ, TSNode.children]
  · decide

/-! ### Frame property of the graph functions (C10) -/

theorem foldl_preserve {α β : Type} (P : α → Prop) (f : α → β → α)
    (h : ∀ s x, P s → P (f s x)) : ∀ (l : List β) (s : α), P s → P (l.foldl f s) := by
  intro l
  induction l with
  | nil => intro s hs; exact hs
  | cons x rest ih => intro s hs; exact ih (f s x) (h s x hs)

theorem storeGet_append (st rest : SetStore) (r : Nat) (h : r < st.length) :
    storeGet (st ++ rest) r = storeGet st r := by
  unfold storeGet
  exact List.getD_append _ _ _ _ h

theorem storeGet_set_lt (s : SetStore) (i : Nat) (v : List String) (r : Nat)
    (h : r ≠ i) : storeGet (s.set i v) r = storeGet s r := by
  unfold storeGet
  simp [List.getD_eq_getElem?_getD, List.getElem?_set_ne (fun he => h he.symm)]

/-- Every reference of the freshly allocated graph lies past the end of the
original store. -/
theorem hg2_ref_ge (hg : HGraph) (base : Nat) (node : String) (r : Nat)
    (h : alookup (hg.enum.map (fun p => (p.2.1, base + p.1))) node = some r) :
    base ≤ r := by
  have hmem := alookup_mem h
  rw [List.mem_map] at hmem
  obtain ⟨q, -, hq⟩ := hmem
  have : base + q.1 = r := congrArg Prod.snd hq
  omega

/-- C10: `resolve_cycles` never mutates the adjacency sets of the graph
passed in.  In the store model: when no cycles are found, the input
references and the untouched store are returned; when cycles are found,
all removals go through freshly allocated copies, so every set the caller
holds a reference to keeps its contents.  The two ordering functions only
read the resolved graph, so they preserve the caller's sets as well. -/
theorem C10_no_input_mutation (hg : HGraph) (st : SetStore) :
    (∀ r < st.length, storeGet (resolve_cycles_h hg st).2 r = storeGet st r) ∧
    (detect_cycles (derefGraph hg st) = [] → resolve_cycles_h hg st = (hg, st)) ∧
    (∀ r < st.length, storeGet (topological_sort_h hg st).2 r = storeGet st r) ∧
    (∀ r < st.length, storeGet (dependency_first_dfs_h hg st).2 r = storeGet st r) := by
  have hmain : ∀ r < st.length,
      storeGet (resolve_cycles_h hg st).2 r = storeGet st r := by
    intro r hr
    unfold resolve_cycles_h
    by_cases hc : detect_cycles (derefGraph hg st) = []
    · simp only [hc, if_true]
    · simp only [if_neg hc]
      apply foldl_preserve (fun s => storeGet s r = storeGet st r)
      · intro s cyc hs
        apply foldl_preserve (fun s2 => storeGet s2 r = storeGet st r)
        · intro s2 node hs2
          cases hlo : alookup (hg.enum.map (fun p => (p.2.1, st.length + p.1))) node with
          | none => simpa [hlo] using hs2
          | some rr =>
            have hge := hg2_ref_ge hg st.length node rr hlo
            simp only [hlo]
            rw [storeGet_set_lt _ _ _ _ (by omega)]
            exact hs2
        · exact hs
      · exact storeGet_append st _ r hr
  have hnone : detect_cycles (derefGraph hg st) = [] →
      resolve_cycles_h hg st = (hg, st) := by
    intro hc
    unfold resolve_cycles_h
    simp only [hc, if_true]
  refine ⟨hmain, hnone, ?_, ?_⟩
  · intro r hr
    unfold topological_sort_h
    exact hmain r hr
  · intro r hr
    unfold dependency_first_dfs_h
    exact hmain r hr

/-! ### Tarjan utilities -/

theorem alookup_nset (m : List (String × Nat)) (k : String) (v : Nat)
    (k' : String) :
    alookup (nset m k v) k' = if k = k' then some v else alookup m k' := by
  unfold nset
  simp [alookup]

theorem popUntil_spec (v : String) (old : List String) :
    ∀ RES : List String, v ∉ RES →
      popUntil v (RES ++ v :: old) = (RES ++ [v], old) := by
  intro RES
  induction RES with
  | nil => intro _; simp [popUntil]
  | cons w rest ih =>
    intro hv
    have hwv : ¬ w = v := fun h => hv (h ▸ List.mem_cons_self _ _)
    have hv' : v ∉ rest := fun h => hv (List.mem_cons_of_mem _ h)
    simp only [List.cons_append, popUntil, if_neg hwv, List.append_eq]
    rw [ih hv']

theorem mem_foldl_erase (B : List String) :
    ∀ (os : List String), os.Nodup →
      (∀ x, x ∈ B.foldl (fun os w => os.erase w) os ↔ x ∈ os ∧ x ∉ B) := by
  induction B with
  | nil => intro os _ x; simp
  | cons w rest ih =>
    intro os hnd x
    simp only [List.foldl_cons]
    rw [ih (os.erase w) (hnd.erase w)]
    rw [hnd.mem_erase_iff]
    simp only [List.mem_cons]
    constructor
    · rintro ⟨⟨hxw, hxos⟩, hxrest⟩
      exact ⟨hxos, by rintro (rfl | h) <;> [exact hxw rfl; exact hxrest h]⟩
    · rintro ⟨hxos, hnot⟩
      exact ⟨⟨fun h => hnot (Or.inl h), hxos⟩, fun h => hnot (Or.inr h)⟩

theorem nodup_foldl_erase (B : List String) :
    ∀ (os : List String), os.Nodup →
      (B.foldl (fun os w => os.erase w) os).Nodup := by
  induction B with
  | nil => intro os h; exact h
  | cons w rest ih => intro os h; exact ih (os.erase w) (h.erase w)

theorem rankIn_append_of_mem (sccs NS : List (List String)) (x : String)
    (h : ∃ S ∈ sccs, x ∈ S) :
    rankIn (sccs ++ NS) x = rankIn sccs x := by
  induction sccs with
  | nil => obtain ⟨S, hS, -⟩ := h; cases hS
  | cons T rest ih =>
    by_cases hT : x ∈ T
    · simp [rankIn, hT]
    · obtain ⟨S, hS, hxS⟩ := h
      rcases List.mem_cons.mp hS with rfl | hS'
      · exact absurd hxS hT
      · simp [rankIn, hT, ih ⟨S, hS', hxS⟩]

theorem rankIn_lt_of_mem (sccs : List (List String)) (x : String)
    (h : ∃ S ∈ sccs, x ∈ S) :
    rankIn sccs x < sccs.length := by
  induction sccs with
  | nil => obtain ⟨S, hS, -⟩ := h; cases hS
  | cons T rest ih =>
    by_cases hT : x ∈ T
    · simp [rankIn, hT]
    · obtain ⟨S, hS, hxS⟩ := h
      rcases List.mem_cons.mp hS with rfl | hS'
      · exact absurd hxS hT
      · simp only [rankIn, if_neg hT, List.length_cons]
        exact Nat.succ_lt_succ (ih ⟨S, hS', hxS⟩)

theorem rankIn_append_last (sccs : List (List String)) (B : List String)
    (x : String) (h : ¬ ∃ S ∈ sccs, x ∈ S) (hx : x ∈ B) :
    rankIn (sccs ++ [B]) x = sccs.length := by
  induction sccs with
  | nil => simp [rankIn, hx]
  | cons T rest ih =>
    have hT : x ∉ T := fun hc => h ⟨T, List.mem_cons_self _ _, hc⟩
    have h' : ¬ ∃ S ∈ rest, x ∈ S := fun ⟨S, hS, hxS⟩ =>
      h ⟨S, List.mem_cons_of_mem _ hS, hxS⟩
    simp [rankIn, hT, ih h']

theorem rankIn_get (sccs : List (List String)) (x : String)
    (h : ∃ S ∈ sccs, x ∈ S) :
    ∃ S, sccs[rankIn sccs x]? = some S ∧ x ∈ S := by
  induction sccs with
  | nil => obtain ⟨S, hS, -⟩ := h; cases hS
  | cons T rest ih =>
    by_cases hT : x ∈ T
    · exact ⟨T, by simp [rankIn, hT], hT⟩
    · obtain ⟨S, hS, hxS⟩ := h
      rcases List.mem_cons.mp hS with rfl | hS'
      · exact absurd hxS hT
      · obtain ⟨S', hget, hxS'⟩ := ih ⟨S, hS', hxS⟩
        exact ⟨S', by simpa [rankIn, hT] using hget, hxS'⟩

theorem length_filter_le_of_imp (l : List String) (p q : String → Bool)
    (himp : ∀ x, p x = true → q x = true) :
    (l.filter p).length ≤ (l.filter q).length := by
  induction l with
  | nil => simp
  | cons a rest ih =>
    simp only [List.filter_cons]
    by_cases hp : p a = true
    · simp only [hp, himp a hp, if_true, List.length_cons]
      exact Nat.succ_le_succ ih
    · simp only [hp, if_false]
      by_cases hq : q a = true
      · simp only [hq, if_true, List.length_cons]
        exact Nat.le_succ_of_le ih
      · simp only [hq, if_false]
        exact ih

theorem length_filter_lt_of_imp (l : List String) (p q : String → Bool)
    (himp : ∀ x, p x = true → q x = true) (v : String) (hv : v ∈ l)
    (hq : q v = true) (hp : p v = false) :
    (l.filter p).length < (l.filter q).length := by
  induction l with
  | nil => cases hv
  | cons a rest ih =>
    rcases List.mem_cons.mp hv with rfl | hv'
    · simp only [List.filter_cons, hp, hq, if_true, Bool.false_eq_true, if_false,
        List.length_cons]
      exact Nat.lt_succ_of_le (length_filter_le_of_imp rest p q himp)
    · simp only [List.filter_cons]
      by_cases hpa : p a = true
      · simp only [hpa, himp a hpa, if_true, List.length_cons]
        exact Nat.succ_lt_succ (ih hv')
      · simp only [hpa, if_false]
        by_cases hqa : q a = true
        · simp only [hqa, if_true, List.length_cons]
          exact Nat.lt_succ_of_lt (ih hv')
        · simp only [hqa, if_false]
          exact ih hv'

theorem unvisited_strict (g : Graph) (st0 st1 : TarjanSt)
    (hmono : ∀ x, indexed st0 x → indexed st1 x) (v : String)
    (h0 : ¬ indexed st0 v) (h1 : indexed st1 v) (hv : v ∈ allNodes g) :
    unvisited g st1 < unvisited g st0 := by
  unfold unvisited
  have himp : ∀ x, (!(alookup st1.indices x).isSome) = true →
      (!(alookup st0.indices x).isSome) = true := by
    intro x hx
    rw [Bool.not_eq_true'] at hx ⊢
    by_contra hc
    have h2 : indexed st1 x := hmono x (by
      unfold indexed
      revert hc
      cases alookup st0.indices x <;> simp)
    unfold indexed at h2
    rw [hx] at h2
    cases h2
  have hq : (!(alookup st0.indices v).isSome) = true := by
    unfold indexed at h0
    cases hcase : (alookup st0.indices v).isSome with
    | false => simp
    | true => exact absurd hcase h0
  have hp : (!(alookup st1.indices v).isSome) = false := by
    unfold indexed at h1
    rw [h1]
    rfl
  exact length_filter_lt_of_imp _ _ _ himp v (List.mem_dedup.mpr hv) hq hp

theorem unvisited_mono (g : Graph) (st0 st1 : TarjanSt)
    (hmono : ∀ x, indexed st0 x → indexed st1 x) :
    unvisited g st1 ≤ unvisited g st0 := by
  unfold unvisited
  apply length_filter_le_of_imp
  intro x hx
  rw [Bool.not_eq_true'] at hx ⊢
  by_contra hc
  have h2 : indexed st1 x := hmono x (by
    unfold indexed
    revert hc
    cases alookup st0.indices x <;> simp)
  unfold indexed at h2
  rw [hx] at h2
  cases h2

theorem indexed_of_isSome {st : TarjanSt} {x : String}
    (h : (alookup st.indices x).isSome = true) : indexed st x := h

theorem not_indexed_iff_none {st : TarjanSt} {x : String} :
    ¬ indexed st x ↔ alookup st.indices x = none := by
  unfold indexed
  cases alookup st.indices x <;> simp

theorem getAdj_subset_allNodes (g : Graph) (x : String) :
    ∀ y ∈ getAdj g x, y ∈ allNodes g := by
  intro y hy
  unfold getAdj at hy
  cases hl : alookup g x with
  | none => rw [hl] at hy; cases hy
  | some l =>
    rw [hl] at hy
    have hmem := alookup_mem hl
    unfold allNodes
    apply List.mem_append_right
    apply List.mem_flatten.mpr
    exact ⟨l, List.mem_map.mpr ⟨(x, l), hmem, rfl⟩, hy⟩

theorem keys_subset_allNodes (g : Graph) :
    ∀ x ∈ keys g, x ∈ allNodes g := by
  intro x hx
  exact List.mem_append_left _ hx

theorem succFact_stable (g : Graph) (st st' : TarjanSt) (x : String)
    (hidx : ∀ y, indexed st y → indexed st' y)
    (hpop : ∀ y, popped st y → popped st' y)
    (hlow : lowOf st' x = lowOf st x)
    (hidxval : ∀ y, indexed st y → idxOf st' y = idxOf st y) :
    succFact g st x → succFact g st' x := by
  intro h y hy
  obtain ⟨hiy, hcase⟩ := h y hy
  refine ⟨hidx y hiy, ?_⟩
  rcases hcase with hp | hb
  · exact Or.inl (hpop y hp)
  · right
    rw [hlow, hidxval y hiy]
    exact hb

/-- Pushing an unindexed node establishes the fold invariant with no
successor processed yet. -/
theorem push_foldinv (g : Graph) (v : String) (st0 : TarjanSt)
    (hwf : TarjanWF g st0) (hnv : ¬ indexed st0 v) (hv : v ∈ allNodes g) :
    FoldInv g v st0 []
      { st0 with
        indices := nset st0.indices v st0.counter
        lowlinks := nset st0.lowlinks v st0.counter
        counter := st0.counter + 1
        stack := v :: st0.stack
        onStack := addDep st0.onStack v } := by
  set st1 : TarjanSt :=
    { st0 with
      indices := nset st0.indices v st0.counter
      lowlinks := nset st0.lowlinks v st0.counter
      counter := st0.counter + 1
      stack := v :: st0.stack
      onStack := addDep st0.onStack v } with hst1
  have hvnone : alookup st0.indices v = none := not_indexed_iff_none.mp hnv
  have hvstack : v ∉ st0.stack := fun hc => hnv (hwf.stack_indexed v hc)
  have hidxeq : ∀ x, alookup st1.indices x =
      if v = x then some st0.counter else alookup st0.indices x := by
    intro x
    exact alookup_nset _ _ _ _
  have hloweq : ∀ x, alookup st1.lowlinks x =
      if v = x then some st0.counter else alookup st0.lowlinks x := by
    intro x
    exact alookup_nset _ _ _ _
  have hindexed : ∀ x, indexed st1 x ↔ x = v ∨ indexed st0 x := by
    intro x
    unfold indexed
    rw [hidxeq]
    by_cases h : v = x
    · subst h
      simp
    · rw [if_neg h]
      constructor
      · exact fun hx => Or.inr hx
      · rintro (rfl | hx)
        · exact absurd rfl h
        · exact hx
  have hidxvalold : ∀ x, x ≠ v → idxOf st1 x = idxOf st0 x := by
    intro x hx
    unfold idxOf
    rw [hidxeq, if_neg (fun hh => hx hh.symm)]
  have hlowvalold : ∀ x, x ≠ v → lowOf st1 x = lowOf st0 x := by
    intro x hx
    unfold lowOf
    rw [hloweq, if_neg (fun hh => hx hh.symm)]
  have hidxv : idxOf st1 v = st0.counter := by
    unfold idxOf
    rw [hidxeq, if_pos rfl]
    rfl
  have hlowv : lowOf st1 v = st0.counter := by
    unfold lowOf
    rw [hloweq, if_pos rfl]
    rfl
  have hpoppedeq : ∀ x, popped st1 x ↔ popped st0 x := fun x => Iff.rfl
  have hwf1 : TarjanWF g st1 := by
    refine ⟨?_, ?_, ?_, ?_, ?_, ?_, ?_, ?_, ?_, ?_, ?_, ?_, ?_, ?_⟩
    · exact List.Nodup.cons hvstack hwf.stack_nodup
    · show (addDep st0.onStack v).Nodup
      unfold addDep
      split
      · exact hwf.onstack_nodup
      · rename_i hvnot
        rw [List.nodup_append]
        refine ⟨hwf.onstack_nodup, List.nodup_singleton v, ?_⟩
        intro a ha hb
        rcases List.mem_singleton.mp hb with rfl
        exact hvnot ha
    · intro x
      show x ∈ addDep st0.onStack v ↔ x ∈ v :: st0.stack
      rw [mem_addDep, List.mem_cons, hwf.onstack_iff x]
      tauto
    · intro x hx
      rw [hindexed]
      rcases List.mem_cons.mp hx with rfl | hx'
      · exact Or.inl rfl
      · exact Or.inr (hwf.stack_indexed x hx')
    · intro x n hn
      rw [hidxeq] at hn
      show n < st0.counter + 1
      by_cases h : v = x
      · rw [if_pos h] at hn
        injection hn with hn'
        omega
      · rw [if_neg h] at hn
        exact Nat.lt_succ_of_lt (hwf.idx_lt_counter x n hn)
    · intro x
      rw [hidxeq, hloweq]
      by_cases h : v = x
      · simp [h]
      · simp only [if_neg h]
        exact hwf.low_dom x
    · intro x hx
      by_cases h : x = v
      · subst h
        rw [hidxv, hlowv]
      · rw [hidxvalold x h, hlowvalold x h]
        exact hwf.low_le_idx x ((Or.resolve_left ((hindexed x).mp hx)) h)
    · intro S hS x hx
      rw [hindexed]
      exact Or.inr (hwf.scc_indexed S hS x hx)
    · exact hwf.scc_nodup
    · exact hwf.sccs_disjoint
    · intro x
      rw [hindexed]
      show _ ↔ x ∈ v :: st0.stack ∨ popped st0 x
      rw [List.mem_cons, hwf.partition x]
      tauto
    · intro x hx
      rcases List.mem_cons.mp hx with rfl | hx'
      · intro hpop
        exact hnv (hwf.scc_indexed _ hpop.choose_spec.1 _ hpop.choose_spec.2)
      · exact hwf.not_both x hx'
    · intro x hp y hy
      exact hwf.popped_succ x hp y hy
    · exact hwf.cycles_eq
  refine ⟨hwf1, hnv, ⟨[], rfl, by simp, by simp, by simp⟩, ?_, ?_, ⟨[], by simp⟩,
    ?_, ?_, ?_, ?_, ?_, ?_⟩
  · intro x n hn
    rw [hidxeq]
    rw [if_neg]
    · exact hn
    · intro h
      rw [← h] at hn
      rw [hvnone] at hn
      cases hn
  · intro x hx
    rw [hloweq, if_neg]
    intro h
    rw [← h] at hx
    exact hnv hx
  · exact Nat.lt_succ_self _
  · rw [hidxeq, if_pos rfl]
  · intro x hnx hix
    rcases (hindexed x).mp hix with rfl | hold
    · rw [hidxv]
    · exact absurd hold hnx
  · left
    rw [hlowv]
  · refine unvisited_strict g st0 st1 ?_ v hnv ?_ hv
    · intro x hx
      rw [hindexed]
      exact Or.inr hx
    · rw [hindexed]
      exact Or.inl rfl
  · intro y hy
    cases hy

theorem SCPost.idx_mono {g : Graph} {v : String} {st0 st1 : TarjanSt}
    (p : SCPost g v st0 st1) : ∀ x, indexed st0 x → indexed st1 x := by
  intro x hx
  unfold indexed at hx ⊢
  cases hl : alookup st0.indices x with
  | none => rw [hl] at hx; cases hx
  | some n => rw [p.idx_pres x n hl]; rfl

theorem SCPost.idxOf_pres {g : Graph} {v : String} {st0 st1 : TarjanSt}
    (p : SCPost g v st0 st1) : ∀ x, indexed st0 x → idxOf st1 x = idxOf st0 x := by
  intro x hx
  unfold indexed at hx
  cases hl : alookup st0.indices x with
  | none => rw [hl] at hx; cases hx
  | some n =>
    unfold idxOf
    rw [p.idx_pres x n hl, hl]

theorem SCPost.lowOf_pres {g : Graph} {v : String} {st0 st1 : TarjanSt}
    (p : SCPost g v st0 st1) : ∀ x, indexed st0 x → lowOf st1 x = lowOf st0 x := by
  intro x hx
  unfold lowOf
  rw [p.low_pres x hx]

theorem SCPost.popped_mono {g : Graph} {v : String} {st0 st1 : TarjanSt}
    (p : SCPost g v st0 st1) : ∀ x, popped st0 x → popped st1 x := by
  intro x ⟨S, hS, hxS⟩
  obtain ⟨NS, hNS⟩ := p.sccs_pres
  exact ⟨S, by rw [hNS]; exact List.mem_append_left _ hS, hxS⟩

theorem FoldInv.fidx_mono {g : Graph} {v : String} {st0 : TarjanSt}
    {processed : List String} {acc : TarjanSt}
    (p : FoldInv g v st0 processed acc) : ∀ x, indexed st0 x → indexed acc x := by
  intro x hx
  unfold indexed at hx ⊢
  cases hl : alookup st0.indices x with
  | none => rw [hl] at hx; cases hx
  | some n => rw [p.idx_pres x n hl]; rfl

/-- One step of the successor fold preserves the fold invariant. -/
theorem foldinv_step (g : Graph) (fuel : Nat) (v : String) (st0 : TarjanSt)
    (ih : ∀ (v' : String) (st0' : TarjanSt), TarjanWF g st0' → ¬ indexed st0' v' →
      v' ∈ allNodes g → unvisited g st0' < fuel →
      SCPost g v' st0' (strongconnect g fuel v' st0'))
    (hwf0 : TarjanWF g st0) (hfuel : unvisited g st0 < fuel + 1)
    (processed : List String) (acc : TarjanSt) (s : String)
    (hs : s ∈ allNodes g) (hfin : FoldInv g v st0 processed acc) :
    FoldInv g v st0 (processed ++ [s])
      (if (alookup acc.indices s).isNone then
        let acc2 := strongconnect g fuel s acc
        { acc2 with
          lowlinks := nset acc2.lowlinks v (min (lowOf acc2 v) (lowOf acc2 s)) }
      else if s ∈ acc.onStack then
        { acc with
          lowlinks := nset acc.lowlinks v (min (lowOf acc v) (idxOf acc s)) }
      else acc) := by
  obtain ⟨RES, hstk, hresnew, hressucc, hreschain⟩ := hfin.stack_eq
  have hvidxacc : indexed acc v := by
    unfold indexed
    rw [hfin.v_idx]
    rfl
  have hvstackacc : v ∈ acc.stack := by
    rw [hstk]
    exact List.mem_append_right _ (List.mem_cons_self _ _)
  have hidxv_acc : idxOf acc v = st0.counter := by
    unfold idxOf
    rw [hfin.v_idx]
    rfl
  by_cases hcase1 : (alookup acc.indices s).isNone
  · -- fresh successor: recursive call, then lowlink[v] := min(low v, low s)
    rw [if_pos hcase1]
    have hnsacc : ¬ indexed acc s := by
      unfold indexed
      rw [Option.isNone_iff_eq_none.mp hcase1]
      simp
    have hsubfuel : unvisited g acc < fuel := by
      have h1 := hfin.unvis_lt
      omega
    have post := ih s acc hfin.wf hnsacc hs hsubfuel
    set acc2 := strongconnect g fuel s acc with hacc2
    obtain ⟨NEWs, hstk2, hnew2, hsucc2, hchain2⟩ := post.stack_eq
    set w := min (lowOf acc2 v) (lowOf acc2 s) with hw
    set acc3 : TarjanSt := { acc2 with lowlinks := nset acc2.lowlinks v w }
      with hacc3
    have hlow3 : ∀ x, lowOf acc3 x = if v = x then w else lowOf acc2 x := by
      intro x
      show (alookup (nset acc2.lowlinks v w) x).getD 0 = _
      rw [alookup_nset]
      by_cases h : v = x
      · simp [h]
      · simp [h, lowOf]
    have hlow3v : lowOf acc3 v = w := by rw [hlow3, if_pos rfl]
    have hlow3ne : ∀ x, x ≠ v → lowOf acc3 x = lowOf acc2 x := by
      intro x hx
      rw [hlow3, if_neg (fun h => hx h.symm)]
    have hlowv_acc2 : lowOf acc2 v = lowOf acc v := post.lowOf_pres v hvidxacc
    have hidxv_acc2 : idxOf acc2 v = idxOf acc v := post.idxOf_pres v hvidxacc
    have hidx3 : acc3.indices = acc2.indices := rfl
    have hindexed3 : ∀ x, indexed acc3 x ↔ indexed acc2 x := fun _ => Iff.rfl
    have hpopped3 : ∀ x, popped acc3 x ↔ popped acc2 x := fun _ => Iff.rfl
    have hidxOf3 : ∀ x, idxOf acc3 x = idxOf acc2 x := fun _ => rfl
    have hwle : w ≤ lowOf acc v := by
      rw [hw, ← hlowv_acc2]
      exact Nat.min_le_left _ _
    have hnewnotv : ∀ x ∈ NEWs, x ≠ v := by
      intro x hx heq
      exact hnew2 x hx (heq ▸ hvidxacc)
    have hresnotv : ∀ x ∈ RES, x ≠ v := fun x hx => (hresnew x hx).2
    have hwf3 : TarjanWF g acc3 := by
      have hwf2 := post.wf
      refine ⟨hwf2.stack_nodup, hwf2.onstack_nodup, hwf2.onstack_iff,
        hwf2.stack_indexed, ?_, ?_, ?_,
        hwf2.scc_indexed, hwf2.scc_nodup, hwf2.sccs_disjoint, hwf2.partition,
        hwf2.not_both, hwf2.popped_succ, hwf2.cycles_eq⟩
      · exact hwf2.idx_lt_counter
      · intro x
        show (alookup (nset acc2.lowlinks v w) x).isSome = _
        rw [alookup_nset]
        by_cases h : v = x
        · subst h
          simp only [if_pos rfl, Option.isSome_some]
          have := post.idx_mono v hvidxacc
          unfold indexed at this
          exact this.symm
        · rw [if_neg h]
          exact hwf2.low_dom x
      · intro x hx
        by_cases h : x = v
        · subst h
          rw [hlow3v, hidxOf3]
          calc w ≤ lowOf acc2 x := Nat.min_le_left _ _
            _ ≤ idxOf acc2 x := hwf2.low_le_idx x hx
        · rw [hlow3ne x h, hidxOf3]
          exact hwf2.low_le_idx x hx
    refine ⟨hwf3, hfin.v_new, ⟨NEWs ++ RES, ?_, ?_, ?_, ?_⟩, ?_, ?_, ?_, ?_, ?_,
      ?_, ?_, ?_, ?_⟩
    · show acc2.stack = (NEWs ++ RES) ++ v :: st0.stack
      rw [hstk2, hstk, List.append_assoc]
    · intro x hx
      rcases List.mem_append.mp hx with hxn | hxr
      · refine ⟨fun hc => hnew2 x hxn (hfin.fidx_mono x hc), hnewnotv x hxn⟩
      · exact hresnew x hxr
    · intro x hx
      rcases List.mem_append.mp hx with hxn | hxr
      · refine succFact_stable g acc2 acc3 x ?_ ?_ ?_ ?_ (hsucc2 x hxn)
        · intro y hy; exact hy
        · intro y hy; exact hy
        · exact hlow3ne x (hnewnotv x hxn)
        · intro y _; rfl
      · refine succFact_stable g acc acc3 x ?_ ?_ ?_ ?_ (hressucc x hxr)
        · intro y hy; exact post.idx_mono y hy
        · intro y hy; exact post.popped_mono y hy
        · rw [hlow3ne x (hresnotv x hxr)]
          exact post.lowOf_pres x (hfin.wf.stack_indexed x (by
            rw [hstk]; exact List.mem_append_left _ hxr))
        · intro y hy; exact post.idxOf_pres y hy
    · intro x hx
      rw [hlow3v]
      rcases List.mem_append.mp hx with hxn | hxr
      · rw [hlow3ne x (hnewnotv x hxn)]
        calc w ≤ lowOf acc2 s := Nat.min_le_right _ _
          _ ≤ lowOf acc2 x := hchain2 x hxn
      · rw [hlow3ne x (hresnotv x hxr)]
        rw [post.lowOf_pres x (hfin.wf.stack_indexed x (by
          rw [hstk]; exact List.mem_append_left _ hxr))]
        calc w ≤ lowOf acc v := hwle
          _ ≤ lowOf acc x := hreschain x hxr
    · intro x n hn
      exact post.idx_pres x n (hfin.idx_pres x n hn)
    · intro x hx
      have hxnev : x ≠ v := fun h => hfin.v_new (h ▸ hx)
      show alookup (nset acc2.lowlinks v w) x = _
      rw [alookup_nset, if_neg (fun h => hxnev h.symm)]
      rw [post.low_pres x (hfin.fidx_mono x hx)]
      exact hfin.low_pres x hx
    · obtain ⟨NS1, h1⟩ := hfin.sccs_pres
      obtain ⟨NS2, h2⟩ := post.sccs_pres
      exact ⟨NS1 ++ NS2, by
        show acc2.sccs = _
        rw [h2, h1, List.append_assoc]⟩
    · calc st0.counter < acc.counter := hfin.counter_mono
        _ ≤ acc2.counter := post.counter_mono
    · show alookup acc2.indices v = some st0.counter
      exact post.idx_pres v st0.counter hfin.v_idx
    · intro x hnx hix
      by_cases hax : indexed acc x
      · rw [hidxOf3, post.idxOf_pres x hax]
        exact hfin.new_idx_ge x hnx hax
      · have := post.new_idx_ge x hax hix
        rw [hidxOf3]
        calc st0.counter ≤ acc.counter := Nat.le_of_lt hfin.counter_mono
          _ ≤ idxOf acc2 x := this
    · rw [hlow3v, hw]
      rcases Nat.le_total (lowOf acc2 v) (lowOf acc2 s) with hmin | hmin
      · rw [Nat.min_eq_left hmin, hlowv_acc2]
        rcases hfin.low_v_bound with hb | ⟨z, hz, hzeq⟩
        · exact Or.inl hb
        · right
          refine ⟨z, hz, ?_⟩
          have hzidx : indexed acc z := hfin.fidx_mono z (hwf0.stack_indexed z hz)
          rw [hidxOf3, post.idxOf_pres z hzidx]
          exact hzeq
      · rw [Nat.min_eq_right hmin]
        rcases post.low_v_bound with hb | ⟨z, hz, hzeq⟩
        · left
          calc st0.counter ≤ acc.counter := Nat.le_of_lt hfin.counter_mono
            _ ≤ lowOf acc2 s := hb
        · rw [hstk] at hz
          rcases List.mem_append.mp hz with hzr | hzc
          · left
            have hzidx : indexed acc z :=
              hfin.wf.stack_indexed z (by rw [hstk]; exact List.mem_append_left _ hzr)
            rw [hzeq, post.idxOf_pres z hzidx]
            exact hfin.new_idx_ge z (hresnew z hzr).1 hzidx
          · rcases List.mem_cons.mp hzc with rfl | hzold
            · left
              rw [hzeq, post.idxOf_pres z hvidxacc, hidxv_acc]
            · right
              refine ⟨z, hzold, ?_⟩
              rw [hzeq, hidxOf3]
    · calc unvisited g acc3 = unvisited g acc2 := rfl
        _ < unvisited g acc := post.unvis_lt
        _ < unvisited g st0 := hfin.unvis_lt
    · intro y hy
      rcases List.mem_append.mp hy with hyp | hys
      · obtain ⟨hiy, hby⟩ := hfin.processed_fact y hyp
        refine ⟨post.idx_mono y hiy, ?_⟩
        rcases hby with hp | hb
        · exact Or.inl (post.popped_mono y hp)
        · right
          rw [hlow3v, hidxOf3, post.idxOf_pres y hiy]
          calc w ≤ lowOf acc v := hwle
            _ ≤ idxOf acc y := hb
      · have hyeq : y = s := by
          rcases List.mem_singleton.mp hys with rfl
          rfl
        subst hyeq
        have hsidx : indexed acc2 y := by
          unfold indexed
          rw [post.v_indexed]
          rfl
        refine ⟨hsidx, Or.inr ?_⟩
        rw [hlow3v, hidxOf3]
        calc w ≤ lowOf acc2 y := Nat.min_le_right _ _
          _ ≤ idxOf acc2 y := post.wf.low_le_idx y hsidx
  · rw [if_neg hcase1]
    have hsidx : indexed acc s := by
      unfold indexed
      revert hcase1
      cases alookup acc.indices s <;> simp
    by_cases hcase2 : s ∈ acc.onStack
    · -- successor on the stack: lowlink[v] := min(low v, index s)
      rw [if_pos hcase2]
      set w := min (lowOf acc v) (idxOf acc s) with hw
      set acc' : TarjanSt := { acc with lowlinks := nset acc.lowlinks v w }
        with hacc'
      have hlow' : ∀ x, lowOf acc' x = if v = x then w else lowOf acc x := by
        intro x
        show (alookup (nset acc.lowlinks v w) x).getD 0 = _
        rw [alookup_nset]
        by_cases h : v = x
        · simp [h]
        · simp [h, lowOf]
      have hlowv' : lowOf acc' v = w := by rw [hlow', if_pos rfl]
      have hlowne' : ∀ x, x ≠ v → lowOf acc' x = lowOf acc x := by
        intro x hx
        rw [hlow', if_neg (fun h => hx h.symm)]
      have hwle : w ≤ lowOf acc v := Nat.min_le_left _ _
      have hwf' : TarjanWF g acc' := by
        have hwf2 := hfin.wf
        refine ⟨hwf2.stack_nodup, hwf2.onstack_nodup, hwf2.onstack_iff,
          hwf2.stack_indexed,
          hwf2.idx_lt_counter, ?_, ?_, hwf2.scc_indexed, hwf2.scc_nodup,
          hwf2.sccs_disjoint, hwf2.partition, hwf2.not_both, hwf2.popped_succ,
          hwf2.cycles_eq⟩
        · intro x
          show (alookup (nset acc.lowlinks v w) x).isSome = _
          rw [alookup_nset]
          by_cases h : v = x
          · subst h
            simp only [if_pos rfl, Option.isSome_some]
            unfold indexed at hvidxacc
            exact hvidxacc.symm
          · rw [if_neg h]
            exact hwf2.low_dom x
        · intro x hx
          by_cases h : x = v
          · subst h
            rw [hlowv']
            show w ≤ idxOf acc x
            calc w ≤ lowOf acc x := hwle
              _ ≤ idxOf acc x := hwf2.low_le_idx x hx
          · rw [hlowne' x h]
            exact hwf2.low_le_idx x hx
      refine ⟨hwf', hfin.v_new, ⟨RES, hstk, hresnew, ?_, ?_⟩, hfin.idx_pres, ?_,
        hfin.sccs_pres, hfin.counter_mono, hfin.v_idx, hfin.new_idx_ge, ?_, ?_, ?_⟩
      · intro x hx
        refine succFact_stable g acc acc' x (fun y hy => hy) (fun y hy => hy)
          (hlowne' x (hresnew x hx).2) (fun y _ => rfl) (hressucc x hx)
      · intro x hx
        rw [hlowv', hlowne' x (hresnew x hx).2]
        calc w ≤ lowOf acc v := hwle
          _ ≤ lowOf acc x := hreschain x hx
      · intro x hx
        have hxnev : x ≠ v := fun h => hfin.v_new (h ▸ hx)
        show alookup (nset acc.lowlinks v w) x = _
        rw [alookup_nset, if_neg (fun h => hxnev h.symm)]
        exact hfin.low_pres x hx
      · rw [hlowv', hw]
        rcases Nat.le_total (lowOf acc v) (idxOf acc s) with hmin | hmin
        · rw [Nat.min_eq_left hmin]
          exact hfin.low_v_bound
        · rw [Nat.min_eq_right hmin]
          have hsstack : s ∈ acc.stack := (hfin.wf.onstack_iff s).mp hcase2
          rw [hstk] at hsstack
          rcases List.mem_append.mp hsstack with hsr | hsc
          · left
            exact hfin.new_idx_ge s (hresnew s hsr).1 hsidx
          · rcases List.mem_cons.mp hsc with rfl | hsold
            · left
              rw [hidxv_acc]
            · exact Or.inr ⟨s, hsold, rfl⟩
      · exact hfin.unvis_lt
      · intro y hy
        rcases List.mem_append.mp hy with hyp | hys
        · obtain ⟨hiy, hby⟩ := hfin.processed_fact y hyp
          refine ⟨hiy, ?_⟩
          rcases hby with hp | hb
          · exact Or.inl hp
          · right
            rw [hlowv']
            calc w ≤ lowOf acc v := hwle
              _ ≤ idxOf acc y := hb
        · have hyeq : y = s := List.mem_singleton.mp hys
          subst hyeq
          refine ⟨hsidx, Or.inr ?_⟩
          rw [hlowv']
          exact Nat.min_le_right _ _
    · -- successor already popped: no state change
      rw [if_neg hcase2]
      refine ⟨hfin.wf, hfin.v_new, ⟨RES, hstk, hresnew, hressucc, hreschain⟩,
        hfin.idx_pres, hfin.low_pres, hfin.sccs_pres, hfin.counter_mono,
        hfin.v_idx, hfin.new_idx_ge, hfin.low_v_bound, hfin.unvis_lt, ?_⟩
      intro y hy
      rcases List.mem_append.mp hy with hyp | hys
      · exact hfin.processed_fact y hyp
      · have hyeq : y = s := List.mem_singleton.mp hys
        subst hyeq
        refine ⟨hsidx, Or.inl ?_⟩
        have hnotstack : y ∉ acc.stack :=
          fun hc => hcase2 ((hfin.wf.onstack_iff y).mpr hc)
        rcases (hfin.wf.partition y).mp hsidx with hstack | hpop
        · exact absurd hstack hnotstack
        · exact hpop

/-- The successor fold preserves the invariant along the whole list. -/
theorem foldinv_fold (g : Graph) (fuel : Nat) (v : String) (st0 : TarjanSt)
    (ih : ∀ (v' : String) (st0' : TarjanSt), TarjanWF g st0' → ¬ indexed st0' v' →
      v' ∈ allNodes g → unvisited g st0' < fuel →
      SCPost g v' st0' (strongconnect g fuel v' st0'))
    (hwf0 : TarjanWF g st0) (hfuel : unvisited g st0 < fuel + 1) :
    ∀ (succs processed : List String) (acc : TarjanSt),
      (∀ x ∈ succs, x ∈ allNodes g) → FoldInv g v st0 processed acc →
      FoldInv g v st0 (processed ++ succs)
        (succs.foldl (fun acc s =>
          if (alookup acc.indices s).isNone then
            let acc2 := strongconnect g fuel s acc
            { acc2 with
              lowlinks := nset acc2.lowlinks v (min (lowOf acc2 v) (lowOf acc2 s)) }
          else if s ∈ acc.onStack then
            { acc with
              lowlinks := nset acc.lowlinks v (min (lowOf acc v) (idxOf acc s)) }
          else acc) acc) := by
  intro succs
  induction succs with
  | nil =>
    intro processed acc _ hfin
    simpa using hfin
  | cons s rest ihl =>
    intro processed acc hall hfin
    rw [List.foldl_cons]
    have hstep := foldinv_step g fuel v st0 ih hwf0 hfuel processed acc s
      (hall s (List.mem_cons_self _ _)) hfin
    have := ihl (processed ++ [s]) _
      (fun x hx => hall x (List.mem_cons_of_mem _ hx)) hstep
    simpa [List.append_assoc] using this

/-- Closing a call: the component-emission step turns the completed fold
invariant into the call contract. -/
theorem popSccIf_post (g : Graph) (v : String) (st0 stF : TarjanSt)
    (hwf0 : TarjanWF g st0)
    (hfin : FoldInv g v st0 (getAdj g v) stF) :
    SCPost g v st0 (popSccIf v stF) := by
  obtain ⟨RES, hstk, hresnew, hressucc, hreschain⟩ := hfin.stack_eq
  have hvidx : indexed stF v := by
    unfold indexed
    rw [hfin.v_idx]
    rfl
  have hidxvF : idxOf stF v = st0.counter := by
    unfold idxOf
    rw [hfin.v_idx]
    rfl
  have hsv : succFact g stF v := by
    intro y hy
    exact hfin.processed_fact y hy
  have hresv : ∀ x ∈ RES, x ≠ v := fun x hx => (hresnew x hx).2
  have hvnotres : v ∉ RES := fun hc => hresv v hc rfl
  have hBsucc : ∀ x, x ∈ RES ∨ x = v → succFact g stF x := by
    rintro x (hx | rfl)
    · exact hressucc x hx
    · exact hsv
  have hBchain : ∀ x, x ∈ RES ∨ x = v → lowOf stF v ≤ lowOf stF x := by
    rintro x (hx | rfl)
    · exact hreschain x hx
    · exact Nat.le_refl _
  have hBstack : ∀ x, x ∈ RES ∨ x = v → x ∈ stF.stack := by
    rintro x (hx | rfl)
    · rw [hstk]; exact List.mem_append_left _ hx
    · rw [hstk]; exact List.mem_append_right _ (List.mem_cons_self _ _)
  have holdidx : ∀ y ∈ st0.stack, idxOf stF y < st0.counter := by
    intro y hy
    have hyi : indexed st0 y := hwf0.stack_indexed y hy
    unfold indexed at hyi
    cases hly : alookup st0.indices y with
    | none => rw [hly] at hyi; cases hyi
    | some n =>
      have := hfin.idx_pres y n hly
      unfold idxOf
      rw [this]
      exact hwf0.idx_lt_counter y n hly
  unfold popSccIf
  by_cases hpop : lowOf stF v = idxOf stF v
  · rw [if_pos hpop]
    have hpun : popUntil v stF.stack = (RES ++ [v], st0.stack) := by
      rw [hstk]
      exact popUntil_spec v st0.stack RES hvnotres
    rw [hpun]
    set B := RES ++ [v] with hB
    have hmemB : ∀ x, x ∈ B ↔ x ∈ RES ∨ x = v := by
      intro x
      rw [hB, List.mem_append, List.mem_singleton]
    have hstknd : ((RES ++ [v]) ++ st0.stack).Nodup := by
      have h0 := hfin.wf.stack_nodup
      rw [hstk] at h0
      rw [List.append_assoc]
      exact h0
    have hBdisj : ∀ x ∈ B, x ∉ st0.stack := by
      intro x hx
      exact (List.disjoint_of_nodup_append hstknd) hx
    have hnotpopB : ∀ x ∈ B, ¬ popped stF x := by
      intro x hx
      exact hfin.wf.not_both x (hBstack x ((hmemB x).mp hx))
    set st' : TarjanSt :=
      { stF with
        stack := st0.stack
        onStack := B.foldl (fun os w => os.erase w) stF.onStack
        sccs := stF.sccs ++ [B]
        cycles := if 1 < B.length then stF.cycles ++ [B] else stF.cycles }
      with hst'
    have hpop' : ∀ x, popped st' x ↔ popped stF x ∨ x ∈ B := by
      intro x
      show (∃ S ∈ stF.sccs ++ [B], x ∈ S) ↔ _
      constructor
      · rintro ⟨S, hS, hxS⟩
        rcases List.mem_append.mp hS with h | h
        · exact Or.inl ⟨S, h, hxS⟩
        · rcases List.mem_singleton.mp h with rfl
          exact Or.inr hxS
      · rintro (⟨S, hS, hxS⟩ | hx)
        · exact ⟨S, List.mem_append_left _ hS, hxS⟩
        · exact ⟨B, List.mem_append_right _ (List.mem_singleton_self _), hx⟩
    have hrankold : ∀ x, popped stF x →
        rankIn st'.sccs x = rankIn stF.sccs x := by
      intro x hx
      exact rankIn_append_of_mem _ _ _ hx
    have hrankB : ∀ x ∈ B, rankIn st'.sccs x = stF.sccs.length := by
      intro x hx
      exact rankIn_append_last _ _ _ (hnotpopB x hx) hx
    have hwf' : TarjanWF g st' := by
      refine ⟨?_, ?_, ?_, ?_, ?_, ?_, ?_, ?_, ?_, ?_, ?_, ?_, ?_, ?_⟩
      · exact (List.nodup_append.mp hstknd).2.1
      · exact nodup_foldl_erase B stF.onStack hfin.wf.onstack_nodup
      · intro x
        show x ∈ B.foldl (fun os w => os.erase w) stF.onStack ↔ x ∈ st0.stack
        rw [mem_foldl_erase B stF.onStack hfin.wf.onstack_nodup x,
          hfin.wf.onstack_iff x, hstk]
        constructor
        · rintro ⟨hx1, hx2⟩
          rcases List.mem_append.mp hx1 with h | h
          · exact absurd ((hmemB x).mpr (Or.inl h)) hx2
          · rcases List.mem_cons.mp h with rfl | h'
            · exact absurd ((hmemB x).mpr (Or.inr rfl)) hx2
            · exact h'
        · intro hx
          refine ⟨List.mem_append_right _ (List.mem_cons_of_mem _ hx), ?_⟩
          exact fun hc => hBdisj x hc hx
      · intro x hx
        exact hfin.wf.stack_indexed x (by
          rw [hstk]; exact List.mem_append_right _ (List.mem_cons_of_mem _ hx))
      · exact hfin.wf.idx_lt_counter
      · exact hfin.wf.low_dom
      · exact hfin.wf.low_le_idx
      · intro S hS x hx
        rcases List.mem_append.mp hS with h | h
        · exact hfin.wf.scc_indexed S h x hx
        · rcases List.mem_singleton.mp h with rfl
          exact hfin.wf.stack_indexed x (hBstack x ((hmemB x).mp hx))
      · intro S hS
        rcases List.mem_append.mp hS with h | h
        · exact hfin.wf.scc_nodup S h
        · rcases List.mem_singleton.mp h with rfl
          exact (List.nodup_append.mp hstknd).1
      · rw [List.pairwise_append]
        refine ⟨hfin.wf.sccs_disjoint, List.pairwise_singleton _ _, ?_⟩
        intro S hS B' hB' x hxS
        rcases List.mem_singleton.mp hB' with rfl
        intro hxB
        exact hnotpopB x hxB ⟨S, hS, hxS⟩
      · intro x
        show indexed stF x ↔ x ∈ st0.stack ∨ popped st' x
        rw [hfin.wf.partition x, hpop' x, hstk]
        constructor
        · rintro (h | h)
          · rcases List.mem_append.mp h with h1 | h1
            · exact Or.inr (Or.inr ((hmemB x).mpr (Or.inl h1)))
            · rcases List.mem_cons.mp h1 with rfl | h2
              · exact Or.inr (Or.inr ((hmemB x).mpr (Or.inr rfl)))
              · exact Or.inl h2
          · exact Or.inr (Or.inl h)
        · rintro (h | h | h)
          · exact Or.inl (List.mem_append_right _ (List.mem_cons_of_mem _ h))
          · exact Or.inr h
          · rcases (hmemB x).mp h with h1 | rfl
            · exact Or.inl (List.mem_append_left _ h1)
            · exact Or.inl (List.mem_append_right _ (List.mem_cons_self _ _))
      · intro x hx hp
        rcases (hpop' x).mp hp with h | h
        · exact hfin.wf.not_both x (by
            rw [hstk]
            exact List.mem_append_right _ (List.mem_cons_of_mem _ hx)) h
        · exact hBdisj x h hx
      · intro x hp y hy
        rcases (hpop' x).mp hp with hold | hxB
        · obtain ⟨hpy, hrle⟩ := hfin.wf.popped_succ x hold y hy
          refine ⟨(hpop' y).mpr (Or.inl hpy), ?_⟩
          rw [hrankold y hpy, hrankold x hold]
          exact hrle
        · obtain ⟨hiy, hcase⟩ := hBsucc x ((hmemB x).mp hxB) y hy
          rcases hcase with hpy | hbound
          · refine ⟨(hpop' y).mpr (Or.inl hpy), ?_⟩
            rw [hrankold y hpy, hrankB x hxB]
            exact Nat.le_of_lt (rankIn_lt_of_mem _ _ hpy)
          · rcases (hfin.wf.partition y).mp hiy with hystk | hpy
            · rw [hstk] at hystk
              rcases List.mem_append.mp hystk with hyB1 | hyc
              · have hyB : y ∈ B := (hmemB y).mpr (Or.inl hyB1)
                refine ⟨(hpop' y).mpr (Or.inr hyB), ?_⟩
                rw [hrankB y hyB, hrankB x hxB]
              · rcases List.mem_cons.mp hyc with rfl | hyold
                · have hyB : y ∈ B := (hmemB y).mpr (Or.inr rfl)
                  refine ⟨(hpop' y).mpr (Or.inr hyB), ?_⟩
                  rw [hrankB y hyB, hrankB x hxB]
                · exfalso
                  have h1 : lowOf stF v ≤ lowOf stF x := hBchain x ((hmemB x).mp hxB)
                  have h2 : lowOf stF x ≤ idxOf stF y := hbound
                  have h3 : idxOf stF y < st0.counter := holdidx y hyold
                  rw [hpop, hidxvF] at h1
                  omega
            · refine ⟨(hpop' y).mpr (Or.inl hpy), ?_⟩
              rw [hrankold y hpy, hrankB x hxB]
              exact Nat.le_of_lt (rankIn_lt_of_mem _ _ hpy)
      · show st'.cycles = (stF.sccs ++ [B]).filter _
        rw [List.filter_append, ← hfin.wf.cycles_eq]
        by_cases hlen : 1 < B.length
        · simp [hlen]
        · simp [hlen]
    refine ⟨hwf', ⟨[], by simp, by simp, by simp, by simp⟩, ?_, ?_, ?_,
      ?_, ?_, ?_, ?_, ?_, ?_, ?_⟩
    · right
      exact (hpop' v).mpr (Or.inr ((hmemB v).mpr (Or.inr rfl)))
    · exact hfin.idx_pres
    · exact hfin.low_pres
    · obtain ⟨NS, hNS⟩ := hfin.sccs_pres
      exact ⟨NS ++ [B], by
        show stF.sccs ++ [B] = _
        rw [hNS, List.append_assoc]⟩
    · exact Nat.le_of_lt hfin.counter_mono
    · exact hfin.v_idx
    · exact hfin.new_idx_ge
    · exact hfin.low_v_bound
    · intro h
      exact h
    · show unvisited g stF < _
      exact Nat.lt_of_lt_of_le hfin.unvis_lt (Nat.le_refl _)
  · rw [if_neg hpop]
    have hlow_le : lowOf stF v ≤ idxOf stF v := hfin.wf.low_le_idx v hvidx
    refine ⟨hfin.wf, ⟨RES ++ [v], ?_, ?_, ?_, ?_⟩, Or.inl (hBstack v (Or.inr rfl)),
      hfin.idx_pres, hfin.low_pres, hfin.sccs_pres, Nat.le_of_lt hfin.counter_mono,
      hfin.v_idx, hfin.new_idx_ge, hfin.low_v_bound, ?_, hfin.unvis_lt⟩
    · rw [hstk, List.append_assoc]
      rfl
    · intro x hx
      rcases List.mem_append.mp hx with h | h
      · exact (hresnew x h).1
      · rcases List.mem_singleton.mp h with rfl
        exact hfin.v_new
    · intro x hx
      rcases List.mem_append.mp hx with h | h
      · exact hressucc x h
      · rcases List.mem_singleton.mp h with rfl
        exact hsv
    · intro x hx
      rcases List.mem_append.mp hx with h | h
      · exact hreschain x h
      · rcases List.mem_singleton.mp h with rfl
        exact Nat.le_refl _
    · intro hempty
      exfalso
      rcases hfin.low_v_bound with hb | ⟨z, hz, -⟩
      · rw [hidxvF] at hpop
        omega
      · rw [hempty] at hz
        cases hz

/-- The full contract of `strongconnect`, by induction on the fuel. -/
theorem strongconnect_spec (g : Graph) :
    ∀ (fuel : Nat) (v : String) (st0 : TarjanSt), TarjanWF g st0 →
      ¬ indexed st0 v → v ∈ allNodes g → unvisited g st0 < fuel →
      SCPost g v st0 (strongconnect g fuel v st0) := by
  intro fuel
  induction fuel with
  | zero =>
    intro v st0 _ _ _ h
    exact absurd h (Nat.not_lt_zero _)
  | succ fuel ih =>
    intro v st0 hwf hnv hv hfuel
    have hpush := push_foldinv g v st0 hwf hnv hv
    have hfold := foldinv_fold g fuel v st0 ih hwf hfuel (getAdj g v) [] _
      (fun x hx => getAdj_subset_allNodes g v x hx) hpush
    simp only [List.nil_append] at hfold
    exact popSccIf_post g v st0 _ hwf hfold

/-- Fuel that always suffices for the driver loop. -/
theorem unvisited_le_len (g : Graph) (st : TarjanSt) :
    unvisited g st ≤ (allNodes g).length :=
  Nat.le_trans (List.length_filter_le _ _) (allNodes g).dedup_sublist.length_le

/-- The driver loop of `detect_cycles` keeps the invariant, always leaves
the stack empty, and indexes every node it visits. -/
theorem tarjanLoop_spec (g : Graph) :
    ∀ (ks : List String), (∀ x ∈ ks, x ∈ allNodes g) →
    ∀ st, TarjanWF g st → st.stack = [] →
      TarjanWF g (ks.foldl (fun st n =>
          if (alookup st.indices n).isNone then
            strongconnect g (tarjanFuel g) n st
          else st) st) ∧
      (ks.foldl (fun st n =>
          if (alookup st.indices n).isNone then
            strongconnect g (tarjanFuel g) n st
          else st) st).stack = [] ∧
      (∀ x, indexed st x → indexed (ks.foldl (fun st n =>
          if (alookup st.indices n).isNone then
            strongconnect g (tarjanFuel g) n st
          else st) st) x) ∧
      (∀ x ∈ ks, indexed (ks.foldl (fun st n =>
          if (alookup st.indices n).isNone then
            strongconnect g (tarjanFuel g) n st
          else st) st) x) := by
  intro ks
  induction ks with
  | nil =>
    intro _ st hwf hemp
    exact ⟨hwf, hemp, fun x hx => hx, fun x hx => absurd hx (List.not_mem_nil x)⟩
  | cons n rest ihl =>
    intro hall st hwf hemp
    rw [List.foldl_cons]
    by_cases hn : (alookup st.indices n).isNone
    · rw [if_pos hn]
      have hnidx : ¬ indexed st n := by
        unfold indexed
        rw [Option.isNone_iff_eq_none.mp hn]
        simp
      have hfuel : unvisited g st < tarjanFuel g :=
        Nat.lt_succ_of_le (unvisited_le_len g st)
      have post := strongconnect_spec g (tarjanFuel g) n st hwf hnidx
        (hall n (List.mem_cons_self _ _)) hfuel
      have hemp' : (strongconnect g (tarjanFuel g) n st).stack = [] :=
        post.empty_restores hemp
      obtain ⟨hwf2, hemp2, hmono2, hall2⟩ :=
        ihl (fun x hx => hall x (List.mem_cons_of_mem _ hx)) _ post.wf hemp'
      refine ⟨hwf2, hemp2, ?_, ?_⟩
      · intro x hx
        exact hmono2 x (post.idx_mono x hx)
      · intro x hx
        rcases List.mem_cons.mp hx with rfl | hx'
        · refine hmono2 x (by
            unfold indexed
            rw [post.v_indexed]
            rfl)
        · exact hall2 x hx'
    · rw [if_neg hn]
      have hnidx : indexed st n := by
        unfold indexed
        revert hn
        cases alookup st.indices n <;> simp
      obtain ⟨hwf2, hemp2, hmono2, hall2⟩ :=
        ihl (fun x hx => hall x (List.mem_cons_of_mem _ hx)) st hwf hemp
      refine ⟨hwf2, hemp2, hmono2, ?_⟩
      intro x hx
      rcases List.mem_cons.mp hx with rfl | hx'
      · exact hmono2 x hnidx
      · exact hall2 x hx'

/-- The initial state is well-formed. -/
theorem initSt_wf (g : Graph) : TarjanWF g initSt := by
  refine ⟨List.nodup_nil, List.nodup_nil, ?_, ?_, ?_, ?_, ?_, ?_, ?_, ?_, ?_,
    ?_, ?_, ?_⟩
  · intro x
    exact Iff.rfl
  · intro x hx
    cases hx
  · intro x n hn
    cases hn
  · intro x
    rfl
  · intro x hx
    cases hx
  · intro S hS
    cases hS
  · intro S hS
    cases hS
  · exact List.Pairwise.nil
  · intro x
    constructor
    · intro hx
      cases hx
    · rintro (hx | ⟨S, hS, -⟩)
      · cases hx
      · cases hS
  · intro x hx
    cases hx
  · intro x hp
    obtain ⟨S, hS, -⟩ := hp
    cases hS
  · rfl

/-- The completed run: well-formed, empty stack, every key indexed. -/
theorem tarjanRun_spec (g : Graph) :
    TarjanWF g (tarjanRun g) ∧ (tarjanRun g).stack = [] ∧
      ∀ x ∈ keys g, indexed (tarjanRun g) x := by
  obtain ⟨hwf, hemp, -, hall⟩ :=
    tarjanLoop_spec g (keys g) (keys_subset_allNodes g) initSt (initSt_wf g) rfl
  exact ⟨hwf, hemp, hall⟩

/-- Every node with an outgoing edge is popped by the completed run. -/
theorem edge_source_popped (g : Graph) (x y : String) (hy : y ∈ getAdj g x) :
    popped (tarjanRun g) x := by
  obtain ⟨hwf, hemp, hall⟩ := tarjanRun_spec g
  have hkey : x ∈ keys g := by
    unfold getAdj at hy
    cases hl : alookup g x with
    | none => rw [hl] at hy; cases hy
    | some l =>
      have := alookup_mem hl
      exact List.mem_map.mpr ⟨(x, l), this, rfl⟩
  have hidx := hall x hkey
  rcases (hwf.partition x).mp hidx with hstk | hpop
  · rw [hemp] at hstk
    cases hstk
  · exact hpop

/-- The pop-order rank: along every edge of the input graph the rank is
non-increasing. -/
theorem edge_rank_le (g : Graph) (x y : String) (hy : y ∈ getAdj g x) :
    popped (tarjanRun g) y ∧
      rankIn (tarjanRun g).sccs y ≤ rankIn (tarjanRun g).sccs x := by
  obtain ⟨hwf, -, -⟩ := tarjanRun_spec g
  exact hwf.popped_succ x (edge_source_popped g x y hy) y hy

/-- Equal ranks of popped nodes mean a common component. -/
theorem rank_eq_same_scc (sccs : List (List String)) (x y : String)
    (hx : ∃ S ∈ sccs, x ∈ S) (hy : ∃ S ∈ sccs, y ∈ S)
    (heq : rankIn sccs x = rankIn sccs y) :
    ∃ S ∈ sccs, x ∈ S ∧ y ∈ S := by
  obtain ⟨Sx, hgx, hxS⟩ := rankIn_get sccs x hx
  obtain ⟨Sy, hgy, hyS⟩ := rankIn_get sccs y hy
  rw [heq, hgy] at hgx
  have hSeq : Sx = Sy := by
    injection hgx with h
    exact h.symm
  subst hSeq
  exact ⟨Sx, List.getElem?_mem hgy, hxS, hyS⟩

/-! ### The run on a ranked graph records no cycles -/

theorem RankedPost.ridx_mono {h : Graph} {v : String} {st0 st1 : TarjanSt}
    (p : RankedPost h v st0 st1) : ∀ x, indexed st0 x → indexed st1 x := by
  intro x hx
  unfold indexed at hx ⊢
  cases hl : alookup st0.indices x with
  | none => rw [hl] at hx; cases hx
  | some n => rw [p.idx_pres x n hl]; rfl

theorem RankedFold.indexed_mono' {h : Graph} {v : String} {st0 acc : TarjanSt}
    (p : RankedFold h v st0 acc) : ∀ x, indexed st0 x → indexed acc x := by
  intro x hx
  unfold indexed at hx ⊢
  cases hl : alookup st0.indices x with
  | none => rw [hl] at hx; cases hx
  | some n => rw [p.idx_pres x n hl]; rfl

/-- A `strongconnect` call on a ranked graph restores the stack, keeps
`lowlink v = index v`, and records no new cycle. -/
theorem ranked_strongconnect (h : Graph) (r : String → Nat)
    (hr : Ranked h r) :
    ∀ (fuel : Nat) (v : String) (st0 : TarjanSt), RankedWF st0 →
      ¬ indexed st0 v → v ∈ allNodes h → unvisited h st0 < fuel →
      (∀ z ∈ st0.stack, r v < r z) →
      RankedPost h v st0 (strongconnect h fuel v st0) := by
  intro fuel
  induction fuel with
  | zero =>
    intro v st0 _ _ _ hf _
    exact absurd hf (Nat.not_lt_zero _)
  | succ fuel ih =>
    intro v st0 hwf hnv hv hfuel hstk0
    have hvnotstk : v ∉ st0.stack := fun hc => Nat.lt_irrefl _ (hstk0 v hc)
    have hvnone : alookup st0.indices v = none := not_indexed_iff_none.mp hnv
    -- the pushed state satisfies the fold invariant
    set st1 : TarjanSt :=
      { st0 with
        indices := nset st0.indices v st0.counter
        lowlinks := nset st0.lowlinks v st0.counter
        counter := st0.counter + 1
        stack := v :: st0.stack
        onStack := addDep st0.onStack v } with hst1
    have hfold0 : RankedFold h v st0 st1 := by
      refine ⟨⟨?_, ?_⟩, rfl, rfl, ?_, ?_, ?_, ?_, Nat.lt_succ_self _, ?_⟩
      · show (addDep st0.onStack v).Nodup
        unfold addDep
        split
        · exact hwf.onstack_nodup
        · rename_i hvnot
          rw [List.nodup_append]
          refine ⟨hwf.onstack_nodup, List.nodup_singleton v, ?_⟩
          intro a ha hb
          rcases List.mem_singleton.mp hb with rfl
          exact hvnot ha
      · intro x
        show x ∈ addDep st0.onStack v ↔ x ∈ v :: st0.stack
        rw [mem_addDep, List.mem_cons, hwf.onstack_iff x]
        tauto
      · show alookup (nset st0.indices v st0.counter) v = some st0.counter
        rw [alookup_nset, if_pos rfl]
      · show (alookup (nset st0.lowlinks v st0.counter) v).getD 0 = st0.counter
        rw [alookup_nset, if_pos rfl]
        rfl
      · intro x n hn
        show alookup (nset st0.indices v st0.counter) x = some n
        rw [alookup_nset, if_neg]
        · exact hn
        · intro hc
          rw [← hc, hvnone] at hn
          cases hn
      · intro x hx
        show alookup (nset st0.lowlinks v st0.counter) x = _
        rw [alookup_nset, if_neg]
        intro hc
        rw [← hc] at hx
        exact hnv hx
      · refine unvisited_strict h st0 st1 ?_ v hnv ?_ hv
        · intro x hx
          unfold indexed at hx ⊢
          show (alookup (nset st0.indices v st0.counter) x).isSome = true
          rw [alookup_nset]
          by_cases hc : v = x
          · simp [hc]
          · rw [if_neg hc]
            exact hx
        · show (alookup (nset st0.indices v st0.counter) v).isSome = true
          rw [alookup_nset, if_pos rfl]
          rfl
    -- the fold preserves the invariant
    have hfoldall : ∀ (succs : List String), (∀ s ∈ succs, s ∈ getAdj h v) →
        ∀ acc, RankedFold h v st0 acc →
        RankedFold h v st0
          (succs.foldl (fun acc s =>
            if (alookup acc.indices s).isNone then
              let acc2 := strongconnect h fuel s acc
              { acc2 with
                lowlinks := nset acc2.lowlinks v (min (lowOf acc2 v) (lowOf acc2 s)) }
            else if s ∈ acc.onStack then
              { acc with
                lowlinks := nset acc.lowlinks v (min (lowOf acc v) (idxOf acc s)) }
            else acc) acc) := by
      intro succs
      induction succs with
      | nil => intro _ acc hacc; exact hacc
      | cons s rest ihs =>
        intro hsub acc hacc
        rw [List.foldl_cons]
        apply ihs (fun x hx => hsub x (List.mem_cons_of_mem _ hx))
        have hsv : s ∈ getAdj h v := hsub s (List.mem_cons_self _ _)
        have hvidxacc : indexed acc v := by
          unfold indexed
          rw [hacc.v_idx]
          rfl
        have hrsv : r s < r v ∨ v = s := hr v s hsv
        by_cases hc1 : (alookup acc.indices s).isNone
        · rw [if_pos hc1]
          have hnsacc : ¬ indexed acc s := by
            unfold indexed
            rw [Option.isNone_iff_eq_none.mp hc1]
            simp
          have hrs : r s < r v := by
            rcases hrsv with hlt | rfl
            · exact hlt
            · exact absurd hvidxacc hnsacc
          have hranks : ∀ z ∈ acc.stack, r s < r z := by
            intro z hz
            rw [hacc.stack_eq] at hz
            rcases List.mem_cons.mp hz with rfl | hz'
            · exact hrs
            · exact Nat.lt_trans hrs (hstk0 z hz')
          have hsall : s ∈ allNodes h := getAdj_subset_allNodes h v s hsv
          have hsfuel : unvisited h acc < fuel := by
            have := hacc.unvis_lt
            omega
          have post := ih s acc hacc.rwf hnsacc hsall hsfuel hranks
          set acc2 := strongconnect h fuel s acc with hacc2
          have hlowv2 : lowOf acc2 v = st0.counter := by
            unfold lowOf
            rw [post.low_pres v hvidxacc]
            exact hacc.v_low
          have hlows2 : lowOf acc2 s = acc.counter := post.v_low
          have hmin : min (lowOf acc2 v) (lowOf acc2 s) = st0.counter := by
            rw [hlowv2, hlows2]
            exact Nat.min_eq_left (Nat.le_of_lt hacc.counter_mono)
          refine ⟨⟨post.rwf.onstack_nodup, post.rwf.onstack_iff⟩, ?_, ?_, ?_, ?_,
            ?_, ?_, ?_, ?_⟩
          · show acc2.stack = v :: st0.stack
            rw [post.stack_eq, hacc.stack_eq]
          · show acc2.cycles = st0.cycles
            rw [post.cyc_eq, hacc.cyc_eq]
          · show alookup acc2.indices v = some st0.counter
            exact post.idx_pres v st0.counter hacc.v_idx
          · show (alookup (nset acc2.lowlinks v _) v).getD 0 = st0.counter
            rw [alookup_nset, if_pos rfl]
            simpa using hmin
          · intro x n hn
            exact post.idx_pres x n (hacc.idx_pres x n hn)
          · intro x hx
            have hxnev : x ≠ v := fun hh => hnv (hh ▸ hx)
            show alookup (nset acc2.lowlinks v _) x = _
            rw [alookup_nset, if_neg (fun hh => hxnev hh.symm)]
            rw [post.low_pres x (hacc.indexed_mono' x hx)]
            exact hacc.low_pres x hx
          · exact Nat.lt_trans hacc.counter_mono post.counter_mono
          · show unvisited h acc2 < unvisited h st0
            exact Nat.lt_trans post.unvis_lt hacc.unvis_lt
        · rw [if_neg hc1]
          by_cases hc2 : s ∈ acc.onStack
          · rw [if_pos hc2]
            have hsstk : s ∈ v :: st0.stack := by
              rw [← hacc.stack_eq]
              exact (hacc.rwf.onstack_iff s).mp hc2
            have hsv' : s = v := by
              rcases List.mem_cons.mp hsstk with rfl | hs0
              · rfl
              · exfalso
                rcases hrsv with hlt | heq
                · exact Nat.lt_irrefl _ (Nat.lt_trans hlt (hstk0 s hs0))
                · subst heq
                  exact Nat.lt_irrefl _ (hstk0 v hs0)
            have hidxs : idxOf acc s = st0.counter := by
              unfold idxOf
              rw [hsv', hacc.v_idx]
              rfl
            have hmin : min (lowOf acc v) (idxOf acc s) = st0.counter := by
              rw [hacc.v_low, hidxs]
              exact Nat.min_self _
            refine ⟨⟨hacc.rwf.onstack_nodup, hacc.rwf.onstack_iff⟩,
              hacc.stack_eq, hacc.cyc_eq, hacc.v_idx, ?_, hacc.idx_pres, ?_,
              hacc.counter_mono, hacc.unvis_lt⟩
            · show (alookup (nset acc.lowlinks v _) v).getD 0 = st0.counter
              rw [alookup_nset, if_pos rfl]
              simpa using hmin
            · intro x hx
              have hxnev : x ≠ v := fun hh => hnv (hh ▸ hx)
              show alookup (nset acc.lowlinks v _) x = _
              rw [alookup_nset, if_neg (fun hh => hxnev hh.symm)]
              exact hacc.low_pres x hx
          · rw [if_neg hc2]
            exact hacc
    have hfinal := hfoldall (getAdj h v) (fun s hs => hs) st1 hfold0
    -- the component emission pops exactly `v`
    show RankedPost h v st0 (popSccIf v _)
    set stF := (getAdj h v).foldl _ st1 with hstF
    have hlowF : lowOf stF v = st0.counter := hfinal.v_low
    have hidxF : idxOf stF v = st0.counter := by
      unfold idxOf
      rw [hfinal.v_idx]
      rfl
    unfold popSccIf
    rw [if_pos (by rw [hlowF, hidxF])]
    have hpun : popUntil v stF.stack = ([v], st0.stack) := by
      rw [hfinal.stack_eq]
      have := popUntil_spec v st0.stack [] (List.not_mem_nil v)
      simpa using this
    rw [hpun]
    refine ⟨⟨?_, ?_⟩, rfl, ?_, hfinal.v_idx, hfinal.v_low, hfinal.idx_pres,
      hfinal.low_pres, hfinal.counter_mono, hfinal.unvis_lt⟩
    · show (List.foldl (fun os w => os.erase w) stF.onStack [v]).Nodup
      exact nodup_foldl_erase [v] stF.onStack hfinal.rwf.onstack_nodup
    · intro x
      show x ∈ List.foldl (fun os w => os.erase w) stF.onStack [v] ↔ x ∈ st0.stack
      rw [mem_foldl_erase [v] stF.onStack hfinal.rwf.onstack_nodup x,
        hfinal.rwf.onstack_iff x, hfinal.stack_eq]
      constructor
      · rintro ⟨hx1, hx2⟩
        rcases List.mem_cons.mp hx1 with rfl | hx'
        · exact absurd (List.mem_singleton_self _) hx2
        · exact hx'
      · intro hx
        refine ⟨List.mem_cons_of_mem _ hx, ?_⟩
        intro hc
        rcases List.mem_singleton.mp hc with rfl
        exact hvnotstk hx
    · show stF.cycles = st0.cycles
      exact hfinal.cyc_eq

/-- On a ranked graph `detect_cycles` reports nothing. -/
theorem ranked_detect_empty (h : Graph) (r : String → Nat) (hr : Ranked h r) :
    detect_cycles h = [] := by
  suffices hmain : ∀ (ks : List String), (∀ x ∈ ks, x ∈ allNodes h) →
      ∀ st, RankedWF st → st.stack = [] → st.cycles = [] →
        (ks.foldl (fun st n =>
          if (alookup st.indices n).isNone then
            strongconnect h (tarjanFuel h) n st
          else st) st).cycles = [] by
    exact hmain (keys h) (keys_subset_allNodes h) initSt ⟨List.nodup_nil,
      fun x => Iff.rfl⟩ rfl rfl
  intro ks
  induction ks with
  | nil =>
    intro _ st _ _ hcyc
    exact hcyc
  | cons n rest ihl =>
    intro hall st hwf hemp hcyc
    rw [List.foldl_cons]
    by_cases hn : (alookup st.indices n).isNone
    · rw [if_pos hn]
      have hnidx : ¬ indexed st n := by
        unfold indexed
        rw [Option.isNone_iff_eq_none.mp hn]
        simp
      have hfuel : unvisited h st < tarjanFuel h :=
        Nat.lt_succ_of_le (unvisited_le_len h st)
      have post := ranked_strongconnect h r hr (tarjanFuel h) n st hwf hnidx
        (hall n (List.mem_cons_self _ _)) hfuel (by rw [hemp]; intro z hz; cases hz)
      refine ihl (fun x hx => hall x (List.mem_cons_of_mem _ hx)) _ post.rwf ?_ ?_
      · rw [post.stack_eq, hemp]
      · rw [post.cyc_eq, hcyc]
    · rw [if_neg hn]
      exact ihl (fun x hx => hall x (List.mem_cons_of_mem _ hx)) st hwf hemp hcyc

/-! ### Acyclicity of the resolved graph (C1) -/

theorem resolve_eq_of_empty {g : Graph} (h : detect_cycles g = []) :
    resolve_cycles g = g := by
  unfold resolve_cycles
  rw [h]
  rfl

theorem resolve_eq_of_nonempty {g : Graph} (h : ¬ detect_cycles g = []) :
    resolve_cycles g =
      (detect_cycles g).foldl (fun ng cyc => removeCycleEdges cyc ng) g := by
  unfold resolve_cycles
  rw [if_neg h]

theorem getAdj_removeCycleEdges (cyc : List String) (g : Graph) (x : String) :
    getAdj (removeCycleEdges cyc g) x =
      if x ∈ cyc then (getAdj g x).filter (· ∉ cyc) else getAdj g x := by
  unfold removeCycleEdges getAdj
  rw [show (g.map fun p => if p.1 ∈ cyc then (p.1, p.2.filter (· ∉ cyc)) else p) =
      g.map (fun p => (p.1, if p.1 ∈ cyc then p.2.filter (· ∉ cyc) else p.2)) from
    List.map_congr_left (by
      intro p _
      by_cases h : p.1 ∈ cyc
      · rw [if_pos h, if_pos h]
      · rw [if_neg h, if_neg h])]
  rw [alookup_map_pair (fun k v => if k ∈ cyc then v.filter (· ∉ cyc) else v) g x]
  cases alookup g x with
  | none =>
    by_cases h : x ∈ cyc
    · simp [h]
    · simp [h]
  | some l =>
    by_cases h : x ∈ cyc
    · simp [h]
    · simp [h]

theorem mem_getAdj_foldRemove :
    ∀ (cycles : List (List String)) (g : Graph) (x d : String),
      d ∈ getAdj (cycles.foldl (fun ng cyc => removeCycleEdges cyc ng) g) x ↔
        d ∈ getAdj g x ∧ ¬∃ C ∈ cycles, x ∈ C ∧ d ∈ C := by
  intro cycles
  induction cycles with
  | nil =>
    intro g x d
    simp
  | cons C rest ih =>
    intro g x d
    rw [List.foldl_cons, ih (removeCycleEdges C g) x d, getAdj_removeCycleEdges]
    by_cases hx : x ∈ C
    · rw [if_pos hx]
      simp only [List.mem_filter, decide_eq_true_eq, List.mem_cons]
      constructor
      · rintro ⟨⟨hd, hdC⟩, hrest⟩
        refine ⟨hd, ?_⟩
        rintro ⟨C', hC', hxC', hdC'⟩
        rcases hC' with rfl | hC'
        · exact hdC hdC'
        · exact hrest ⟨C', hC', hxC', hdC'⟩
      · rintro ⟨hd, hnone⟩
        refine ⟨⟨hd, fun hdC => hnone ⟨C, Or.inl rfl, hx, hdC⟩⟩, ?_⟩
        rintro ⟨C', hC', hxC', hdC'⟩
        exact hnone ⟨C', Or.inr hC', hxC', hdC'⟩
    · rw [if_neg hx]
      constructor
      · rintro ⟨hd, hrest⟩
        refine ⟨hd, ?_⟩
        rintro ⟨C', hC', hxC', hdC'⟩
        rcases List.mem_cons.mp hC' with rfl | hC'
        · exact hx hxC'
        · exact hrest ⟨C', hC', hxC', hdC'⟩
      · rintro ⟨hd, hnone⟩
        refine ⟨hd, ?_⟩
        rintro ⟨C', hC', hxC', hdC'⟩
        exact hnone ⟨C', List.mem_cons_of_mem _ hC', hxC', hdC'⟩

theorem edge_of_resolve_edge {g : Graph} {x y : String}
    (hy : y ∈ getAdj (resolve_cycles g) x) : y ∈ getAdj g x := by
  by_cases hc : detect_cycles g = []
  · rw [resolve_eq_of_empty hc] at hy
    exact hy
  · rw [resolve_eq_of_nonempty hc] at hy
    exact ((mem_getAdj_foldRemove _ g x y).mp hy).1

theorem two_mem_length_le_one {S : List String} {x y : String}
    (hx : x ∈ S) (hy : y ∈ S) (hlen : ¬ 1 < S.length) : x = y := by
  match S with
  | [] => cases hx
  | [a] =>
    rcases List.mem_singleton.mp hx with rfl
    rcases List.mem_singleton.mp hy with rfl
    rfl
  | a :: b :: rest =>
    exfalso
    apply hlen
    simp only [List.length_cons]
    omega

/-- The resolved graph is ranked by the pop order of the original run:
every surviving edge strictly decreases the rank unless it is a self-loop. -/
theorem resolve_ranked (g : Graph) :
    Ranked (resolve_cycles g) (fun x => rankIn (tarjanRun g).sccs x) := by
  intro x y hy
  obtain ⟨hwf, hemp, hall⟩ := tarjanRun_spec g
  have hyg : y ∈ getAdj g x := edge_of_resolve_edge hy
  have hpx : popped (tarjanRun g) x := edge_source_popped g x y hyg
  obtain ⟨hpy, hle⟩ := edge_rank_le g x y hyg
  rcases Nat.lt_or_ge (rankIn (tarjanRun g).sccs y) (rankIn (tarjanRun g).sccs x)
    with hlt | hge
  · exact Or.inl hlt
  · have heq : rankIn (tarjanRun g).sccs x = rankIn (tarjanRun g).sccs y :=
      Nat.le_antisymm hge hle
    obtain ⟨S, hS, hxS, hyS⟩ := rank_eq_same_scc (tarjanRun g).sccs x y hpx hpy heq
    by_cases hlen : 1 < S.length
    · exfalso
      have hSc : S ∈ detect_cycles g := by
        show S ∈ (tarjanRun g).cycles
        rw [hwf.cycles_eq]
        exact List.mem_filter.mpr ⟨hS, by simpa using hlen⟩
      have hcne : ¬ detect_cycles g = [] := by
        intro hc
        rw [hc] at hSc
        cases hSc
      rw [resolve_eq_of_nonempty hcne] at hy
      exact ((mem_getAdj_foldRemove _ g x y).mp hy).2 ⟨S, hSc, hxS, hyS⟩
    · exact Or.inr (two_mem_length_le_one hxS hyS hlen)

/-- The central acyclicity result, shared by several claims below. -/
theorem detect_resolve_empty (g : Graph) :
    detect_cycles (resolve_cycles g) = [] :=
  ranked_detect_empty (resolve_cycles g) _ (resolve_ranked g)

/-- C1: for every directed graph, `detect_cycles` finds nothing in
`resolve_cycles`'s output: removing, for each multi-node SCC, every edge
with both endpoints inside it leaves a graph with no multi-node SCC. -/
theorem C1_resolve_acyclic (g : Graph) :
    detect_cycles (resolve_cycles g) = [] :=
  detect_resolve_empty g

/-! ### Basic lemmas for the two ordering algorithms (C2, C3) -/

theorem before_mem_left {l : List String} {y x : String} (h : before l y x) :
    y ∈ l := by
  obtain ⟨l1, l2, rfl, hy⟩ := h
  exact List.mem_append_left _ hy

theorem before_append_left {l l' : List String} {y x : String}
    (h : before l y x) : before (l ++ l') y x := by
  obtain ⟨l1, l2, rfl, hy⟩ := h
  exact ⟨l1, l2 ++ l', by rw [List.append_assoc, List.cons_append], hy⟩

theorem before_append_emit {l : List String} {y x : String} (hy : y ∈ l) :
    before (l ++ [x]) y x :=
  ⟨l, [], rfl, hy⟩

theorem before_nodup_ne {l : List String} {y x : String} (hn : l.Nodup)
    (h : before l y x) : y ≠ x := by
  obtain ⟨l1, l2, rfl, hy⟩ := h
  rw [List.nodup_append] at hn
  intro heq
  subst heq
  exact hn.2.2 hy (List.mem_cons_self y l2)

theorem nodup_subset_length {l l' : List String} (hn : l.Nodup)
    (hs : ∀ x ∈ l, x ∈ l') : l.length ≤ l'.length := by
  induction l generalizing l' with
  | nil => exact Nat.zero_le _
  | cons a l ih =>
    rw [List.nodup_cons] at hn
    have ha : a ∈ l' := hs a (List.mem_cons_self a l)
    have hsub : ∀ x ∈ l, x ∈ l'.erase a := by
      intro x hx
      have hxa : x ≠ a := by
        intro he
        subst he
        exact hn.1 hx
      exact (List.mem_erase_of_ne hxa).mpr (hs x (List.mem_cons_of_mem a hx))
    have h1 := ih hn.2 hsub
    have h2 : (l'.erase a).length = l'.length - 1 := List.length_erase_of_mem ha
    have h3 : 0 < l'.length := List.length_pos.mpr (List.ne_nil_of_mem ha)
    simp only [List.length_cons]
    omega

theorem exists_min_rank (r : String → Nat) :
    ∀ l : List String, l ≠ [] → ∃ m ∈ l, ∀ z ∈ l, r m ≤ r z := by
  intro l
  induction l with
  | nil => intro h; exact absurd rfl h
  | cons a l ih =>
    intro _
    cases l with
    | nil =>
      refine ⟨a, List.mem_cons_self a [], ?_⟩
      intro z hz
      rcases List.mem_singleton.mp hz with rfl
      exact Nat.le_refl _
    | cons b l' =>
      obtain ⟨m, hm, hmin⟩ := ih (by simp)
      by_cases hle : r a ≤ r m
      · refine ⟨a, List.mem_cons_self a _, ?_⟩
        intro z hz
        rcases List.mem_cons.mp hz with rfl | hz'
        · exact Nat.le_refl _
        · exact Nat.le_trans hle (hmin z hz')
      · refine ⟨m, List.mem_cons_of_mem a hm, ?_⟩
        intro z hz
        rcases List.mem_cons.mp hz with rfl | hz'
        · exact Nat.le_of_lt (Nat.lt_of_not_le hle)
        · exact hmin z hz'

theorem addDep_nodup {l : List String} (hn : l.Nodup) (d : String) :
    (addDep l d).Nodup := by
  unfold addDep
  by_cases h : d ∈ l
  · rw [if_pos h]; exact hn
  · rw [if_neg h, List.nodup_append]
    refine ⟨hn, List.nodup_singleton d, ?_⟩
    intro a ha hb
    rcases List.mem_singleton.mp hb with rfl
    exact h ha

theorem alookup_mapIf {α : Type} (f : α → α) (k : String)
    (m : List (String × α)) (n : String) :
    alookup (m.map (fun p => if p.1 = k then (p.1, f p.2) else p)) n =
      if n = k then (alookup m n).map f else alookup m n := by
  induction m with
  | nil => by_cases h : n = k <;> simp [alookup, h]
  | cons p rest ih =>
    by_cases hpk : p.1 = k
    · have hhead : (if p.1 = k then (p.1, f p.2) else p) = (p.1, f p.2) :=
        if_pos hpk
      rw [List.map_cons, hhead]
      simp only [alookup]
      by_cases hpn : p.1 = n
      · have hnk : n = k := by rw [← hpn, hpk]
        rw [if_pos hpn, if_pos hnk, if_pos hpn]
        rfl
      · rw [if_neg hpn, ih]
        by_cases hnk : n = k
        · rw [if_pos hnk, if_pos hnk, if_neg hpn]
        · rw [if_neg hnk, if_neg hnk, if_neg hpn]
    · have hhead : (if p.1 = k then (p.1, f p.2) else p) = p := if_neg hpk
      rw [List.map_cons, hhead]
      simp only [alookup]
      by_cases hpn : p.1 = n
      · have hnk : ¬ n = k := fun h => hpk (by rw [hpn, h])
        rw [if_pos hpn, if_neg hnk, if_pos hpn]
      · rw [if_neg hpn, ih]
        by_cases hnk : n = k
        · rw [if_pos hnk, if_pos hnk, if_neg hpn]
        · rw [if_neg hnk, if_neg hnk, if_neg hpn]

theorem alookup_adjAdd (m : List (String × List String)) (k v n : String) :
    alookup (adjAdd m k v) n =
      if n = k then (alookup m n).map (fun l => addDep l v) else alookup m n := by
  unfold adjAdd
  exact alookup_mapIf (fun l => addDep l v) k m n

theorem alookup_degAdd (m : List (String × Int)) (k : String) (δ : Int)
    (n : String) :
    alookup (degAdd m k δ) n =
      if n = k then (alookup m n).map (fun z => z + δ) else alookup m n := by
  unfold degAdd
  exact alookup_mapIf (fun z => z + δ) k m n

theorem degAdd_fst (m : List (String × Int)) (k : String) (δ : Int) :
    (degAdd m k δ).map Prod.fst = m.map Prod.fst := by
  unfold degAdd
  rw [List.map_map]
  apply List.map_congr_left
  intro p _
  by_cases h : p.1 = k <;> simp [h]

theorem alookup_of_mem_nodup {α : Type} {t : List (String × α)} {k : String}
    {v : α} (hn : (t.map Prod.fst).Nodup) (hm : (k, v) ∈ t) :
    alookup t k = some v := by
  induction t with
  | nil => cases hm
  | cons p rest ih =>
    rw [List.map_cons, List.nodup_cons] at hn
    rcases List.mem_cons.mp hm with heq | hmem
    · rw [← heq]
      simp [alookup]
    · have hne : p.1 ≠ k := by
        intro he
        exact hn.1 (he ▸ List.mem_map.mpr ⟨(k, v), hmem, rfl⟩)
      simp only [alookup, if_neg hne]
      exact ih hn.2 hmem

theorem mem_keys_alookup {α : Type} {t : List (String × α)} {k : String}
    (h : k ∈ t.map Prod.fst) : (alookup t k).isSome = true := by
  induction t with
  | nil => cases h
  | cons p rest ih =>
    simp only [alookup]
    by_cases hpk : p.1 = k
    · rw [if_pos hpk]; rfl
    · rw [if_neg hpk]
      rw [List.map_cons, List.mem_cons] at h
      rcases h with rfl | h'
      · exact absurd rfl hpk
      · exact ih h'

theorem getAdj_of_not_key {g : Graph} {x : String} (h : x ∉ keys g) :
    getAdj g x = [] := by
  unfold getAdj
  cases hl : alookup g x with
  | none => rfl
  | some l =>
    exact absurd (List.mem_map.mpr ⟨(x, l), alookup_mem hl, rfl⟩) h

theorem edge_source_key {g : Graph} {x y : String} (h : y ∈ getAdj g x) :
    x ∈ keys g := by
  by_contra hx
  rw [getAdj_of_not_key hx] at h
  cases h

theorem mem_pySorted {l : List String} {x : String} :
    x ∈ pySorted l ↔ x ∈ l :=
  (List.perm_insertionSort strLe l).mem_iff

theorem nodup_pySorted {l : List String} (h : l.Nodup) : (pySorted l).Nodup :=
  (List.perm_insertionSort strLe l).nodup_iff.mpr h

theorem dfsU_le_of_subset (g : Graph) {v v' : List String}
    (h : ∀ x ∈ v, x ∈ v') : dfsU g v' ≤ dfsU g v := by
  unfold dfsU
  apply length_filter_le_of_imp
  intro x hx
  rw [decide_eq_true_eq] at hx ⊢
  intro hv
  exact hx (h x hv)

theorem dfsU_strict (g : Graph) {v : List String} {n : String} (hn : n ∉ v)
    (hmem : n ∈ allNodes g) : dfsU g (n :: v) < dfsU g v := by
  unfold dfsU
  refine length_filter_lt_of_imp _ _ _ ?_ n (List.mem_dedup.mpr hmem) ?_ ?_
  · intro x hx
    rw [decide_eq_true_eq] at hx ⊢
    intro hv
    exact hx (List.mem_cons_of_mem n hv)
  · exact decide_eq_true hn
  · exact decide_eq_false (fun hcon => hcon (List.mem_cons_self n v))

theorem dfsU_le_len (g : Graph) (v : List String) :
    dfsU g v ≤ (allNodes g).length :=
  Nat.le_trans (List.length_filter_le _ _)
    ((List.dedup_sublist _).length_le)

theorem length_one_mem_eq {l : List String} {a : String} (h1 : l.length = 1)
    (ha : a ∈ l) : l = [a] := by
  match l, h1 with
  | [x], _ =>
    rcases List.mem_singleton.mp ha with rfl
    rfl

theorem exists_ne_of_nodup_two {l : List String} (hn : l.Nodup)
    (h2 : 2 ≤ l.length) (a : String) : ∃ b ∈ l, b ≠ a := by
  match l, h2 with
  | x :: y :: rest, _ =>
    rw [List.nodup_cons] at hn
    have hxy : x ≠ y := fun he => hn.1 (he ▸ List.mem_cons_self y rest)
    by_cases hxa : x = a
    · refine ⟨y, List.mem_cons_of_mem x (List.mem_cons_self y rest), ?_⟩
      intro hya
      exact hxy (by rw [hxa, hya])
    · exact ⟨x, List.mem_cons_self x _, hxa⟩

theorem filter_emit_length {l : List String} (hn : l.Nodup)
    (res : List String) (node : String) (hnode : node ∉ res) :
    ((l.filter (fun y => decide (y ∉ res ++ [node]))).length : Int) =
      ((l.filter (fun y => decide (y ∉ res))).length : Int) -
        (if node ∈ l then 1 else 0) := by
  induction l with
  | nil => simp
  | cons a l ih =>
    rw [List.nodup_cons] at hn
    have ih' := ih hn.2
    by_cases han : a = node
    · subst han
      have h1 : (decide (a ∉ res ++ [a])) = false := by simp
      have h2 : (decide (a ∉ res)) = true := by simpa using hnode
      have hnl : a ∉ l := hn.1
      have e1 : List.filter (fun y => decide (y ∉ res ++ [a])) (a :: l) =
          List.filter (fun y => decide (y ∉ res ++ [a])) l := by
        rw [List.filter_cons, h1]
        simp
      have e2 : List.filter (fun y => decide (y ∉ res)) (a :: l) =
          a :: List.filter (fun y => decide (y ∉ res)) l := by
        rw [List.filter_cons, h2]
        simp
      rw [if_neg hnl] at ih'
      rw [e1, e2, if_pos (List.mem_cons_self a l), List.length_cons]
      push_cast
      omega
    · have hagree : (decide (a ∉ res ++ [node])) = (decide (a ∉ res)) := by
        apply decide_eq_decide.mpr
        simp [han]
      have hiff : (node ∈ a :: l) ↔ (node ∈ l) := by
        rw [List.mem_cons]
        constructor
        · rintro (rfl | h)
          · exact absurd rfl han
          · exact h
        · exact Or.inr
      rw [if_congr hiff rfl rfl]
      simp only [List.filter_cons, hagree]
      by_cases har : (decide (a ∉ res)) = true
      · rw [if_pos har, if_pos har]
        simp only [List.length_cons]
        push_cast
        omega
      · rw [if_neg har, if_neg har]
        exact ih'

theorem acyclic_strict (h : Graph) (hc : detect_cycles h = []) (x y : String)
    (hy : y ∈ getAdj h x) (hne : x ≠ y) :
    rankIn (tarjanRun h).sccs y < rankIn (tarjanRun h).sccs x := by
  obtain ⟨hwf, -, -⟩ := tarjanRun_spec h
  have hpx : popped (tarjanRun h) x := edge_source_popped h x y hy
  obtain ⟨hpy, hle⟩ := edge_rank_le h x y hy
  rcases Nat.lt_or_ge (rankIn (tarjanRun h).sccs y) (rankIn (tarjanRun h).sccs x)
    with hlt | hge
  · exact hlt
  · exfalso
    have heq : rankIn (tarjanRun h).sccs x = rankIn (tarjanRun h).sccs y :=
      Nat.le_antisymm hge hle
    obtain ⟨S, hS, hxS, hyS⟩ := rank_eq_same_scc (tarjanRun h).sccs x y hpx hpy heq
    by_cases hlen : 1 < S.length
    · have hSc : S ∈ (tarjanRun h).cycles := by
        rw [hwf.cycles_eq]
        exact List.mem_filter.mpr ⟨hS, by simpa using hlen⟩
      have : S ∈ detect_cycles h := hSc
      rw [hc] at this
      cases this
    · exact hne (two_mem_length_le_one hxS hyS hlen)

theorem keys_removeCycleEdges (cyc : List String) (h : Graph) :
    keys (removeCycleEdges cyc h) = keys h := by
  unfold removeCycleEdges keys
  rw [List.map_map]
  apply List.map_congr_left
  intro p _
  by_cases hc : p.1 ∈ cyc <;> simp [hc]

theorem keys_foldRemove :
    ∀ (cycles : List (List String)) (h : Graph),
      keys (cycles.foldl (fun ng cyc => removeCycleEdges cyc ng) h) = keys h := by
  intro cycles
  induction cycles with
  | nil => intro h; rfl
  | cons C rest ih =>
    intro h
    rw [List.foldl_cons, ih (removeCycleEdges C h), keys_removeCycleEdges]

theorem keys_resolve (g : Graph) : keys (resolve_cycles g) = keys g := by
  by_cases hc : detect_cycles g = []
  · rw [resolve_eq_of_empty hc]
  · rw [resolve_eq_of_nonempty hc, keys_foldRemove]

theorem removeCycleEdges_entry {cyc : List String} {h : Graph}
    {p' : String × List String} (hm : p' ∈ removeCycleEdges cyc h) :
    ∃ p ∈ h, p'.1 = p.1 ∧ p'.2.Sublist p.2 := by
  unfold removeCycleEdges at hm
  obtain ⟨p, hp, heq⟩ := List.mem_map.mp hm
  by_cases hc : p.1 ∈ cyc
  · rw [if_pos hc] at heq
    exact ⟨p, hp, by rw [← heq], by rw [← heq]; exact List.filter_sublist _⟩
  · rw [if_neg hc] at heq
    exact ⟨p, hp, by rw [← heq], by rw [← heq]⟩

theorem foldRemove_entry :
    ∀ (cycles : List (List String)) (h : Graph)
      (p' : String × List String),
      p' ∈ cycles.foldl (fun ng cyc => removeCycleEdges cyc ng) h →
      ∃ p ∈ h, p'.1 = p.1 ∧ p'.2.Sublist p.2 := by
  intro cycles
  induction cycles with
  | nil => intro h p' hm; exact ⟨p', hm, rfl, List.Sublist.refl _⟩
  | cons C rest ih =>
    intro h p' hm
    rw [List.foldl_cons] at hm
    obtain ⟨q, hq, hfst, hsub⟩ := ih (removeCycleEdges C h) p' hm
    obtain ⟨p, hp, hfst2, hsub2⟩ := removeCycleEdges_entry hq
    exact ⟨p, hp, by rw [hfst, hfst2], List.Sublist.trans hsub hsub2⟩

theorem resolve_entry {g : Graph} {p' : String × List String}
    (hm : p' ∈ resolve_cycles g) :
    ∃ p ∈ g, p'.1 = p.1 ∧ p'.2.Sublist p.2 := by
  by_cases hc : detect_cycles g = []
  · rw [resolve_eq_of_empty hc] at hm
    exact ⟨p', hm, rfl, List.Sublist.refl _⟩
  · rw [resolve_eq_of_nonempty hc] at hm
    exact foldRemove_entry _ g p' hm

/-! ### The DFS ordering: `dependency_first_dfs` emits dependencies first -/

theorem DfsPost.refl {g : Graph} {s : List String × List String}
    (hinv : DfsInv g s) : DfsPost g s s :=
  ⟨hinv, fun _ hv => hv, ⟨[], (List.append_nil _).symm⟩,
   fun v hv hnv => absurd hv hnv, fun v hv hnv => absurd hv hnv⟩

theorem DfsPost.trans {g : Graph} {s1 s2 s3 : List String × List String}
    (h12 : DfsPost g s1 s2) (h23 : DfsPost g s2 s3) : DfsPost g s1 s3 := by
  refine ⟨h23.inv, fun v hv => h23.vis_mono v (h12.vis_mono v hv), ?_, ?_, ?_⟩
  · obtain ⟨l1, e1⟩ := h12.res_ext
    obtain ⟨l2, e2⟩ := h23.res_ext
    exact ⟨l1 ++ l2, by rw [e2, e1, List.append_assoc]⟩
  · intro v hv3 hnv1
    by_cases hv2 : v ∈ s2.1
    · have h2 : v ∈ s2.2 := h12.new_emitted v hv2 hnv1
      obtain ⟨l2, e2⟩ := h23.res_ext
      rw [e2]
      exact List.mem_append_left _ h2
    · exact h23.new_emitted v hv3 hv2
  · intro v hv3 hnv1
    by_cases hv2 : v ∈ s2.2
    · exact h12.emitted_new v hv2 hnv1
    · intro hv1
      exact h23.emitted_new v hv3 hv2 (h12.vis_mono v hv1)

theorem DfsPost.pending {g : Graph} {s1 s2 : List String × List String}
    (h : DfsPost g s1 s2) {v : String} (hv : v ∈ s2.1) (hnv : v ∉ s2.2) :
    v ∈ s1.1 ∧ v ∉ s1.2 := by
  constructor
  · by_contra hn1
    exact hnv (h.new_emitted v hv hn1)
  · intro h1
    obtain ⟨l, e⟩ := h.res_ext
    exact hnv (by rw [e]; exact List.mem_append_left _ h1)

theorem dfsVisit_spec (g : Graph) (r : String → Nat)
    (hstrict : ∀ x y, y ∈ getAdj g x → r y < r x) :
    ∀ (fuel : Nat) (node : String) (vr : List String × List String),
      node ∈ allNodes g → dfsU g vr.1 < fuel → DfsInv g vr →
      (∀ v ∈ vr.1, v ∉ vr.2 → r node < r v) →
      DfsPost g vr (dfsVisit g fuel node vr) ∧
        node ∈ (dfsVisit g fuel node vr).1 := by
  intro fuel
  induction fuel with
  | zero =>
    intro node vr _ hfu _ _
    exact absurd hfu (Nat.not_lt_zero _)
  | succ fuel ih =>
    intro node vr hmem hfu hinv hpend
    by_cases hvis : node ∈ vr.1
    · have heq : dfsVisit g (fuel+1) node vr = vr := by
        simp only [dfsVisit, if_pos hvis]
      rw [heq]
      exact ⟨DfsPost.refl hinv, hvis⟩
    · have heq : dfsVisit g (fuel+1) node vr =
          (((pySorted (getAdj g node)).foldl
              (fun a d => dfsVisit g fuel d a) (node :: vr.1, vr.2)).1,
           ((pySorted (getAdj g node)).foldl
              (fun a d => dfsVisit g fuel d a) (node :: vr.1, vr.2)).2 ++ [node]) := by
        simp only [dfsVisit, if_neg hvis]
      have hinv1 : DfsInv g (node :: vr.1, vr.2) :=
        ⟨fun x hx => List.mem_cons_of_mem _ (hinv.sub x hx), hinv.nodup, hinv.ord⟩
      have hpend1 : ∀ v ∈ (node :: vr.1, vr.2).1, v ∉ (node :: vr.1, vr.2).2 →
          v = node ∨ (v ∈ vr.1 ∧ v ∉ vr.2) := by
        intro v hv hnv
        rcases List.mem_cons.mp hv with rfl | hv'
        · exact Or.inl rfl
        · exact Or.inr ⟨hv', hnv⟩
      have hfu1 : dfsU g (node :: vr.1, vr.2).1 < fuel := by
        have h1 : dfsU g (node :: vr.1) < dfsU g vr.1 := dfsU_strict g hvis hmem
        have h2 : dfsU g vr.1 < fuel + 1 := hfu
        show dfsU g (node :: vr.1) < fuel
        omega
      have hfold : ∀ ds : List String,
          (∀ d ∈ ds, d ∈ allNodes g ∧ r d < r node) →
          ∀ a : List String × List String, DfsInv g a →
            (∀ v ∈ a.1, v ∉ a.2 → v = node ∨ (v ∈ vr.1 ∧ v ∉ vr.2)) →
            dfsU g a.1 < fuel →
            DfsPost g a (ds.foldl (fun a d => dfsVisit g fuel d a) a) ∧
            (∀ v ∈ (ds.foldl (fun a d => dfsVisit g fuel d a) a).1,
              v ∉ (ds.foldl (fun a d => dfsVisit g fuel d a) a).2 →
              v = node ∨ (v ∈ vr.1 ∧ v ∉ vr.2)) ∧
            (∀ d ∈ ds, d ∈ (ds.foldl (fun a d => dfsVisit g fuel d a) a).1) := by
        intro ds
        induction ds with
        | nil =>
          intro _ a hainv hapend hafu
          exact ⟨DfsPost.refl hainv, hapend, fun d hd => absurd hd (List.not_mem_nil d)⟩
        | cons d ds ihd =>
          intro hds a hainv hapend hafu
          obtain ⟨hdmem, hdr⟩ := hds d (List.mem_cons_self d ds)
          have hdp : ∀ v ∈ a.1, v ∉ a.2 → r d < r v := by
            intro v hv hnv
            rcases hapend v hv hnv with rfl | ⟨hv1, hnv1⟩
            · exact hdr
            · exact Nat.lt_trans hdr (hpend v hv1 hnv1)
          obtain ⟨hpost, hdin⟩ := ih d a hdmem hafu hainv hdp
          have hapend2 : ∀ v ∈ (dfsVisit g fuel d a).1, v ∉ (dfsVisit g fuel d a).2 →
              v = node ∨ (v ∈ vr.1 ∧ v ∉ vr.2) := by
            intro v hv hnv
            obtain ⟨hv1, hnv1⟩ := hpost.pending hv hnv
            exact hapend v hv1 hnv1
          have hafu2 : dfsU g (dfsVisit g fuel d a).1 < fuel :=
            Nat.lt_of_le_of_lt (dfsU_le_of_subset g (hpost.vis_mono)) hafu
          obtain ⟨hpost2, hpend3, hmem3⟩ :=
            ihd (fun d' hd' => hds d' (List.mem_cons_of_mem d hd'))
              (dfsVisit g fuel d a) hpost.inv hapend2 hafu2
          simp only [List.foldl_cons]
          refine ⟨hpost.trans hpost2, hpend3, ?_⟩
          intro d' hd'
          rcases List.mem_cons.mp hd' with rfl | hd''
          · exact hpost2.vis_mono d' hdin
          · exact hmem3 d' hd''
      have hds : ∀ d ∈ pySorted (getAdj g node), d ∈ allNodes g ∧ r d < r node := by
        intro d hd
        have hd' : d ∈ getAdj g node := mem_pySorted.mp hd
        exact ⟨getAdj_subset_allNodes g node d hd', hstrict node d hd'⟩
      obtain ⟨hP, hPend, hDs⟩ :=
        hfold (pySorted (getAdj g node)) hds (node :: vr.1, vr.2) hinv1 hpend1 hfu1
      have hnst2 : node ∉ (node :: vr.1, vr.2).2 :=
        fun hc => hvis (hinv.sub node hc)
      have hnodevr2 : node ∉ ((pySorted (getAdj g node)).foldl
          (fun a d => dfsVisit g fuel d a) (node :: vr.1, vr.2)).2 :=
        fun hcon => (hP.emitted_new node hcon hnst2) (List.mem_cons_self node vr.1)
      have hdeps : ∀ y ∈ getAdj g node, y ∈ ((pySorted (getAdj g node)).foldl
          (fun a d => dfsVisit g fuel d a) (node :: vr.1, vr.2)).2 := by
        intro y hy
        have hyin := hDs y (mem_pySorted.mpr hy)
        by_contra hyout
        rcases hPend y hyin hyout with heq2 | ⟨hy1, hny2⟩
        · subst heq2
          exact Nat.lt_irrefl _ (hstrict y y hy)
        · exact Nat.lt_irrefl _ (Nat.lt_trans (hstrict node y hy) (hpend y hy1 hny2))
      rw [heq]
      refine ⟨⟨⟨?_, ?_, ?_⟩, ?_, ?_, ?_, ?_⟩, ?_⟩
      · intro x hx
        rcases List.mem_append.mp hx with hx' | hx'
        · exact hP.inv.sub x hx'
        · rcases List.mem_singleton.mp hx' with rfl
          exact hP.vis_mono x (List.mem_cons_self x vr.1)
      · rw [List.nodup_append]
        refine ⟨hP.inv.nodup, List.nodup_singleton node, ?_⟩
        intro a ha hb
        rcases List.mem_singleton.mp hb with rfl
        exact hnodevr2 ha
      · intro x hx y hy
        rcases List.mem_append.mp hx with hx' | hx'
        · exact before_append_left (hP.inv.ord x hx' y hy)
        · rcases List.mem_singleton.mp hx' with rfl
          exact before_append_emit (hdeps y hy)
      · intro v hv
        exact hP.vis_mono v (List.mem_cons_of_mem node hv)
      · obtain ⟨l, e⟩ := hP.res_ext
        exact ⟨l ++ [node], by rw [e, List.append_assoc]⟩
      · intro v hv hnv
        by_cases hvn : v = node
        · subst hvn
          exact List.mem_append_right _ (List.mem_singleton.mpr rfl)
        · have hvs : v ∉ (node :: vr.1, vr.2).1 := by
            intro hc
            rcases List.mem_cons.mp hc with h1 | h1
            · exact hvn h1
            · exact hnv h1
          exact List.mem_append_left _ (hP.new_emitted v hv hvs)
      · intro v hv hnv
        rcases List.mem_append.mp hv with hv' | hv'
        · have hout := hP.emitted_new v hv' hnv
          exact fun hc => hout (List.mem_cons_of_mem node hc)
        · rcases List.mem_singleton.mp hv' with rfl
          exact hvis
      · exact hP.vis_mono node (List.mem_cons_self node vr.1)

theorem dfsCore_spec (g : Graph) (r : String → Nat)
    (hstrict : ∀ x y, y ∈ getAdj g x → r y < r x) :
    (∀ n ∈ keys g, n ∈ dfsCore g) ∧ (dfsCore g).Nodup ∧
      (∀ x ∈ dfsCore g, ∀ y ∈ getAdj g x, before (dfsCore g) y x) := by
  have hmain : ∀ ks : List String, (∀ n ∈ ks, n ∈ keys g) →
      ∀ a : List String × List String, DfsInv g a → (∀ v ∈ a.1, v ∈ a.2) →
        (∀ v ∈ (ks.foldl (fun a n => dfsVisit g ((allNodes g).length + 1) n a) a).1,
          v ∈ (ks.foldl (fun a n => dfsVisit g ((allNodes g).length + 1) n a) a).2) ∧
        DfsPost g a (ks.foldl (fun a n => dfsVisit g ((allNodes g).length + 1) n a) a) ∧
        (∀ n ∈ ks, n ∈ (ks.foldl
          (fun a n => dfsVisit g ((allNodes g).length + 1) n a) a).2) := by
    intro ks
    induction ks with
    | nil =>
      intro _ a hainv hve
      exact ⟨hve, DfsPost.refl hainv, fun n hn => absurd hn (List.not_mem_nil n)⟩
    | cons n ks ihk =>
      intro hks a hainv hve
      have hmem : n ∈ allNodes g :=
        keys_subset_allNodes g n (hks n (List.mem_cons_self n ks))
      have hfu : dfsU g a.1 < (allNodes g).length + 1 :=
        Nat.lt_succ_of_le (dfsU_le_len g a.1)
      have hpend : ∀ v ∈ a.1, v ∉ a.2 → r n < r v :=
        fun v hv hnv => absurd (hve v hv) hnv
      obtain ⟨hpost, hnin⟩ :=
        dfsVisit_spec g r hstrict ((allNodes g).length + 1) n a hmem hfu hainv hpend
      have hve2 : ∀ v ∈ (dfsVisit g ((allNodes g).length + 1) n a).1,
          v ∈ (dfsVisit g ((allNodes g).length + 1) n a).2 := by
        intro v hv
        by_cases hv1 : v ∈ a.1
        · obtain ⟨l, e⟩ := hpost.res_ext
          rw [e]
          exact List.mem_append_left _ (hve v hv1)
        · exact hpost.new_emitted v hv hv1
      obtain ⟨hve3, hpost3, hmem3⟩ :=
        ihk (fun n' hn' => hks n' (List.mem_cons_of_mem n hn'))
          (dfsVisit g ((allNodes g).length + 1) n a) hpost.inv hve2
      simp only [List.foldl_cons]
      refine ⟨hve3, hpost.trans hpost3, ?_⟩
      intro n' hn'
      rcases List.mem_cons.mp hn' with rfl | hn''
      · have hn2 : n' ∈ (dfsVisit g ((allNodes g).length + 1) n' a).2 :=
          hve2 n' hnin
        obtain ⟨l, e⟩ := hpost3.res_ext
        rw [e]
        exact List.mem_append_left _ hn2
      · exact hmem3 n' hn''
  have hinv0 : DfsInv g ([], []) := by
    refine ⟨?_, List.nodup_nil, ?_⟩
    · intro x hx; cases hx
    · intro x hx; cases hx
  obtain ⟨hveF, hpostF, hmemF⟩ :=
    hmain (pySorted (keys g)) (fun n hn => mem_pySorted.mp hn) ([], []) hinv0
      (fun v hv => absurd hv (List.not_mem_nil v))
  refine ⟨?_, hpostF.inv.nodup, hpostF.inv.ord⟩
  intro n hn
  exact hmemF n (mem_pySorted.mpr hn)

/-! ### Characterizing `buildRev`: reverse adjacency and in-degrees -/

theorem alookup_map_const {α β : Type} (c : β) (t : List (String × α))
    (k : String) :
    alookup (t.map (fun p => (p.1, c))) k = (alookup t k).map (fun _ => c) := by
  induction t with
  | nil => rfl
  | cons p rest ih =>
    simp only [List.map_cons, alookup]
    by_cases h : p.1 = k
    · rw [if_pos h, if_pos h]
      rfl
    · rw [if_neg h, if_neg h, ih]

theorem exists_alookup_of_mem_keys {α : Type} {t : List (String × α)}
    {k : String} (h : k ∈ t.map Prod.fst) : ∃ v, alookup t k = some v :=
  Option.isSome_iff_exists.mp (mem_keys_alookup h)

theorem getAdj_eq_of_mem {g : Graph} {p : String × List String}
    (hk : (keys g).Nodup) (hp : p ∈ g) : getAdj g p.1 = p.2 := by
  have hl : alookup g p.1 = some p.2 :=
    alookup_of_mem_nodup hk (by simpa using hp)
  unfold getAdj
  rw [hl]
  rfl

theorem keys_append (a b : Graph) : keys (a ++ b) = keys a ++ keys b :=
  List.map_append _ _ _

theorem brInner_fold (g done : Graph) (x : String) :
    ∀ (ds dP : List String)
      (acc : List (String × List String) × List (String × Int)),
      (∀ d ∈ ds, d ∈ keys g) → BRInner g done x dP acc →
      BRInner g done x (dP ++ ds)
        (ds.foldl (fun acc2 dep => if (alookup g dep).isSome then
            (adjAdd acc2.1 dep x, degAdd acc2.2 x 1) else acc2) acc) := by
  intro ds
  induction ds with
  | nil =>
    intro dP acc _ hacc
    rw [List.append_nil]
    exact hacc
  | cons d ds ihd =>
    intro dP acc hds hacc
    have hdk : d ∈ keys g := hds d (List.mem_cons_self d ds)
    have hsome : (alookup g d).isSome = true := mem_keys_alookup hdk
    rw [List.foldl_cons, if_pos hsome]
    have hstep : BRInner g done x (dP ++ [d])
        (adjAdd acc.1 d x, degAdd acc.2 x 1) := by
      refine ⟨?_, ?_⟩
      · intro n hn
        obtain ⟨l, hl, hnd, hiff⟩ := hacc.dep_char n hn
        by_cases hnd2 : n = d
        · refine ⟨addDep l x, ?_, addDep_nodup hnd x, ?_⟩
          · show alookup (adjAdd acc.1 d x) n = some (addDep l x)
            rw [alookup_adjAdd, if_pos hnd2, hl]
            rfl
          · intro e
            rw [mem_addDep, hiff]
            subst hnd2
            constructor
            · rintro ((he | ⟨rfl, hP⟩) | rfl)
              · exact Or.inl he
              · exact Or.inr ⟨rfl, List.mem_append_left _ hP⟩
              · exact Or.inr ⟨rfl, List.mem_append_right _ (List.mem_singleton.mpr rfl)⟩
            · rintro (he | ⟨rfl, -⟩)
              · exact Or.inl (Or.inl he)
              · exact Or.inr rfl
        · refine ⟨l, ?_, hnd, ?_⟩
          · show alookup (adjAdd acc.1 d x) n = some l
            rw [alookup_adjAdd, if_neg hnd2]
            exact hl
          · intro e
            rw [hiff]
            constructor
            · rintro (he | ⟨rfl, hP⟩)
              · exact Or.inl he
              · exact Or.inr ⟨rfl, List.mem_append_left _ hP⟩
            · rintro (he | ⟨rfl, hP⟩)
              · exact Or.inl he
              · rcases List.mem_append.mp hP with h1 | h1
                · exact Or.inr ⟨rfl, h1⟩
                · rcases List.mem_singleton.mp h1 with rfl
                  exact absurd rfl hnd2
      · intro z hz
        have := hacc.deg_char z hz
        by_cases hzx : z = x
        · show alookup (degAdd acc.2 x 1) z =
            some (if z = x then (((dP ++ [d]).length : Nat) : Int)
              else if z ∈ keys done then ((getAdj g z).length : Int) else 0)
          rw [alookup_degAdd, hzx, if_pos rfl, if_pos rfl]
          rw [hzx, if_pos rfl] at this
          rw [this, List.length_append, List.length_singleton]
          show some ((dP.length : Int) + 1) = some (((dP.length + 1 : Nat)) : Int)
          push_cast
          rfl
        · show alookup (degAdd acc.2 x 1) z =
            some (if z = x then (((dP ++ [d]).length : Nat) : Int)
              else if z ∈ keys done then ((getAdj g z).length : Int) else 0)
          rw [alookup_degAdd, if_neg (fun h : z = x => hzx h), if_neg hzx]
          rw [if_neg hzx] at this
          exact this
    have := ihd (dP ++ [d]) (adjAdd acc.1 d x, degAdd acc.2 x 1)
      (fun d' hd' => hds d' (List.mem_cons_of_mem d hd')) hstep
    rw [List.append_assoc] at this
    simpa using this

theorem buildRev_char (g : Graph) (hk : (keys g).Nodup)
    (hcl : ∀ p ∈ g, ∀ d ∈ p.2, d ∈ keys g) :
    (∀ n ∈ keys g, ∃ l, alookup (buildRev g).1 n = some l ∧ l.Nodup ∧
      ∀ e, e ∈ l ↔ n ∈ getAdj g e) ∧
    (∀ z ∈ keys g, alookup (buildRev g).2 z = some ((getAdj g z).length : Int)) := by
  have houter : ∀ (todo done : Graph)
      (acc : List (String × List String) × List (String × Int)),
      g = done ++ todo → BRInv g done acc →
      BRInv g (done ++ todo)
        (todo.foldl (fun acc p => p.2.foldl
          (fun acc2 dep => if (alookup g dep).isSome then
            (adjAdd acc2.1 dep p.1, degAdd acc2.2 p.1 1) else acc2) acc) acc) := by
    intro todo
    induction todo with
    | nil =>
      intro done acc _ hbr
      rw [List.append_nil]
      exact hbr
    | cons p todo ihp =>
      intro done acc hg hbr
      have hp : p ∈ g := by
        rw [hg]
        exact List.mem_append_right _ (List.mem_cons_self p todo)
      have hx : p.1 ∈ keys g := List.mem_map.mpr ⟨p, hp, rfl⟩
      have hxnd : p.1 ∉ keys done := by
        intro hc
        have : keys g = keys done ++ p.1 :: keys todo := by
          rw [hg]
          show (done ++ p :: todo).map Prod.fst = _
          rw [List.map_append, List.map_cons]
          rfl
        rw [this, List.nodup_append] at hk
        exact hk.2.2 hc (List.mem_cons_self p.1 _)
      have hstart : BRInner g done p.1 [] acc := by
        refine ⟨?_, ?_⟩
        · intro n hn
          obtain ⟨l, hl, hnd, hiff⟩ := hbr.dep_char n hn
          refine ⟨l, hl, hnd, ?_⟩
          intro e
          rw [hiff]
          constructor
          · exact Or.inl
          · rintro (he | ⟨-, hP⟩)
            · exact he
            · cases hP
        · intro z hz
          have := hbr.deg_char z hz
          by_cases hzx : z = p.1
          · have h0 : alookup acc.2 z = some 0 := by
              rw [if_neg (by rw [hzx]; exact hxnd)] at this
              exact this
            rw [if_pos hzx, h0]
            simp
          · simp only [if_neg hzx]
            exact this
      have hfold := brInner_fold g done p.1 p.2 [] acc
        (fun d hd => hcl p hp d hd) hstart
      rw [List.nil_append] at hfold
      have hnext : BRInv g (done ++ [p])
          (p.2.foldl (fun acc2 dep => if (alookup g dep).isSome then
            (adjAdd acc2.1 dep p.1, degAdd acc2.2 p.1 1) else acc2) acc) := by
        refine ⟨?_, ?_⟩
        · intro n hn
          obtain ⟨l, hl, hnd, hiff⟩ := hfold.dep_char n hn
          refine ⟨l, hl, hnd, ?_⟩
          intro e
          rw [hiff]
          constructor
          · rintro (⟨q, hq, hqe, hqn⟩ | ⟨rfl, hP⟩)
            · exact ⟨q, List.mem_append_left _ hq, hqe, hqn⟩
            · exact ⟨p, List.mem_append_right _ (List.mem_singleton.mpr rfl), rfl, hP⟩
          · rintro ⟨q, hq, hqe, hqn⟩
            rcases List.mem_append.mp hq with h1 | h1
            · exact Or.inl ⟨q, h1, hqe, hqn⟩
            · rcases List.mem_singleton.mp h1 with rfl
              exact Or.inr ⟨hqe.symm, hqn⟩
        · intro z hz
          have := hfold.deg_char z hz
          by_cases hzx : z = p.1
          · rw [if_pos hzx] at this
            have hmemk : z ∈ keys (done ++ [p]) := by
              show z ∈ (done ++ [p]).map Prod.fst
              rw [List.map_append]
              exact List.mem_append_right _ (by rw [hzx]; simp)
            rw [if_pos hmemk, this]
            have hadj : getAdj g z = p.2 := by
              rw [hzx]
              exact getAdj_eq_of_mem hk hp
            rw [hadj]
          · rw [if_neg hzx] at this
            by_cases hzd : z ∈ keys done
            · rw [if_pos hzd] at this
              rw [if_pos (by rw [keys_append]; exact List.mem_append_left _ hzd)]
              exact this
            · rw [if_neg hzd] at this
              rw [if_neg (by
                rw [keys_append]
                intro hc
                rcases List.mem_append.mp hc with h1 | h1
                · exact hzd h1
                · rcases List.mem_map.mp h1 with ⟨q, hq, hqe⟩
                  rcases List.mem_singleton.mp hq with rfl
                  exact hzx hqe.symm)]
              exact this
      have hg2 : g = (done ++ [p]) ++ todo := by
        rw [hg, List.append_assoc]
        rfl
      have := ihp (done ++ [p]) _ hg2 hnext
      rw [List.foldl_cons]
      rw [List.append_assoc] at this
      simpa using this
  have hinit : BRInv g []
      (g.map (fun p => (p.1, ([] : List String))),
       g.map (fun p => (p.1, (0 : Int)))) := by
    refine ⟨?_, ?_⟩
    · intro n hn
      obtain ⟨l0, hl0⟩ := exists_alookup_of_mem_keys (t := g) hn
      refine ⟨[], ?_, List.nodup_nil, ?_⟩
      · show alookup (g.map (fun p => (p.1, ([] : List String)))) n = some []
        rw [alookup_map_const, hl0]
        rfl
      · intro e
        constructor
        · intro h; cases h
        · rintro ⟨q, hq, -⟩; cases hq
    · intro z hz
      obtain ⟨l0, hl0⟩ := exists_alookup_of_mem_keys (t := g) hz
      have hnk : z ∉ keys ([] : Graph) := by intro h; cases h
      rw [if_neg hnk]
      show alookup (g.map (fun p => (p.1, (0 : Int)))) z = some 0
      rw [alookup_map_const, hl0]
      rfl
  have hfinal := houter g [] _ rfl hinit
  rw [List.nil_append] at hfinal
  constructor
  · intro n hn
    obtain ⟨l, hl, hnd, hiff⟩ := hfinal.dep_char n hn
    refine ⟨l, hl, hnd, ?_⟩
    intro e
    rw [hiff]
    constructor
    · rintro ⟨q, hq, hqe, hqn⟩
      have : getAdj g e = q.2 := by
        rw [← hqe]
        exact getAdj_eq_of_mem hk hq
      rw [this]
      exact hqn
    · intro hmem
      have hek : e ∈ keys g := edge_source_key hmem
      obtain ⟨l', hl'⟩ := exists_alookup_of_mem_keys (t := g) hek
      refine ⟨(e, l'), alookup_mem hl', rfl, ?_⟩
      unfold getAdj at hmem
      rw [hl'] at hmem
      exact hmem
  · intro z hz
    have := hfinal.deg_char z hz
    rw [if_pos hz] at this
    exact this

theorem buildRev_snd_fst (g : Graph) :
    ((buildRev g).2).map Prod.fst = keys g := by
  have hinner : ∀ (ds : List String) (x : String)
      (acc : List (String × List String) × List (String × Int)),
      ((ds.foldl (fun acc2 dep => if (alookup g dep).isSome then
        (adjAdd acc2.1 dep x, degAdd acc2.2 x 1) else acc2) acc).2).map Prod.fst =
        (acc.2).map Prod.fst := by
    intro ds
    induction ds with
    | nil => intro x acc; rfl
    | cons d ds ihd =>
      intro x acc
      rw [List.foldl_cons]
      by_cases hs : (alookup g d).isSome = true
      · rw [if_pos hs, ihd]
        exact degAdd_fst acc.2 x 1
      · rw [if_neg hs, ihd]
  have houter : ∀ (todo : Graph)
      (acc : List (String × List String) × List (String × Int)),
      ((todo.foldl (fun acc p => p.2.foldl
        (fun acc2 dep => if (alookup g dep).isSome then
          (adjAdd acc2.1 dep p.1, degAdd acc2.2 p.1 1) else acc2) acc) acc).2).map
            Prod.fst = (acc.2).map Prod.fst := by
    intro todo
    induction todo with
    | nil => intro acc; rfl
    | cons p todo ihp =>
      intro acc
      rw [List.foldl_cons, ihp, hinner]
  have h1 := houter g
    (g.map (fun p => (p.1, ([] : List String))), g.map (fun p => (p.1, (0 : Int))))
  have h2 : ((g.map (fun p => (p.1, (0 : Int)))) : List (String × Int)).map
      Prod.fst = keys g := by
    rw [List.map_map]
    rfl
  exact Eq.trans h1 h2

theorem mem_initQueue {ind : List (String × Int)}
    (hnd : (ind.map Prod.fst).Nodup) (x : String) :
    x ∈ initQueue ind ↔ alookup ind x = some 0 := by
  unfold initQueue
  constructor
  · intro hx
    obtain ⟨p, hp, rfl⟩ := List.mem_map.mp hx
    obtain ⟨hpmem, hp0⟩ := List.mem_filter.mp hp
    have hz : p.2 = 0 := of_decide_eq_true hp0
    have hlk := alookup_of_mem_nodup hnd (show (p.1, p.2) ∈ ind by simpa using hpmem)
    rw [hlk, hz]
  · intro hx
    exact List.mem_map.mpr ⟨(x, 0),
      List.mem_filter.mpr ⟨alookup_mem hx, by simp⟩, rfl⟩

theorem initQueue_nodup {ind : List (String × Int)}
    (hnd : (ind.map Prod.fst).Nodup) : (initQueue ind).Nodup := by
  unfold initQueue
  have hsub := (List.filter_sublist (l := ind)
    (p := fun p => decide (p.2 = 0))).map Prod.fst
  exact hnd.sublist hsub

theorem initQueue_subset {ind : List (String × Int)} :
    ∀ x ∈ initQueue ind, x ∈ ind.map Prod.fst := by
  intro x hx
  unfold initQueue at hx
  obtain ⟨p, hp, rfl⟩ := List.mem_map.mp hx
  exact List.mem_map.mpr ⟨p, (List.mem_filter.mp hp).1, rfl⟩

/-! ### The Kahn work loop -/

theorem degAdd_fold_lookup :
    ∀ (cs : List String), cs.Nodup →
    ∀ (m : List (String × Int)) (x : String),
      alookup (cs.foldl (fun m2 c => degAdd m2 c (-1)) m) x =
        if x ∈ cs then (alookup m x).map (fun v => v + (-1)) else alookup m x := by
  intro cs
  induction cs with
  | nil =>
    intro _ m x
    rw [if_neg (List.not_mem_nil x)]
    rfl
  | cons c cs ihc =>
    intro hnd m x
    rw [List.nodup_cons] at hnd
    rw [List.foldl_cons, ihc hnd.2]
    by_cases hxc : x = c
    · subst hxc
      rw [if_neg hnd.1, if_pos (List.mem_cons_self x cs), alookup_degAdd, if_pos rfl]
    · rw [alookup_degAdd, if_neg hxc]
      by_cases hxcs : x ∈ cs
      · rw [if_pos hxcs, if_pos (List.mem_cons_of_mem c hxcs)]
      · rw [if_neg hxcs, if_neg (by
          intro hc
          rcases List.mem_cons.mp hc with h1 | h1
          · exact hxc h1
          · exact hxcs h1)]

theorem kahn_fold_char :
    ∀ (cs : List String), cs.Nodup →
    ∀ (q0 : List String) (m : List (String × Int)),
      cs.foldl (fun (acc : List String × List (String × Int)) child =>
        let ind' := degAdd acc.2 child (-1)
        if (alookup ind' child).getD 0 = 0 then (acc.1 ++ [child], ind')
        else (acc.1, ind')) (q0, m) =
      (q0 ++ cs.filter (fun c =>
          decide (((alookup m c).map (fun v => v + (-1))).getD 0 = 0)),
       cs.foldl (fun m2 c => degAdd m2 c (-1)) m) := by
  intro cs
  induction cs with
  | nil => intro _ q0 m; simp
  | cons c cs ihc =>
    intro hnd q0 m
    rw [List.nodup_cons] at hnd
    have hlk : alookup (degAdd m c (-1)) c =
        (alookup m c).map (fun v => v + (-1)) := by
      rw [alookup_degAdd, if_pos rfl]
    have hfilter : cs.filter (fun c' =>
        decide (((alookup (degAdd m c (-1)) c').map (fun v => v + (-1))).getD 0 = 0)) =
      cs.filter (fun c' =>
        decide (((alookup m c').map (fun v => v + (-1))).getD 0 = 0)) := by
      apply List.filter_congr
      intro c' hc'
      have hne : c' ≠ c := fun he => hnd.1 (he ▸ hc')
      rw [alookup_degAdd, if_neg hne]
    rw [List.foldl_cons, List.foldl_cons, List.filter_cons]
    by_cases hz : ((alookup m c).map (fun v => v + (-1))).getD 0 = 0
    · have hstep : (let ind' := degAdd (q0, m).2 c (-1)
          if (alookup ind' c).getD 0 = 0 then ((q0, m).1 ++ [c], ind')
          else ((q0, m).1, ind')) = (q0 ++ [c], degAdd m c (-1)) := by
        show (if (alookup (degAdd m c (-1)) c).getD 0 = 0
            then (q0 ++ [c], degAdd m c (-1)) else (q0, degAdd m c (-1))) =
          (q0 ++ [c], degAdd m c (-1))
        rw [hlk, if_pos hz]
      rw [hstep, ihc hnd.2, hfilter, if_pos (decide_eq_true hz)]
      rw [List.append_assoc]
      rfl
    · have hstep : (let ind' := degAdd (q0, m).2 c (-1)
          if (alookup ind' c).getD 0 = 0 then ((q0, m).1 ++ [c], ind')
          else ((q0, m).1, ind')) = (q0, degAdd m c (-1)) := by
        show (if (alookup (degAdd m c (-1)) c).getD 0 = 0
            then (q0 ++ [c], degAdd m c (-1)) else (q0, degAdd m c (-1))) =
          (q0, degAdd m c (-1))
        rw [hlk, if_neg hz]
      rw [hstep, ihc hnd.2, hfilter,
        if_neg (fun hc => hz (of_decide_eq_true hc))]

theorem kahnLoop_spec (g : Graph) (dep : List (String × List String))
    (r : String → Nat)
    (hstrict : ∀ x y, y ∈ getAdj g x → r y < r x)
    (hk : (keys g).Nodup)
    (hadjn : ∀ x, (getAdj g x).Nodup)
    (hclosed : ∀ x y, y ∈ getAdj g x → y ∈ keys g)
    (hdep : ∀ n ∈ keys g, ∃ l, alookup dep n = some l ∧ l.Nodup ∧
      ∀ e, e ∈ l ↔ n ∈ getAdj g e) :
    ∀ (fuel : Nat) (q : List String) (ind : List (String × Int))
      (result : List String), KahnInv g q ind result →
      (keys g).length < fuel + result.length →
      (kahnLoop dep fuel q ind result).Nodup ∧
      (∀ x, x ∈ kahnLoop dep fuel q ind result ↔ x ∈ keys g) ∧
      (∀ x ∈ kahnLoop dep fuel q ind result, ∀ y ∈ getAdj g x,
        before (kahnLoop dep fuel q ind result) y x) := by
  intro fuel
  induction fuel with
  | zero =>
    intro q ind result hinv hlen
    exfalso
    have h1 : result.Nodup := (List.nodup_append.mp hinv.nodup).1
    have h2 : result.length ≤ (keys g).length :=
      nodup_subset_length h1
        (fun x hx => hinv.mem_keys x (List.mem_append_left _ hx))
    omega
  | succ fuel ihf =>
    intro q ind result hinv hlen
    cases q with
    | nil =>
      have heq : kahnLoop dep (fuel+1) [] ind result = result := rfl
      rw [heq]
      have hsub : ∀ x ∈ result, x ∈ keys g :=
        fun x hx => hinv.mem_keys x (List.mem_append_left _ hx)
      have hnd : result.Nodup := by
        have := hinv.nodup
        rw [List.append_nil] at this
        exact this
      have hcomp : ∀ x ∈ keys g, x ∈ result := by
        by_contra hcon
        push_neg at hcon
        obtain ⟨x0, hx0, hx0n⟩ := hcon
        have hSne : (keys g).filter (fun z => decide (z ∉ result)) ≠ [] := by
          intro hnil
          have hx0m : x0 ∈ (keys g).filter (fun z => decide (z ∉ result)) :=
            List.mem_filter.mpr ⟨hx0, decide_eq_true hx0n⟩
          rw [hnil] at hx0m
          cases hx0m
        obtain ⟨m, hm, hmin⟩ := exists_min_rank r _ hSne
        obtain ⟨hmk, hmnr⟩ := List.mem_filter.mp hm
        have hmnr' : m ∉ result := of_decide_eq_true hmnr
        obtain ⟨y, hy, hynr⟩ := hinv.blocked m hmk hmnr' (List.not_mem_nil m)
        have hyk : y ∈ keys g := hclosed m y hy
        have hyS : y ∈ (keys g).filter (fun z => decide (z ∉ result)) :=
          List.mem_filter.mpr ⟨hyk, decide_eq_true hynr⟩
        have hge := hmin y hyS
        have hlt := hstrict m y hy
        omega
      exact ⟨hnd, fun x => ⟨hsub x, hcomp x⟩, fun x hx y hy => hinv.ord x hx y hy⟩
    | cons node q =>
      have hnodeK : node ∈ keys g :=
        hinv.mem_keys node (List.mem_append_right _ (List.mem_cons_self node q))
      have hnodeR : node ∉ result := by
        have hnd := hinv.nodup
        rw [List.nodup_append] at hnd
        exact fun hc => hnd.2.2 hc (List.mem_cons_self node q)
      obtain ⟨children, hchl, hchnd, hchiff⟩ := hdep node hnodeK
      have hchk : ∀ c ∈ children, c ∈ keys g :=
        fun c hc => edge_source_key ((hchiff c).mp hc)
      have h1 : ((alookup dep node).getD []) = children := by
        rw [hchl]
        rfl
      have heq : kahnLoop dep (fuel+1) (node :: q) ind result =
          kahnLoop dep fuel
            (children.foldl (fun (acc : List String × List (String × Int)) child =>
              let ind' := degAdd acc.2 child (-1)
              if (alookup ind' child).getD 0 = 0 then (acc.1 ++ [child], ind')
              else (acc.1, ind')) (q, ind)).1
            (children.foldl (fun (acc : List String × List (String × Int)) child =>
              let ind' := degAdd acc.2 child (-1)
              if (alookup ind' child).getD 0 = 0 then (acc.1 ++ [child], ind')
              else (acc.1, ind')) (q, ind)).2
            (result ++ [node]) := by
        show kahnLoop dep fuel
            (((alookup dep node).getD []).foldl
              (fun (acc : List String × List (String × Int)) child =>
                let ind' := degAdd acc.2 child (-1)
                if (alookup ind' child).getD 0 = 0 then (acc.1 ++ [child], ind')
                else (acc.1, ind')) (q, ind)).1
            (((alookup dep node).getD []).foldl
              (fun (acc : List String × List (String × Int)) child =>
                let ind' := degAdd acc.2 child (-1)
                if (alookup ind' child).getD 0 = 0 then (acc.1 ++ [child], ind')
                else (acc.1, ind')) (q, ind)).2
            (result ++ [node]) = _
        rw [h1]
      rw [heq, kahn_fold_char children hchnd q ind]
      have hpred : ∀ c, c ∈ keys g →
          ((decide (((alookup ind c).map (fun v => v + (-1))).getD 0 = 0)) = true ↔
            ((getAdj g c).filter (fun y => decide (y ∉ result))).length = 1) := by
        intro c hck
        rw [hinv.counts c hck]
        constructor
        · intro hdec
          have hv := of_decide_eq_true hdec
          have hv2 : ((((getAdj g c).filter
              (fun y => decide (y ∉ result))).length : Int)) + (-1) = 0 := hv
          omega
        · intro hlen1
          apply decide_eq_true
          show ((((getAdj g c).filter
              (fun y => decide (y ∉ result))).length : Int)) + (-1) = 0
          omega
      have hKinv : KahnInv g
          (q ++ children.filter (fun c =>
            decide (((alookup ind c).map (fun v => v + (-1))).getD 0 = 0)))
          (children.foldl (fun m2 c => degAdd m2 c (-1)) ind)
          (result ++ [node]) := by
        refine ⟨?_, ?_, ?_, ?_, ?_, ?_⟩
        · -- nodup
          have hre : (result ++ [node]) ++ (q ++ children.filter (fun c =>
              decide (((alookup ind c).map (fun v => v + (-1))).getD 0 = 0))) =
              (result ++ node :: q) ++ children.filter (fun c =>
                decide (((alookup ind c).map (fun v => v + (-1))).getD 0 = 0)) := by
            simp
          rw [hre, List.nodup_append]
          refine ⟨hinv.nodup, hchnd.filter _, ?_⟩
          intro a ha hae
          obtain ⟨hach, hapred⟩ := List.mem_filter.mp hae
          have hna : node ∈ getAdj g a := (hchiff a).mp hach
          rcases List.mem_append.mp ha with h1 | h2
          · exact hnodeR (before_mem_left (hinv.ord a h1 node hna))
          · rcases List.mem_cons.mp h2 with rfl | h3
            · exact Nat.lt_irrefl _ (hstrict a a hna)
            · exact hnodeR (hinv.ready a (List.mem_cons_of_mem node h3) node hna)
        · -- mem_keys
          intro x hx
          rcases List.mem_append.mp hx with h1 | h2
          · rcases List.mem_append.mp h1 with h3 | h3
            · exact hinv.mem_keys x (List.mem_append_left _ h3)
            · rcases List.mem_singleton.mp h3 with rfl
              exact hnodeK
          · rcases List.mem_append.mp h2 with h3 | h3
            · exact hinv.mem_keys x
                (List.mem_append_right _ (List.mem_cons_of_mem node h3))
            · exact hchk x (List.mem_filter.mp h3).1
        · -- counts
          intro x hxk
          rw [degAdd_fold_lookup children hchnd ind x]
          have hfel := filter_emit_length (hadjn x) result node hnodeR
          by_cases hx : x ∈ children
          · rw [if_pos hx, hinv.counts x hxk]
            rw [if_pos ((hchiff x).mp hx)] at hfel
            show some ((((getAdj g x).filter
                (fun y => decide (y ∉ result))).length : Int) + (-1)) =
              some (((getAdj g x).filter
                (fun y => decide (y ∉ result ++ [node]))).length : Int)
            refine congrArg some ?_
            omega
          · rw [if_neg hx, hinv.counts x hxk]
            rw [if_neg (fun hc => hx ((hchiff x).mpr hc))] at hfel
            refine congrArg some ?_
            omega
        · -- ready
          intro x hx y hy
          rcases List.mem_append.mp hx with h1 | h2
          · exact List.mem_append_left _
              (hinv.ready x (List.mem_cons_of_mem node h1) y hy)
          · obtain ⟨hxch, hxpred⟩ := List.mem_filter.mp h2
            have hxk : x ∈ keys g := hchk x hxch
            have hlen1 := (hpred x hxk).mp hxpred
            have hnodeF : node ∈ (getAdj g x).filter
                (fun y => decide (y ∉ result)) :=
              List.mem_filter.mpr ⟨(hchiff x).mp hxch, decide_eq_true hnodeR⟩
            have hF := length_one_mem_eq hlen1 hnodeF
            by_cases hyr : y ∈ result
            · exact List.mem_append_left _ hyr
            · have hyF : y ∈ (getAdj g x).filter (fun y => decide (y ∉ result)) :=
                List.mem_filter.mpr ⟨hy, decide_eq_true hyr⟩
              rw [hF] at hyF
              rcases List.mem_singleton.mp hyF with rfl
              exact List.mem_append_right _ (List.mem_singleton.mpr rfl)
        · -- ord
          intro x hx y hy
          rcases List.mem_append.mp hx with h1 | h1
          · exact before_append_left (hinv.ord x h1 y hy)
          · rcases List.mem_singleton.mp h1 with rfl
            exact before_append_emit
              (hinv.ready x (List.mem_cons_self x q) y hy)
        · -- blocked
          intro x hxk hxr hxq
          have hxr' : x ∉ result := fun hc => hxr (List.mem_append_left _ hc)
          have hxn : x ≠ node := fun hc => hxr
            (List.mem_append_right _ (List.mem_singleton.mpr hc))
          have hxq' : x ∉ q := fun hc => hxq (List.mem_append_left _ hc)
          have hxe : x ∉ children.filter (fun c =>
              decide (((alookup ind c).map (fun v => v + (-1))).getD 0 = 0)) :=
            fun hc => hxq (List.mem_append_right _ hc)
          have hxnq : x ∉ node :: q := by
            intro hc
            rcases List.mem_cons.mp hc with h1 | h1
            · exact hxn h1
            · exact hxq' h1
          obtain ⟨y, hy, hynr⟩ := hinv.blocked x hxk hxr' hxnq
          by_cases hyn : y = node
          · subst hyn
            have hxch : x ∈ children := (hchiff x).mpr hy
            have hxpred : ¬ ((decide (((alookup ind x).map
                (fun v => v + (-1))).getD 0 = 0)) = true) :=
              fun hc => hxe (List.mem_filter.mpr ⟨hxch, hc⟩)
            have hlenne : ((getAdj g x).filter
                (fun y => decide (y ∉ result))).length ≠ 1 :=
              fun hc => hxpred ((hpred x hxk).mpr hc)
            have hyF : y ∈ (getAdj g x).filter (fun y => decide (y ∉ result)) :=
              List.mem_filter.mpr ⟨hy, decide_eq_true hynr⟩
            have hpos : 0 < ((getAdj g x).filter
                (fun y => decide (y ∉ result))).length :=
              List.length_pos.mpr (List.ne_nil_of_mem hyF)
            have h2le : 2 ≤ ((getAdj g x).filter
                (fun y => decide (y ∉ result))).length := by omega
            obtain ⟨y', hy'F, hy'ne⟩ :=
              exists_ne_of_nodup_two ((hadjn x).filter _) h2le y
            obtain ⟨hy'adj, hy'nr⟩ := List.mem_filter.mp hy'F
            refine ⟨y', hy'adj, ?_⟩
            intro hc
            rcases List.mem_append.mp hc with h3 | h3
            · exact (of_decide_eq_true hy'nr) h3
            · exact hy'ne (List.mem_singleton.mp h3)
          · refine ⟨y, hy, ?_⟩
            intro hc
            rcases List.mem_append.mp hc with h3 | h3
            · exact hynr h3
            · exact hyn (List.mem_singleton.mp h3)
      have hlen2 : (keys g).length < fuel + (result ++ [node]).length := by
        rw [List.length_append, List.length_singleton]
        omega
      exact ihf _ _ (result ++ [node]) hKinv hlen2

theorem kahnCore_spec (g : Graph) (r : String → Nat)
    (hstrict : ∀ x y, y ∈ getAdj g x → r y < r x)
    (hk : (keys g).Nodup)
    (hadjn : ∀ x, (getAdj g x).Nodup)
    (hclosed : ∀ x y, y ∈ getAdj g x → y ∈ keys g) :
    (kahnCore g).Nodup ∧ (∀ x, x ∈ kahnCore g ↔ x ∈ keys g) ∧
      (∀ x ∈ kahnCore g, ∀ y ∈ getAdj g x, before (kahnCore g) y x) := by
  obtain ⟨hdep, hdeg⟩ := buildRev_char g hk (by
    intro p hp d hd
    have hpa : getAdj g p.1 = p.2 := getAdj_eq_of_mem hk hp
    exact hclosed p.1 d (by rw [hpa]; exact hd))
  have hindfst : ((buildRev g).2).map Prod.fst = keys g := buildRev_snd_fst g
  have hindnd : (((buildRev g).2).map Prod.fst).Nodup := by
    rw [hindfst]
    exact hk
  have hinv0 : KahnInv g (initQueue (buildRev g).2) (buildRev g).2 [] := by
    refine ⟨?_, ?_, ?_, ?_, ?_, ?_⟩
    · rw [List.nil_append]
      exact initQueue_nodup hindnd
    · intro x hx
      rw [List.nil_append] at hx
      have hx2 := initQueue_subset x hx
      rw [hindfst] at hx2
      exact hx2
    · intro x hxk
      have hfe : (getAdj g x).filter (fun y => decide (y ∉ ([] : List String))) =
          getAdj g x := by
        apply List.filter_eq_self.mpr
        intro a _
        exact decide_eq_true (List.not_mem_nil a)
      rw [hfe]
      exact hdeg x hxk
    · intro x hxq y hy
      exfalso
      have hlk := (mem_initQueue hindnd x).mp hxq
      have hxk : x ∈ keys g := by
        have hx2 := initQueue_subset x hxq
        rw [hindfst] at hx2
        exact hx2
      rw [hdeg x hxk] at hlk
      have hc : ((getAdj g x).length : Int) = 0 := by
        injection hlk
      have hnil : getAdj g x = [] := by
        apply List.length_eq_zero.mp
        omega
      rw [hnil] at hy
      cases hy
    · intro x hx
      cases hx
    · intro x hxk _ hxq
      have hne : alookup (buildRev g).2 x ≠ some 0 :=
        fun hc => hxq ((mem_initQueue hindnd x).mpr hc)
      have hlenne : ((getAdj g x).length : Int) ≠ 0 :=
        fun hc => hne (by rw [hdeg x hxk, hc])
      have hpos : getAdj g x ≠ [] := by
        intro hnil
        apply hlenne
        rw [hnil]
        rfl
      obtain ⟨y, hy⟩ := List.exists_mem_of_ne_nil _ hpos
      exact ⟨y, hy, List.not_mem_nil y⟩
  have hglen : (keys g).length = g.length := List.length_map _ _
  have hlen0 : (keys g).length <
      (g.length + ((g.map (fun p => p.2.length)).sum) + 1) +
        ([] : List String).length := by
    rw [hglen]
    simp only [List.length_nil]
    omega
  obtain ⟨hnd, hiff, hord⟩ := kahnLoop_spec g (buildRev g).1 r hstrict hk hadjn
    hclosed hdep (g.length + ((g.map (fun p => p.2.length)).sum) + 1)
    (initQueue (buildRev g).2) (buildRev g).2 [] hinv0 hlen0
  have hRlen : (kahnLoop (buildRev g).1
      (g.length + ((g.map (fun p => p.2.length)).sum) + 1)
      (initQueue (buildRev g).2) (buildRev g).2 []).length = (keys g).length :=
    Nat.le_antisymm
      (nodup_subset_length hnd (fun x hx => (hiff x).mp hx))
      (nodup_subset_length hk (fun x hx => (hiff x).mpr hx))
  have hcore : kahnCore g = kahnLoop (buildRev g).1
      (g.length + ((g.map (fun p => p.2.length)).sum) + 1)
      (initQueue (buildRev g).2) (buildRev g).2 [] := by
    show (if (kahnLoop (buildRev g).1
        (g.length + ((g.map (fun p => p.2.length)).sum) + 1)
        (initQueue (buildRev g).2) (buildRev g).2 []).length ≠ g.length
      then keys g
      else kahnLoop (buildRev g).1
        (g.length + ((g.map (fun p => p.2.length)).sum) + 1)
        (initQueue (buildRev g).2) (buildRev g).2 []) = _
    rw [if_neg (fun hc => hc (hRlen.trans hglen))]
  rw [hcore]
  exact ⟨hnd, hiff, hord⟩

/-! ### C2: dependencies are emitted before their dependents -/

/-- C2 (corrected): on a graph shaped like a Python `dict` of `set`s
(unique keys, duplicate-free adjacency, every dependency itself a key),
and *provided the resolved graph has no self-loops*, every edge `x → y`
that survives `resolve_cycles` has `y` emitted strictly before `x` both in
`topological_sort` and in `dependency_first_dfs`.  The claim's unqualified
statement is false: a self-loop survives `resolve_cycles` (a 1-node SCC is
not a cycle for `detect_cycles`) and then neither ordering emits the node
strictly before itself — see the counterexample. -/
theorem C2_dependency_emitted_before (g : Graph)
    (hk : (keys g).Nodup)
    (hadj : ∀ p ∈ g, p.2.Nodup)
    (hclosed : ∀ p ∈ g, ∀ d ∈ p.2, d ∈ keys g)
    (hself : ∀ x ∈ keys g, x ∉ getAdj (resolve_cycles g) x) :
    ∀ x y, y ∈ getAdj (resolve_cycles g) x →
      before (topological_sort g) y x ∧
        before (dependency_first_dfs g) y x := by
  have hkeys : keys (resolve_cycles g) = keys g := keys_resolve g
  have hk' : (keys (resolve_cycles g)).Nodup := by
    rw [hkeys]
    exact hk
  have hadjn' : ∀ z, (getAdj (resolve_cycles g) z).Nodup := by
    intro z
    unfold getAdj
    cases hl : alookup (resolve_cycles g) z with
    | none => exact List.nodup_nil
    | some l =>
      obtain ⟨p, hp, hfst, hsub⟩ := resolve_entry (alookup_mem hl)
      exact (hadj p hp).sublist hsub
  have hclosed' : ∀ z w, w ∈ getAdj (resolve_cycles g) z →
      w ∈ keys (resolve_cycles g) := by
    intro z w hw
    rw [hkeys]
    unfold getAdj at hw
    cases hl : alookup (resolve_cycles g) z with
    | none => rw [hl] at hw; cases hw
    | some l =>
      rw [hl] at hw
      obtain ⟨p, hp, hfst, hsub⟩ := resolve_entry (alookup_mem hl)
      exact hclosed p hp w (hsub.subset hw)
  have hself' : ∀ z, z ∉ getAdj (resolve_cycles g) z := by
    intro z
    by_cases hz : z ∈ keys g
    · exact hself z hz
    · rw [getAdj_of_not_key (by rw [hkeys]; exact hz)]
      exact List.not_mem_nil z
  have hstrict : ∀ z w, w ∈ getAdj (resolve_cycles g) z →
      rankIn (tarjanRun (resolve_cycles g)).sccs w <
        rankIn (tarjanRun (resolve_cycles g)).sccs z := by
    intro z w hw
    have hne : z ≠ w := by
      intro he
      subst he
      exact hself' z hw
    exact acyclic_strict (resolve_cycles g) (detect_resolve_empty g) z w hw hne
  obtain ⟨hknd, hkiff, hkord⟩ :=
    kahnCore_spec (resolve_cycles g) _ hstrict hk' hadjn' hclosed'
  obtain ⟨hdcomp, hdnd, hdord⟩ := dfsCore_spec (resolve_cycles g) _ hstrict
  intro x y hy
  have hxk : x ∈ keys (resolve_cycles g) := edge_source_key hy
  exact ⟨hkord x ((hkiff x).mpr hxk) y hy, hdord x (hdcomp x hxk) y hy⟩

/-- C2's counterexample: the self-loop `a → a` survives `resolve_cycles`
(a single node is never reported as a cycle), yet neither ordering emits
`a` strictly before `a`. -/
theorem C2_counterexample :
    "a" ∈ getAdj (resolve_cycles [("a", ["a"])]) "a" ∧
    ¬ before (topological_sort [("a", ["a"])]) "a" "a" ∧
    ¬ before (dependency_first_dfs [("a", ["a"])]) "a" "a" := by
  refine ⟨by decide, ?_, ?_⟩
  · intro h
    exact before_nodup_ne (l := topological_sort [("a", ["a"])])
      (by decide) h rfl
  · intro h
    exact before_nodup_ne (l := dependency_first_dfs [("a", ["a"])])
      (by decide) h rfl

/-- Witness for C2: on `a → b` both orderings emit `b` before `a`. -/
theorem C2_dependency_emitted_before_witness :
    before (topological_sort [("a", ["b"]), ("b", [])]) "b" "a" ∧
    before (dependency_first_dfs [("a", ["b"]), ("b", [])]) "b" "a" :=
  C2_dependency_emitted_before [("a", ["b"]), ("b", [])] (by decide) (by decide)
    (by decide) (by decide) "a" "b" (by decide)

/-! ### C3: determinism and tie-breaking of the two orderings -/

theorem dfs_edgeless (g : Graph) (hE : ∀ x, getAdj g x = [])
    (hk : (keys g).Nodup) : dfsCore g = pySorted (keys g) := by
  have hfold : ∀ (l : List String), l.Nodup → ∀ (v res : List String),
      (∀ x ∈ l, x ∉ v) →
      l.foldl (fun a n => dfsVisit g ((allNodes g).length + 1) n a) (v, res) =
        (l.reverse ++ v, res ++ l) := by
    intro l
    induction l with
    | nil => intro _ v res _; simp
    | cons n l ihl =>
      intro hnd v res hnv
      rw [List.nodup_cons] at hnd
      have hnv0 : n ∉ v := hnv n (List.mem_cons_self n l)
      have h0 : pySorted (getAdj g n) = [] := by
        rw [hE n]
        rfl
      have hstep : dfsVisit g ((allNodes g).length + 1) n (v, res) =
          (n :: v, res ++ [n]) := by
        simp [dfsVisit, if_neg hnv0, h0]
      rw [List.foldl_cons, hstep,
        ihl hnd.2 (n :: v) (res ++ [n]) (by
          intro x hx hc
          rcases List.mem_cons.mp hc with h1 | h1
          · exact hnd.1 (by rw [← h1]; exact hx)
          · exact hnv x (List.mem_cons_of_mem n hx) h1)]
      rw [List.reverse_cons, List.append_assoc, List.append_assoc]
      rfl
  show ((pySorted (keys g)).foldl
    (fun a n => dfsVisit g ((allNodes g).length + 1) n a) ([], [])).2 =
      pySorted (keys g)
  rw [hfold (pySorted (keys g)) (nodup_pySorted hk) [] []
    (fun x _ => List.not_mem_nil x)]
  show [] ++ pySorted (keys g) = pySorted (keys g)
  exact List.nil_append _

theorem kahn_edgeless (g : Graph) (hE : ∀ p ∈ g, p.2 = ([] : List String)) :
    kahnCore g = keys g := by
  have hfold0 : ∀ (todo : Graph), (∀ p ∈ todo, p.2 = ([] : List String)) →
      ∀ (acc : List (String × List String) × List (String × Int)),
      todo.foldl (fun acc p => p.2.foldl
        (fun acc2 dep => if (alookup g dep).isSome then
          (adjAdd acc2.1 dep p.1, degAdd acc2.2 p.1 1) else acc2) acc) acc = acc := by
    intro todo
    induction todo with
    | nil => intro _ acc; rfl
    | cons p todo ihp =>
      intro hT acc
      rw [List.foldl_cons, hT p (List.mem_cons_self p todo), List.foldl_nil]
      exact ihp (fun q hq => hT q (List.mem_cons_of_mem p hq)) acc
  have hbr : buildRev g = (g.map (fun p => (p.1, ([] : List String))),
      g.map (fun p => (p.1, (0 : Int)))) := hfold0 g hE _
  have hq0 : initQueue (g.map (fun p => (p.1, (0 : Int)))) = keys g := by
    unfold initQueue
    have hfil : (g.map (fun p => (p.1, (0 : Int)))).filter
        (fun p => decide (p.2 = 0)) = g.map (fun p => (p.1, (0 : Int))) := by
      apply List.filter_eq_self.mpr
      intro a ha
      obtain ⟨p, hp, rfl⟩ := List.mem_map.mp ha
      simp
    rw [hfil, List.map_map]
    rfl
  have hchild : ∀ nd : String,
      ((alookup (g.map (fun p => (p.1, ([] : List String)))) nd).getD []) = [] := by
    intro nd
    rw [alookup_map_const]
    cases alookup g nd <;> rfl
  have hloop : ∀ (fuel : Nat) (q : List String) (ind : List (String × Int))
      (res : List String), q.length < fuel →
      kahnLoop (g.map (fun p => (p.1, ([] : List String)))) fuel q ind res =
        res ++ q := by
    intro fuel
    induction fuel with
    | zero => intro q ind res h; exact absurd h (Nat.not_lt_zero _)
    | succ fuel ihf =>
      intro q ind res hlen
      cases q with
      | nil =>
        have h1 : kahnLoop (g.map (fun p => (p.1, ([] : List String))))
            (fuel+1) [] ind res = res := rfl
        rw [h1, List.append_nil]
      | cons nd q =>
        have heq : kahnLoop (g.map (fun p => (p.1, ([] : List String))))
            (fuel+1) (nd :: q) ind res =
            kahnLoop (g.map (fun p => (p.1, ([] : List String))))
              fuel q ind (res ++ [nd]) := by
          show kahnLoop (g.map (fun p => (p.1, ([] : List String)))) fuel
            ((((alookup (g.map (fun p => (p.1, ([] : List String)))) nd).getD
              []).foldl (fun (acc : List String × List (String × Int)) child =>
                let ind' := degAdd acc.2 child (-1)
                if (alookup ind' child).getD 0 = 0 then (acc.1 ++ [child], ind')
                else (acc.1, ind')) (q, ind)).1)
            ((((alookup (g.map (fun p => (p.1, ([] : List String)))) nd).getD
              []).foldl (fun (acc : List String × List (String × Int)) child =>
                let ind' := degAdd acc.2 child (-1)
                if (alookup ind' child).getD 0 = 0 then (acc.1 ++ [child], ind')
                else (acc.1, ind')) (q, ind)).2)
            (res ++ [nd]) = _
          rw [hchild nd]
          rfl
        have hq : q.length < fuel := by
          rw [List.length_cons] at hlen
          omega
        rw [heq, ihf q ind (res ++ [nd]) hq, List.append_assoc]
        rfl
  have hfuel : (keys g).length <
      g.length + ((g.map (fun p => p.2.length)).sum) + 1 := by
    have hklen : (keys g).length = g.length := List.length_map _ _
    rw [hklen]
    omega
  have hR : kahnLoop (g.map (fun p => (p.1, ([] : List String))))
      (g.length + ((g.map (fun p => p.2.length)).sum) + 1)
      (keys g) (g.map (fun p => (p.1, (0 : Int)))) [] = keys g := by
    rw [hloop _ _ _ _ hfuel]
    rfl
  show (if (kahnLoop (buildRev g).1
      (g.length + ((g.map (fun p => p.2.length)).sum) + 1)
      (initQueue (buildRev g).2) (buildRev g).2 []).length ≠ g.length
    then keys g
    else kahnLoop (buildRev g).1
      (g.length + ((g.map (fun p => p.2.length)).sum) + 1)
      (initQueue (buildRev g).2) (buildRev g).2 []) = keys g
  rw [hbr]
  dsimp only
  rw [hq0, hR, if_neg (fun hc => hc (List.length_map _ _))]

/-- C3 (corrected): the two ordering algorithms are deterministic functions
of the graph in this model, but only `dependency_first_dfs` breaks ties by
sorted id order; `topological_sort` emits simultaneously-ready nodes in
dict insertion order.  When every node of the resolved graph is
immediately ready (no remaining dependencies), the DFS returns exactly the
sorted key list while Kahn returns the keys in insertion order. -/
theorem C3_tie_break (g : Graph) (hk : (keys g).Nodup)
    (hE : ∀ p ∈ resolve_cycles g, p.2 = ([] : List String)) :
    dependency_first_dfs g = pySorted (keys g) ∧
      topological_sort g = keys g := by
  have hkeys := keys_resolve g
  have hE' : ∀ x, getAdj (resolve_cycles g) x = [] := by
    intro x
    unfold getAdj
    cases hl : alookup (resolve_cycles g) x with
    | none => rfl
    | some l => exact hE (x, l) (alookup_mem hl)
  have hk' : (keys (resolve_cycles g)).Nodup := by
    rw [hkeys]
    exact hk
  constructor
  · show dfsCore (resolve_cycles g) = pySorted (keys g)
    rw [dfs_edgeless (resolve_cycles g) hE' hk', hkeys]
  · show kahnCore (resolve_cycles g) = keys g
    rw [kahn_edgeless (resolve_cycles g) hE, hkeys]

/-- C3's counterexample: with the two independent nodes inserted as
`b` then `a`, `topological_sort` emits `["b", "a"]` — dict order, not the
sorted tie-break the claim asserts — while `dependency_first_dfs` does
sort. -/
theorem C3_counterexample :
    topological_sort [("b", []), ("a", [])] = ["b", "a"] ∧
    pySorted (keys [("b", []), ("a", [])]) = ["a", "b"] ∧
    topological_sort [("b", []), ("a", [])] ≠
      pySorted (keys [("b", []), ("a", [])]) ∧
    dependency_first_dfs [("b", []), ("a", [])] =
      pySorted (keys [("b", []), ("a", [])]) := by
  decide

/-- Witness for C3 on the two-node dependency-free graph. -/
theorem C3_tie_break_witness :
    dependency_first_dfs [("b", []), ("a", [])] =
      pySorted (keys [("b", []), ("a", [])]) ∧
    topological_sort [("b", []), ("a", [])] = keys [("b", []), ("a", [])] :=
  C3_tie_break [("b", []), ("a", [])] (by decide) (by decide)

end CodeIQ
